import Mathlib

/-!
Verification of the SyncDB storage layer: the order-preserving value codec,
the record/table model, the range scanner, schema creation, and the
free-page list.  Bytes are modelled as natural numbers (each byte of the
running program is below 256); machine-integer overflow is made explicit
with `% 2 ^ 64` style arithmetic.  Go `panic`/`assert` failures are
modelled as `none` / a `fatal` error value, ordinary returned errors as
structured error values carrying the same message text as the source.
-/

set_option maxHeartbeats 1000000
set_option maxRecDepth 100000

namespace SyncDB

/-- Big-endian 8-byte encoding of a 64-bit word (binary.BigEndian.PutUint64). -/
def be64 (u : Nat) : List Nat :=
  [u / 2 ^ 56 % 256, u / 2 ^ 48 % 256, u / 2 ^ 40 % 256, u / 2 ^ 32 % 256,
   u / 2 ^ 24 % 256, u / 2 ^ 16 % 256, u / 2 ^ 8 % 256, u % 256]

/-- Big-endian 4-byte encoding of a 32-bit word (binary.BigEndian.PutUint32). -/
def be32 (u : Nat) : List Nat :=
  [u / 2 ^ 24 % 256, u / 2 ^ 16 % 256, u / 2 ^ 8 % 256, u % 256]

/-- Recombine big-endian bytes into a number (binary.BigEndian.Uint64 reads
the first 8 bytes; the caller takes those 8 bytes). -/
def beRead (bs : List Nat) : Nat :=
  bs.foldl (fun a b => a * 256 + b) 0

/-- Recursive presentation of the k-byte big-endian encoding, used to reason
about `be64` by induction. -/
def beN : Nat → Nat → List Nat
  | 0, _ => []
  | k + 1, u => beN k (u / 256) ++ [u % 256]

/-- Little-endian 4-byte encoding (binary.LittleEndian.PutUint32). -/
def le32 (u : Nat) : List Nat :=
  [u % 256, u / 2 ^ 8 % 256, u / 2 ^ 16 % 256, u / 2 ^ 24 % 256]

/-- Little-endian 32-bit read (binary.LittleEndian.Uint32); `none` models the
Go slice-bounds panic when fewer than 4 bytes are available. -/
def leRead32 (bs : List Nat) : Option Nat :=
  match bs with
  | b0 :: b1 :: b2 :: b3 :: _ => some (b0 + b1 * 2 ^ 8 + b2 * 2 ^ 16 + b3 * 2 ^ 24)
  | _ => none

/-- Strict lexicographic byte-wise order, the order `bytes.Compare` induces on
keys of the underlying store (unsigned byte comparison). -/
def lexLt : List Nat → List Nat → Bool
  | [], [] => false
  | [], _ :: _ => true
  | _ :: _, [] => false
  | a :: x, b :: y => a < b || (a = b && lexLt x y)

/-- Three-way byte comparison as in Go's bytes.Compare. -/
def cmpBytes : List Nat → List Nat → Int
  | [], [] => 0
  | [], _ :: _ => -1
  | _ :: _, [] => 1
  | a :: x, b :: y => if a < b then -1 else if b < a then 1 else cmpBytes x y

/-- Column type tags from table.go. -/
def TYPE_ERROR : Nat := 0

/-- BYTES column type tag. -/
def TYPE_BYTES : Nat := 1

/-- INT64 column type tag. -/
def TYPE_INT64 : Nat := 2

/-- A table cell (struct Value of table.go): a type tag plus both payload
fields, exactly as the Go struct holds them. -/
structure Value where
  type : Nat
  i64 : Int
  str : List Nat
  deriving DecidableEq, Repr

/-- The zero Go Value (unset cell produced by make([]Value, n)). -/
def Value.zero : Value := ⟨0, 0, []⟩

/-- A BYTES cell as built by Record.AddStr. -/
def Value.mkBytes (s : List Nat) : Value := ⟨TYPE_BYTES, 0, s⟩

/-- An INT64 cell as built by Record.AddInt64. -/
def Value.mkInt (v : Int) : Value := ⟨TYPE_INT64, v, []⟩

/-- escapeString's per-byte transform: bytes 0x00 and 0x01 become the pair
(0x01, byte+1); all other bytes pass through. -/
def escAux : List Nat → List Nat
  | [] => []
  | c :: rest => if c ≤ 1 then 1 :: (c + 1) :: escAux rest else c :: escAux rest

/-- escapeString from table.go: if no byte needs escaping the input is
returned as is, otherwise the escaped copy is built. -/
def escapeString (inp : List Nat) : List Nat :=
  if inp.count 0 + inp.count 1 = 0 then inp else escAux inp

/-- unescapeString's loop; `none` models the Go panics (assert that an
escape is followed by 1 or 2, index-out-of-range on a trailing 0x01). -/
def unescAux : List Nat → Option (List Nat)
  | [] => some []
  | b :: bs =>
    if b = 1 then
      match bs with
      | [] => none
      | c :: rest =>
        if c = 1 ∨ c = 2 then (unescAux rest).map (fun l => (c - 1) :: l) else none
    else (unescAux bs).map (fun l => b :: l)

/-- unescapeString from table.go (with its early return when no 0x01 occurs). -/
def unescapeString (inp : List Nat) : Option (List Nat) :=
  if inp.count 1 = 0 then some inp else unescAux inp

/-- Wrap-around view of a signed 64-bit value as unsigned, plus the sign-bit
flip: uint64(v.I64) + (1 << 63) computed modulo 2^64. -/
def int64Flip (v : Int) : Nat :=
  ((v + 2 ^ 63).emod (2 ^ 64)).toNat

/-- Inverse of the sign-bit flip: int64(u - (1 << 63)) with two's-complement
reinterpretation. -/
def int64Unflip (u : Nat) : Int :=
  if u < 2 ^ 63 then (u : Int) - 2 ^ 63 else ((u - 2 ^ 63 : Nat) : Int)

/-- encodeValues from table.go: order-preserving encoding of a value
sequence appended onto the accumulator `out`; `none` models the panic on an
unknown type tag. -/
def encodeValues (out : List Nat) : List Value → Option (List Nat)
  | [] => some out
  | v :: vs =>
    if v.type = TYPE_INT64 then
      encodeValues (out ++ be64 (int64Flip v.i64)) vs
    else if v.type = TYPE_BYTES then
      encodeValues (out ++ escapeString v.str ++ [0]) vs
    else none

/-- encodeKey from table.go: the 4-byte big-endian table prefix followed by
the encoded values. -/
def encodeKey (out : List Nat) (pfx : Nat) (vals : List Value) : Option (List Nat) :=
  encodeValues (out ++ be32 pfx) vals

/-- decodeValues from table.go.  The second argument is the type shape (the
Type tags pre-set in the output slice); `none` models the asserts: a BYTES
value with no NUL terminator, a corrupt escape, fewer than 8 bytes for an
INT64, leftover input, an unknown tag. -/
def decodeValues : List Nat → List Nat → Option (List Value)
  | inp, [] => if inp = [] then some [] else none
  | inp, t :: ts =>
    if t = TYPE_INT64 then
      if 8 ≤ inp.length then
        (decodeValues (inp.drop 8) ts).map
          (fun vs => Value.mkInt (int64Unflip (beRead (inp.take 8))) :: vs)
      else none
    else if t = TYPE_BYTES then
      match inp.findIdx? (fun b => b = 0) with
      | some idx =>
        (unescapeString (inp.take idx)).bind fun s =>
          (decodeValues (inp.drop (idx + 1)) ts).map (fun vs => Value.mkBytes s :: vs)
      | none => none
    else none

/-- decodeKey from table.go: skip the 4-byte prefix, then decode. -/
def decodeKey (inp : List Nat) (types : List Nat) : Option (List Value) :=
  decodeValues (inp.drop 4) types

/-- A value is well formed when its tag is BYTES or INT64, the unused payload
field holds the Go zero value, and an INT64 payload fits in a signed 64-bit
machine word (as it always does in the running program). -/
def ValidVal (v : Value) : Prop :=
  (v.type = TYPE_BYTES ∧ v.i64 = 0) ∨
  (v.type = TYPE_INT64 ∧ v.str = [] ∧ -2 ^ 63 ≤ v.i64 ∧ v.i64 < 2 ^ 63)

instance (v : Value) : Decidable (ValidVal v) := by
  unfold ValidVal; infer_instance

/-- Errors of the table layer.  Each constructor corresponds to one
fmt.Errorf site of table.go (see `errMsg` for the exact message text);
`fatal` stands for a Go panic / failed assert (corruption, never a returned
error). -/
inductive DBErr where
  | badRange : DBErr
  | badColType (c : String) : DBErr
  | missingCol (c : String) : DBErr
  | extraCol (c : String) : DBErr
  | missingColGV (c : String) : DBErr
  | tableNotFound (n : String) : DBErr
  | tableExists (n : String) : DBErr
  | badSchema (n : String) : DBErr
  | fatal : DBErr
  deriving DecidableEq, Repr

deriving instance DecidableEq for Except

/-- The exact message text each error is rendered with in table.go. -/
def errMsg : DBErr → String
  | .badRange => "bad range"
  | .badColType c => "bad column type: " ++ c
  | .missingCol c => "missing column: " ++ c
  | .extraCol c => "extra column: " ++ c
  | .missingColGV c => "missing col.: " ++ c
  | .tableNotFound n => "table not found: " ++ n
  | .tableExists n => "table exists: " ++ n
  | .badSchema n => "bad table schema: " ++ n
  | .fatal => "panic"

/-- A table schema (struct TableDef of table.go).  The source declares the
fields `Prefixes []uint32` and no PKeys, while every use site reads the
singular `tdef.Prefix` and `tdef.PKeys`; following the specification
(design note on the transcription artifact) the intended shape is one
prefix and one primary-key count per table, modelled here as `pfx` and
`pkeys`. -/
structure TableDef where
  name : String
  types : List Nat
  cols : List String
  pkeys : Nat
  pfx : Nat
  indexes : List (List String)
  deriving DecidableEq, Repr

/-- A list of column names and values (struct Record of table.go). -/
structure Record where
  cols : List String
  vals : List Value
  deriving DecidableEq, Repr

/-- Record.Get: the value of the first column with the given name.  (When
the name occurs at a position with no parallel value, Go would panic
indexing Vals; theorems about records add the length side condition.) -/
def Record.get (rec : Record) (key : String) : Option Value :=
  match rec.cols.findIdx? (fun c => c = key) with
  | some i => rec.vals.get? i
  | none => none

/-- Record.AddStr from table.go. -/
def Record.addStr (rec : Record) (col : String) (val : List Nat) : Record :=
  ⟨rec.cols ++ [col], rec.vals ++ [Value.mkBytes val]⟩

/-- Record.AddInt64 from table.go. -/
def Record.addInt64 (rec : Record) (col : String) (val : Int) : Record :=
  ⟨rec.cols ++ [col], rec.vals ++ [Value.mkInt val]⟩

/-- Replace the value of the first column with the given name (models Go
code that writes through the pointer returned by Record.Get). -/
def Record.setVal (rec : Record) (key : String) (v : Value) : Record :=
  match rec.cols.findIdx? (fun c => c = key) with
  | some i => ⟨rec.cols, rec.vals.set i v⟩
  | none => rec

/-- Loop body of reorderRecord: walk the schema columns (with their
position), leaving absent columns as the zero Value and type-checking
present ones.  The type tag of position i is only read when the column is
present, exactly as in the source; `fatal` models the out-of-range panic of
tdef.Types[i]. -/
def reorderGo (tdef : TableDef) (rec : Record) : List String → Nat → Except DBErr (List Value)
  | [], _ => .ok []
  | c :: cs, i =>
    match rec.get c with
    | none => (reorderGo tdef rec cs (i + 1)).map (fun out => Value.zero :: out)
    | some v =>
      match tdef.types.get? i with
      | none => .error .fatal
      | some ty =>
        if v.type ≠ ty then .error (.badColType c)
        else (reorderGo tdef rec cs (i + 1)).map (fun out => v :: out)

/-- reorderRecord from table.go: produce the schema-ordered value sequence.
The leading `assert(len(rec.Cols) == len(rec.Vals))` is modelled as a fatal
error. -/
def reorderRecord (tdef : TableDef) (rec : Record) : Except DBErr (List Value) :=
  if rec.cols.length = rec.vals.length then reorderGo tdef rec tdef.cols 0
  else .error .fatal

/-- Loop body of valuesComplete: position i must be set below n and unset
from n on, the offending schema column being named in the error. -/
def valuesCompleteGo (tdef : TableDef) (n : Nat) : List Value → Nat → Except DBErr Unit
  | [], _ => .ok ()
  | v :: vs, i =>
    if i < n ∧ v.type = TYPE_ERROR then .error (.missingCol (tdef.cols.getD i ""))
    else if n ≤ i ∧ v.type ≠ TYPE_ERROR then .error (.extraCol (tdef.cols.getD i ""))
    else valuesCompleteGo tdef n vs (i + 1)

/-- valuesComplete from table.go. -/
def valuesComplete (tdef : TableDef) (vals : List Value) (n : Nat) : Except DBErr Unit :=
  valuesCompleteGo tdef n vals 0

/-- checkRecord from table.go: reorder, then verify exactly the first n
columns are present. -/
def checkRecord (tdef : TableDef) (rec : Record) (n : Nat) : Except DBErr (List Value) := do
  let vals ← reorderRecord tdef rec
  let _ ← valuesComplete tdef vals n
  .ok vals

/-- Loop body of getValues: walk the requested columns with their position i
in the request.  A missing requested column is reported with the name
tdef.Cols[i] — the schema column at the request position, exactly as the
source does; `fatal` models the panics (tdef.Cols[i] out of range, or
slices.Index returning -1 feeding tdef.Types[-1]). -/
def getValuesGo (tdef : TableDef) (rec : Record) : List String → Nat → Except DBErr (List Value)
  | [], _ => .ok []
  | c :: cs, i =>
    match rec.get c with
    | none =>
      match tdef.cols.get? i with
      | some nm => .error (.missingColGV nm)
      | none => .error .fatal
    | some v =>
      match tdef.cols.findIdx? (fun c2 => c2 = c) with
      | none => .error .fatal
      | some j =>
        match tdef.types.get? j with
        | none => .error .fatal
        | some ty =>
          if v.type ≠ ty then .error (.badColType c)
          else (getValuesGo tdef rec cs (i + 1)).map (fun out => v :: out)

/-- getValues from table.go: extract the requested columns in request
order. -/
def getValues (tdef : TableDef) (rec : Record) (cols : List String) : Except DBErr (List Value) :=
  getValuesGo tdef rec cols 0

/-- Comparator codes of the underlying ordered store.  Modelled from the
spec: the table layer only relies on the sign (positive = ascending bound,
negative = descending) and on the four relations GE/GT/LT/LE; the concrete
numbers are not in the provided sources. -/
def CMP_GE : Int := 3

/-- Greater-than seek comparator (ascending, exclusive). -/
def CMP_GT : Int := 2

/-- Less-than seek comparator (descending, exclusive). -/
def CMP_LT : Int := -2

/-- Less-or-equal seek comparator (descending, inclusive). -/
def CMP_LE : Int := -3

/-- Modelled from the spec: cmpOk of the underlying store tests a key
against a reference under the given comparator (used by Seek positioning
and by Scanner.Valid for the end bound). -/
def cmpOk (key : List Nat) (cmp : Int) (ref : List Nat) : Bool :=
  let r := cmpBytes key ref
  if cmp = CMP_GE then decide (0 ≤ r)
  else if cmp = CMP_GT then decide (0 < r)
  else if cmp = CMP_LT then decide (r < 0)
  else if cmp = CMP_LE then decide (r ≤ 0)
  else false

/-- Update modes of the key-value store.  Modelled from the spec: upsert is
the zero value (a DBUpdateReq built without a Mode is an upsert). -/
def MODE_UPSERT : Nat := 0

/-- Update-only mode (fail silently if the key is absent). -/
def MODE_UPDATE_ONLY : Nat := 1

/-- Insert-only mode (do nothing if the key already exists). -/
def MODE_INSERT_ONLY : Nat := 2

/-- Modelled from the spec: the external ordered key-value store, kept as a
list of key/value pairs sorted strictly by unsigned byte-wise key order. -/
structure KV where
  entries : List (List Nat × List Nat)
  deriving DecidableEq, Repr

/-- Insert or replace a key in the sorted entry list, keeping it sorted. -/
def kvInsert (key val : List Nat) : List (List Nat × List Nat) → List (List Nat × List Nat)
  | [] => [(key, val)]
  | e :: rest =>
    if lexLt key e.1 then (key, val) :: e :: rest
    else if key = e.1 then (key, val) :: rest
    else e :: kvInsert key val rest

/-- Modelled from the spec: KV.Update applies the conditional write and
reports (added, updated). -/
def kvUpdate (kv : KV) (key val : List Nat) (mode : Nat) : (Bool × Bool × KV) :=
  let present := (kv.entries.find? (fun e => e.1 = key)).isSome
  if present then
    if mode = MODE_INSERT_ONLY then (false, false, kv)
    else (false, true, ⟨kvInsert key val kv.entries⟩)
  else
    if mode = MODE_UPDATE_ONLY then (false, false, kv)
    else (true, true, ⟨kvInsert key val kv.entries⟩)

/-- Modelled from the spec: KV.Del removes a key and reports whether it
existed. -/
def kvDel (kv : KV) (key : List Nat) : (Bool × KV) :=
  let present := (kv.entries.find? (fun e => e.1 = key)).isSome
  (present, ⟨kv.entries.filter (fun e => e.1 ≠ key)⟩)

/-- Modelled from the spec: a positioned iterator into the ordered store (a
B+Tree iterator in the running program).  `pos` may sit one step outside
the entry range in either direction. -/
structure BIter where
  entries : List (List Nat × List Nat)
  pos : Int
  deriving DecidableEq, Repr

/-- BIter.Valid: the iterator is on an entry. -/
def BIter.bvalid (it : BIter) : Bool :=
  decide (0 ≤ it.pos) && decide (it.pos < (it.entries.length : Int))

/-- BIter.Deref: the entry under the cursor. -/
def BIter.bderef (it : BIter) : (List Nat × List Nat) :=
  it.entries.getD it.pos.toNat ([], [])

/-- BIter.Next. -/
def BIter.bnext (it : BIter) : BIter := ⟨it.entries, it.pos + 1⟩

/-- BIter.Prev. -/
def BIter.bprev (it : BIter) : BIter := ⟨it.entries, it.pos - 1⟩

/-- Modelled from the spec: tree.Seek positions an iterator at the first
(ascending comparator) or last (descending) entry satisfying the comparator
against the seek key; out of range when no entry does. -/
def treeSeek (entries : List (List Nat × List Nat)) (key : List Nat) (cmp : Int) : BIter :=
  if 0 < cmp then
    match entries.findIdx? (fun e => cmpOk e.1 cmp key) with
    | some i => ⟨entries, i⟩
    | none => ⟨entries, entries.length⟩
  else
    match entries.reverse.findIdx? (fun e => cmpOk e.1 cmp key) with
    | some i => ⟨entries, (entries.length : Int) - 1 - i⟩
    | none => ⟨entries, -1⟩

/-- A database handle (struct DB of table.go): the kv store and the
in-memory schema cache. -/
structure DBS where
  kv : KV
  tables : List (String × TableDef)
  deriving DecidableEq, Repr

/-- The range scanner (struct Scanner of table.go): the two comparators and
boundary records given by the caller, plus the internal fields filled by
dbScan. -/
structure Scanner where
  cmp1 : Int
  cmp2 : Int
  key1 : Record
  key2 : Record
  tdef : TableDef
  iter : BIter
  keyEnd : List Nat
  deriving DecidableEq, Repr

/-- Scanner.Valid from table.go: the underlying iterator is on an entry and
that entry still satisfies the Cmp2 bound against the encoded end key. -/
def Scanner.valid (sc : Scanner) : Bool :=
  if sc.iter.bvalid then cmpOk sc.iter.bderef.1 sc.cmp2 sc.keyEnd else false

/-- Scanner.Next from table.go: move forward when Cmp1 is ascending,
backward otherwise.  (The source asserts Valid first; the claims only apply
it to valid cursors.) -/
def Scanner.snext (sc : Scanner) : Scanner :=
  if 0 < sc.cmp1 then { sc with iter := sc.iter.bnext } else { sc with iter := sc.iter.bprev }

/-- Scanner.Deref from table.go: decode the current key into the
primary-key columns and the current value into the remaining columns;
`none` models the decode asserts (corruption). -/
def Scanner.sderef (sc : Scanner) : Option Record :=
  let kvpair := sc.iter.bderef
  (decodeKey kvpair.1 (sc.tdef.types.take sc.tdef.pkeys)).bind fun pkVals =>
    (decodeValues kvpair.2 (sc.tdef.types.drop sc.tdef.pkeys)).map fun restVals =>
      ⟨sc.tdef.cols, pkVals ++ restVals⟩

/-- Lift the optional result of an encoder to the error monad (`none` is a
panic, hence fatal). -/
def liftOpt {α : Type} : Option α → Except DBErr α
  | some a => .ok a
  | none => .error .fatal

/-- dbScan from table.go: validate the comparator directions, reorder and
validate both boundary records against exactly the primary-key columns,
encode both bounds and seek the iterator to the start bound. -/
def dbScan (db : DBS) (tdef : TableDef) (cmp1 cmp2 : Int) (key1 key2 : Record) :
    Except DBErr Scanner :=
  if (0 < cmp1 ∧ cmp2 < 0) ∨ (cmp1 < 0 ∧ 0 < cmp2) then do
    let val1 ← checkRecord tdef key1 tdef.pkeys
    let val2 ← checkRecord tdef key2 tdef.pkeys
    let keyStart ← liftOpt (encodeKey [] tdef.pfx (val1.take tdef.pkeys))
    let keyEnd ← liftOpt (encodeKey [] tdef.pfx (val2.take tdef.pkeys))
    .ok ⟨cmp1, cmp2, key1, key2, tdef, treeSeek db.kv.entries keyStart cmp1, keyEnd⟩
  else .error .badRange

/-- dbGet from table.go: extract the primary key from the record, run an
exact-match scan (GE and LE on the same key), and decode the found row. -/
def dbGet (db : DBS) (tdef : TableDef) (rec : Record) : Except DBErr (Bool × Record) := do
  match tdef.indexes with
  | [] => .error .fatal
  | idx0 :: _ => do
    let vals ← getValues tdef rec idx0
    let sc ← dbScan db tdef CMP_GE CMP_LE ⟨idx0, vals⟩ ⟨idx0, vals⟩
    if sc.valid then
      match sc.sderef with
      | some r => .ok (true, r)
      | none => .error .fatal
    else .ok (false, rec)

/-- dbUpdate from table.go: require a fully specified record, split the
schema-ordered values at PKeys into key and value halves, encode both and
delegate to the store's conditional update.  Returns (added, updated, new
store state). -/
def dbUpdate (db : DBS) (tdef : TableDef) (rec : Record) (mode : Nat) :
    Except DBErr (Bool × Bool × DBS) := do
  let values ← checkRecord tdef rec tdef.cols.length
  let key ← liftOpt (encodeKey [] tdef.pfx (values.take tdef.pkeys))
  let val ← liftOpt (encodeValues [] (values.drop tdef.pkeys))
  let (added, updated, kv) := kvUpdate db.kv key val mode
  .ok (added, updated, { db with kv := kv })

/-- dbDelete from table.go: require only the primary-key columns and
delegate to the store's delete. -/
def dbDelete (db : DBS) (tdef : TableDef) (rec : Record) : Except DBErr (Bool × DBS) := do
  let vals ← checkRecord tdef rec tdef.pkeys
  let key ← liftOpt (encodeKey [] tdef.pfx (vals.take tdef.pkeys))
  let (existed, kv) := kvDel db.kv key
  .ok (existed, { db with kv := kv })

/-- The bytes of a string ([]byte(name) in Go), modelled as the code points
of its characters (an injective byte encoding, as UTF-8 is). -/
def strBytes (s : String) : List Nat :=
  s.toList.map Char.toNat

/-- TDEF_META from table.go: the internal key/value metadata table,
prefix 1, keyed by its first column.  PKeys is 1 per the spec's resolution
of the schema-shape transcription artifact. -/
def TDEF_META : TableDef :=
  ⟨"@meta", [TYPE_BYTES, TYPE_BYTES], ["key", "val"], 1, 1, [["key"]]⟩

/-- TDEF_TABLE from table.go: the internal schema table, prefix 2. -/
def TDEF_TABLE : TableDef :=
  ⟨"@table", [TYPE_BYTES, TYPE_BYTES], ["name", "def"], 1, 2, [["name"]]⟩

/-- getTableDef from table.go: internal tables first, then the handle's
cache, then the stored schemas (the fallback deserialization path is not
needed by the claims checked here and would require modelling
json.Unmarshal; lookups used below stay within the first two steps). -/
def getTableDef (db : DBS) (name : String) : Option TableDef :=
  if name = "@meta" then some TDEF_META
  else if name = "@table" then some TDEF_TABLE
  else (db.tables.find? (fun e => e.1 = name)).map (fun e => e.2)

/-- The minimum prefix of a user table (TABLE_PREFIX_MIN in table.go). -/
def TABLE_PFX_MIN : Nat := 100

/-- tableDefCheck from table.go: non-empty name and columns, matching
column/type counts, primary-key count in range. -/
def tableDefCheck (tdef : TableDef) : Except DBErr Unit :=
  if tdef.name = "" ∨ tdef.cols.length = 0 ∨ tdef.cols.length ≠ tdef.types.length ∨
      ¬(1 ≤ tdef.pkeys ∧ tdef.pkeys ≤ tdef.cols.length) then
    .error (.badSchema tdef.name)
  else .ok ()

/-- Modelled from the spec: json.Marshal of a TableDef — an opaque
serialized form persisted under @table and never re-read by the claims
checked here. -/
def tdefSerialize (tdef : TableDef) : List Nat :=
  strBytes tdef.name ++ [0] ++ le32 tdef.pfx ++ [tdef.pkeys]

/-- TableNew from table.go: validate the schema, reject an existing name,
allocate the next prefix from the little-endian counter stored under
"next_prefix" in @meta (seeding at TABLE_PREFIX_MIN on first use), persist
the incremented counter and the serialized schema.  Returns the definition
with its assigned prefix and the new handle state.  Failed asserts
(non-zero input prefix, a stored counter not above the minimum, an error
from the internal lookups) are fatal. -/
def tableNew (db : DBS) (tdef : TableDef) : Except DBErr (TableDef × DBS) := do
  let _ ← tableDefCheck tdef
  let table0 := Record.addStr ⟨[], []⟩ "name" (strBytes tdef.name)
  let lookup ← match dbGet db TDEF_TABLE table0 with
    | .error _ => .error .fatal
    | .ok r => pure r
  if lookup.1 then .error (.tableExists tdef.name)
  else do
  if tdef.pfx ≠ 0 then .error .fatal
  else do
  let meta0 := Record.addStr ⟨[], []⟩ "key" (strBytes "next_prefix")
  let mlookup ← match dbGet db TDEF_META meta0 with
    | .error _ => .error .fatal
    | .ok r => pure r
  let (pfx, meta1) ←
    if mlookup.1 then
      match (mlookup.2.get "val").bind (fun v => leRead32 v.str) with
      | some p => if TABLE_PFX_MIN < p then pure (p, mlookup.2) else .error .fatal
      | none => .error .fatal
    else
      pure (TABLE_PFX_MIN, meta0.addStr "val" [0, 0, 0, 0])
  let meta2 := meta1.setVal "val" (Value.mkBytes (le32 (pfx + 1)))
  let (_, _, db1) ← dbUpdate db TDEF_META meta2 MODE_UPSERT
  let tdef1 := { tdef with pfx := pfx }
  let table1 := table0.addStr "def" (tdefSerialize tdef1)
  let (_, _, db2) ← dbUpdate db1 TDEF_TABLE table1 MODE_UPSERT
  .ok (tdef1, db2)

/-- A fresh database handle: empty store, empty schema cache. -/
def freshDB : DBS := ⟨⟨[]⟩, []⟩

/-- A small concrete two-column schema used to exercise the record
operations on explicit inputs. -/
def tdefAB : TableDef :=
  ⟨"t", [TYPE_INT64, TYPE_INT64], ["a", "b"], 1, 100, [["a"]]⟩

/-- The modelled store keeps its entries strictly sorted by key. -/
def kvSorted (l : List (List Nat × List Nat)) : Prop :=
  l.Pairwise (fun a b => lexLt a.1 b.1 = true)

/-- The raw stored value under a key, if present. -/
def kvLookup (k : List Nat) (l : List (List Nat × List Nat)) : Option (List Nat) :=
  (l.find? (fun e => e.1 = k)).map (fun e => e.2)

/-- The encoded store key of the @meta row holding the next-prefix counter. -/
def metaKey : List Nat :=
  be32 1 ++ escapeString (strBytes "next_prefix") ++ [0]

/-- The encoded store key of a table's schema row in @table. -/
def tableKey (nm : String) : List Nat :=
  be32 2 ++ escapeString (strBytes nm) ++ [0]

/-- State of the store after successfully creating the named user tables on
a fresh database: sorted entries, the next-prefix counter at
TABLE_PREFIX_MIN + (number of tables) once any table exists, and schema
rows only for the created names. -/
def C6Inv (names : List String) (db : DBS) : Prop :=
  kvSorted db.kv.entries ∧
  kvLookup metaKey db.kv.entries =
    (if names.length = 0 then none
     else some (escapeString (le32 (TABLE_PFX_MIN + names.length)) ++ [0])) ∧
  (∀ nm : String, kvLookup (tableKey nm) db.kv.entries ≠ none → nm ∈ names)

/-- A table with a single INT64 primary-key column, for the scan-boundary
scenario. -/
def tdefPts : TableDef := ⟨"pts", [TYPE_INT64], ["id"], 1, 100, [["id"]]⟩

/-- The single-column record with id = k. -/
def recId (k : Int) : Record := ⟨["id"], [Value.mkInt k]⟩

/-- Insert one INT64 key into the scenario table (the handle is returned
unchanged if the update fails, which does not happen below). -/
def insertPt (db : DBS) (k : Int) : DBS :=
  match dbUpdate db tdefPts (recId k) MODE_INSERT_ONLY with
  | .ok r => r.2.2
  | .error _ => db

/-- A handle whose single table holds exactly the rows with keys 1, 2, 3, 5. -/
def dbPts : DBS := insertPt (insertPt (insertPt (insertPt freshDB 1) 2) 3) 5

/-- Drive a scanner with Valid/Deref/Next until exhaustion (with fuel), the
caller-side iteration protocol of the source. -/
def scanRows : Nat → Scanner → List (Option Record)
  | 0, _ => []
  | f + 1, sc => if sc.valid then sc.sderef :: scanRows f sc.snext else []

/-- Run tableNew over a list of definitions, collecting the assigned
definitions. -/
def tableNewRun (db : DBS) : List TableDef → Except DBErr (List TableDef × DBS)
  | [] => .ok ([], db)
  | t :: ts => do
    let (t1, db1) ← tableNew db t
    let (rest, db2) ← tableNewRun db1 ts
    .ok (t1 :: rest, db2)

/-- The shape the two internal tables share: two BYTES columns, the first
being the single primary-key column and the only index. -/
def intTD (nmT c0 c1 : String) (p : Nat) : TableDef :=
  ⟨nmT, [TYPE_BYTES, TYPE_BYTES], [c0, c1], 1, p, [[c0]]⟩

/-- The encoded store key of a row of an internal-shaped table: the 4-byte
big-endian prefix, the escaped key bytes and the NUL terminator. -/
def intKey (p : Nat) (kb : List Nat) : List Nat :=
  be32 p ++ (escapeString kb ++ [0])

/-! ### The free list (src/unnamed/part_000)

BTREE_PAGE_SIZE is defined outside the provided sources, so the node
capacity FREE_LIST_CAP = (BTREE_PAGE_SIZE - 8) / 8 is kept as an explicit
parameter `cap` of every free-list operation; `seq2idx` is `· % cap`.
A list node (LNode) is a next-pointer plus a slot array; a page store keeps
one node per page id, and the allocator hands out ids from a counter. -/

/-- A free-list node: the 8-byte next pointer header plus the pointer
slots (LNode of the source). -/
structure LN where
  next : Nat
  ptrs : Nat → Nat

/-- The free-list state: the page store (get/set/new of the source act on
`pages` and the allocation counter `fresh`), the head and tail positions
and the watermark. -/
structure FL where
  pages : Nat → LN
  fresh : Nat
  headPage : Nat
  headSeq : Nat
  tailPage : Nat
  tailSeq : Nat
  maxSeq : Nat

/-- Write one pointer slot of one page (LNode.setPtr through fl.set). -/
def updSlot (pages : Nat → LN) (p idx v : Nat) : Nat → LN :=
  fun q => if q = p then ⟨(pages p).next, fun j => if j = idx then v else (pages p).ptrs j⟩
           else pages q

/-- Write the next-pointer of one page (LNode.setNext through fl.set). -/
def updNext (pages : Nat → LN) (p v : Nat) : Nat → LN :=
  fun q => if q = p then ⟨v, (pages p).ptrs⟩ else pages q

/-- Install a zeroed page (fl.new appending make([]byte, BTREE_PAGE_SIZE)). -/
def zeroPage (pages : Nat → LN) (p : Nat) : Nat → LN :=
  fun q => if q = p then ⟨0, fun _ => 0⟩ else pages q

/-- flPop from the source: nothing below the watermark means no item;
otherwise read the head slot and advance, unlinking (and reporting) the
exhausted head node when the head index wraps to zero.  Returns
(ptr, removed head node, new state).  The source's
assert(fl.headPage != 0) is a fatal corruption condition, not modelled as
a state change. -/
def flPop (cap : Nat) (s : FL) : Nat × Nat × FL :=
  if s.headSeq = s.maxSeq then (0, 0, s)
  else
    let node := s.pages s.headPage
    let ptr := node.ptrs (s.headSeq % cap)
    if (s.headSeq + 1) % cap = 0 then
      (ptr, s.headPage, { s with headSeq := s.headSeq + 1, headPage := node.next })
    else
      (ptr, 0, { s with headSeq := s.headSeq + 1 })

/-- PushTail from the source: write the tail slot and advance; when the
tail index wraps to zero, obtain a new tail node — from the list's own head
via flPop when possible, otherwise a freshly appended page — link it, and
re-push a head node removed in the process as the first entry of the new
tail node. -/
def pushTail (cap : Nat) (s : FL) (v : Nat) : FL :=
  let s1 : FL := { s with pages := updSlot s.pages s.tailPage (s.tailSeq % cap) v,
                          tailSeq := s.tailSeq + 1 }
  if s1.tailSeq % cap = 0 then
    let popped := flPop cap s1
    let nxt0 := popped.1
    let hd := popped.2.1
    let s2 := popped.2.2
    let nxt := if nxt0 = 0 then s2.fresh else nxt0
    let s3 : FL := if nxt0 = 0 then
        { s2 with pages := zeroPage s2.pages s2.fresh, fresh := s2.fresh + 1 }
      else s2
    let s4 : FL := { s3 with pages := updNext s3.pages s3.tailPage nxt, tailPage := nxt }
    if hd ≠ 0 then
      { s4 with pages := updSlot s4.pages s4.tailPage 0 hd, tailSeq := s4.tailSeq + 1 }
    else s4
  else s1

/-- PopHead from the source: pop one item; a head node reclaimed by the pop
is immediately re-pushed onto the tail instead of being returned. -/
def popHead (cap : Nat) (s : FL) : Nat × FL :=
  let popped := flPop cap s
  (popped.1, if popped.2.1 ≠ 0 then pushTail cap popped.2.2 popped.2.1 else popped.2.2)

/-- SetMaxSeq from the source: advance the watermark to the current tail. -/
def setMaxSeqFL (s : FL) : FL :=
  { s with maxSeq := s.tailSeq }

/-- Modelled from the spec: a fresh free list — one empty node, all
positions zero (the list's setup code is outside the provided sources). -/
def initFL : FL :=
  ⟨fun _ => ⟨0, fun _ => 0⟩, 2, 1, 0, 1, 0, 0⟩

/-- Push a whole list of page ids. -/
def pushMany (cap : Nat) (s : FL) : List Nat → FL
  | [] => s
  | v :: vs => pushMany cap (pushTail cap s v) vs

/-- Pop n times, collecting what PopHead hands to the caller. -/
def popMany (cap : Nat) : Nat → FL → List Nat × FL
  | 0, s => ([], s)
  | n + 1, s =>
    let p := popHead cap s
    let rest := popMany cap n p.2
    (p.1 :: rest.1, rest.2)

/-- The scenario of the FIFO claim: push all of vs onto a fresh list, call
SetMaxSeq, then pop as many times as values were pushed, returning what the
caller receives. -/
def fifoRun (cap : Nat) (vs : List Nat) : List Nat :=
  (popMany cap vs.length (setMaxSeqFL (pushMany cap initFL vs))).1

/-- The free-list counter invariant of the spec: headSeq ≤ maxSeq ≤ tailSeq. -/
def flCounterInv (s : FL) : Prop :=
  s.headSeq ≤ s.maxSeq ∧ s.maxSeq ≤ s.tailSeq

/-- Write consecutive slots j, j+1, ... of one page (the footprint of a
run of in-node PushTail calls). -/
def writeSlots (pages : Nat → LN) (p : Nat) : Nat → List Nat → (Nat → LN)
  | _, [] => pages
  | j, v :: vs => writeSlots (updSlot pages p j v) p (j + 1) vs

/-- One caller-visible free-list operation. -/
inductive FLOp where
  | push (v : Nat) : FLOp
  | pop : FLOp
  | setMax : FLOp
  deriving DecidableEq, Repr

/-- Apply one operation to the state (PopHead's returned value is dropped
here; `runOuts` collects it). -/
def flStep (cap : Nat) (s : FL) : FLOp → FL
  | .push v => pushTail cap s v
  | .pop => (popHead cap s).2
  | .setMax => setMaxSeqFL s

/-- Run a sequence of operations. -/
def flRun (cap : Nat) (s : FL) : List FLOp → FL
  | [] => s
  | op :: ops => flRun cap (flStep cap s op) ops

/-- Run a sequence of operations, collecting every value PopHead returns to
the caller. -/
def runOuts (cap : Nat) (s : FL) : List FLOp → List Nat
  | [] => []
  | .pop :: ops => (popHead cap s).1 :: runOuts cap (popHead cap s).2 ops
  | op :: ops => runOuts cap (flStep cap s op) ops

/-- Walk n next-pointers from page p, collecting the pages visited. -/
def walk (pages : Nat → LN) : Nat → Nat → List Nat
  | _, 0 => []
  | p, n + 1 => p :: walk pages ((pages p).next) n

/-- The node chain of the list as stored: the pages from the head node to
the tail node, one per occupied seq-number block. -/
def chainOf (cap : Nat) (s : FL) : List Nat :=
  walk s.pages s.headPage (s.tailSeq / cap - s.headSeq / cap + 1)

/-- The stored value of queue position t (headSeq ≤ t < tailSeq): slot
t % cap of the chain node covering t's block. -/
def slotVal (cap : Nat) (s : FL) (chain : List Nat) (t : Nat) : Nat :=
  (s.pages (chain.getD (t / cap - s.headSeq / cap) 0)).ptrs (t % cap)

/-- The queued page identifiers as stored, in queue order. -/
def stockOf (cap : Nat) (s : FL) : List Nat :=
  (List.range (s.tailSeq - s.headSeq)).map
    (fun i => slotVal cap s (chainOf cap s) (s.headSeq + i))

/-- A well-formed free-list state with node chain `chain` and queue
contents `stock`: ordered counters, a duplicate-free nonzero allocated
chain correctly linked with the head and tail nodes at its ends, one slot
per queue position holding the corresponding stock value, and queued
identifiers that are nonzero, allocated, mutually distinct and disjoint
from the chain. -/
def Good (cap : Nat) (s : FL) (chain stock : List Nat) : Prop :=
  s.headSeq ≤ s.maxSeq ∧ s.maxSeq ≤ s.tailSeq ∧
  0 < s.fresh ∧
  chain.length = s.tailSeq / cap - s.headSeq / cap + 1 ∧
  stock.length = s.tailSeq - s.headSeq ∧
  chain.Nodup ∧
  (∀ p ∈ chain, p ≠ 0 ∧ p < s.fresh) ∧
  s.headPage = chain.getD 0 0 ∧
  s.tailPage = chain.getD (chain.length - 1) 0 ∧
  (∀ i ∈ List.range (chain.length - 1),
    (s.pages (chain.getD i 0)).next = chain.getD (i + 1) 0) ∧
  (∀ i ∈ List.range (s.tailSeq - s.headSeq),
    (s.pages (chain.getD ((s.headSeq + i) / cap - s.headSeq / cap) 0)).ptrs
      ((s.headSeq + i) % cap) = stock.getD i 0) ∧
  stock.Nodup ∧
  (∀ w ∈ stock, w ≠ 0 ∧ w < s.fresh ∧ w ∉ chain)

/-- A page identifier may legally be handed to PushTail when it is nonzero,
already allocated, and currently neither a node of the list nor queued in
it (a genuinely free page). -/
def pushable (cap : Nat) (s : FL) (v : Nat) : Prop :=
  v ≠ 0 ∧ v < s.fresh ∧ v ∉ chainOf cap s ∧ v ∉ stockOf cap s

instance (cap : Nat) (s : FL) (v : Nat) : Decidable (pushable cap s v) := by
  unfold pushable
  infer_instance

/-- Every PushTail argument along the run is legal at its call state. -/
def legalOps (cap : Nat) (s : FL) : List FLOp → Prop
  | [] => True
  | .push v :: ops => pushable cap s v ∧ legalOps cap (pushTail cap s v) ops
  | .pop :: ops => legalOps cap (popHead cap s).2 ops
  | .setMax :: ops => legalOps cap (setMaxSeqFL s) ops

def legalOpsDec (cap : Nat) : (ops : List FLOp) → (s : FL) → Decidable (legalOps cap s ops)
  | [], _ => .isTrue trivial
  | .push v :: ops, s =>
    haveI := legalOpsDec cap ops (pushTail cap s v)
    decidable_of_iff (pushable cap s v ∧ legalOps cap (pushTail cap s v) ops) Iff.rfl
  | .pop :: ops, s => legalOpsDec cap ops (popHead cap s).2
  | .setMax :: ops, s => legalOpsDec cap ops (setMaxSeqFL s)

instance (cap : Nat) (s : FL) (ops : List FLOp) : Decidable (legalOps cap s ops) :=
  legalOpsDec cap ops s

instance (cap : Nat) (s : FL) (chain stock : List Nat) :
    Decidable (Good cap s chain stock) := by
  unfold Good
  infer_instance

/-- A concrete two-item list state (items 5 and 6 on node 1, tail node 2,
watermark at the tail) used to exercise the watermark barrier. -/
def c4wState : FL :=
  ⟨fun p => if p = 1 then ⟨2, fun j => if j = 0 then 5 else 6⟩ else ⟨0, fun _ => 0⟩,
   100, 1, 0, 2, 2, 2⟩

/-- One step of the barrier argument: the new state is again well formed,
the watermark is unchanged, the head only advances, and every queue
position still below the watermark keeps the value it held before the
step. -/
def StepOk (cap : Nat) (s s' : FL) (stock : List Nat) : Prop :=
  ∃ chain' stock', Good cap s' chain' stock' ∧
    s'.maxSeq = s.maxSeq ∧ s.headSeq ≤ s'.headSeq ∧
    ∀ t, s'.headSeq ≤ t → t < s.maxSeq →
      stock'.getD (t - s'.headSeq) 0 = stock.getD (t - s.headSeq) 0

/-! ### Properties of the value codec -/

theorem escAux_ne_zero : ∀ inp : List Nat, ∀ b ∈ escAux inp, b ≠ 0 := by
  intro inp
  induction inp with
  | nil => simp [escAux]
  | cons c rest ih =>
    intro b hb
    by_cases hc : c ≤ 1
    · simp only [escAux, if_pos hc, List.mem_cons] at hb
      rcases hb with h | h | h
      · omega
      · omega
      · exact ih b h
    · simp only [escAux, if_neg hc, List.mem_cons] at hb
      rcases hb with h | h
      · omega
      · exact ih b h

theorem escAux_of_clean : ∀ inp : List Nat, inp.count 0 = 0 → inp.count 1 = 0 → escAux inp = inp := by
  intro inp
  induction inp with
  | nil => intro _ _; rfl
  | cons c rest ih =>
    intro h0 h1
    rw [List.count_cons] at h0 h1
    have hc : ¬(c ≤ 1) := by
      by_contra h
      interval_cases c <;> simp_all
    simp only [escAux, if_neg hc]
    rw [ih (by omega) (by omega)]

theorem escapeString_eq (inp : List Nat) : escapeString inp = escAux inp := by
  unfold escapeString
  split
  · next h => exact (escAux_of_clean inp (by omega) (by omega)).symm
  · rfl

theorem unescAux_cons_ne (b : Nat) (bs : List Nat) (h : b ≠ 1) :
    unescAux (b :: bs) = (unescAux bs).map (fun l => b :: l) := by
  conv_lhs => unfold unescAux
  rw [if_neg h]

theorem unescAux_cons_one (c : Nat) (rest : List Nat) (h : c = 1 ∨ c = 2) :
    unescAux (1 :: c :: rest) = (unescAux rest).map (fun l => (c - 1) :: l) := by
  conv_lhs => unfold unescAux
  show (if c = 1 ∨ c = 2 then (unescAux rest).map (fun l => (c - 1) :: l) else none) = _
  rw [if_pos h]

theorem unescAux_escAux : ∀ inp : List Nat, unescAux (escAux inp) = some inp := by
  intro inp
  induction inp with
  | nil => rfl
  | cons c rest ih =>
    by_cases hc : c ≤ 1
    · simp only [escAux, if_pos hc]
      rw [unescAux_cons_one (c + 1) _ (by omega), ih]
      simp
    · have hc1 : c ≠ 1 := by omega
      simp only [escAux, if_neg hc]
      rw [unescAux_cons_ne c _ hc1, ih]
      rfl

theorem one_mem_escAux : ∀ inp : List Nat, inp.count 0 + inp.count 1 ≠ 0 → (1 : Nat) ∈ escAux inp := by
  intro inp
  induction inp with
  | nil => simp
  | cons c rest ih =>
    intro h
    by_cases hc : c ≤ 1
    · simp [escAux, if_pos hc]
    · have h0 : c ≠ 0 := by omega
      have h1 : c ≠ 1 := by omega
      rw [List.count_cons, List.count_cons] at h
      simp only [escAux, if_neg hc, List.mem_cons]
      right
      exact ih (by simp_all)

theorem unescape_escape (inp : List Nat) : unescapeString (escapeString inp) = some inp := by
  rw [escapeString_eq]
  unfold unescapeString
  split
  · next h =>
    by_cases hclean : inp.count 0 + inp.count 1 = 0
    · rw [escAux_of_clean inp (by omega) (by omega)]
    · exact absurd h (by
        have := one_mem_escAux inp hclean
        simp [List.count_eq_zero]
        exact this)
  · exact unescAux_escAux inp

theorem findIdx_zero_append_go (rest : List Nat) :
    ∀ xs : List Nat, (∀ b ∈ xs, b ≠ 0) → ∀ i,
      List.findIdx? (fun b => decide (b = 0)) (xs ++ 0 :: rest) i = some (xs.length + i) := by
  intro xs
  induction xs with
  | nil => intro _ i; simp [List.findIdx?_cons]
  | cons x xs ih =>
    intro h i
    have hx : x ≠ 0 := h x (by simp)
    simp only [List.cons_append, List.findIdx?_cons]
    rw [if_neg (by simpa using hx), ih (fun b hb => h b (by simp [hb])) (i + 1)]
    congr 1
    simp only [List.length_cons]
    omega

theorem findIdx_zero_append (xs rest : List Nat) (h : ∀ b ∈ xs, b ≠ 0) :
    List.findIdx? (fun b => decide (b = 0)) (xs ++ 0 :: rest) = some xs.length := by
  rw [findIdx_zero_append_go rest xs h 0]
  simp

theorem beRead_be64 (u : Nat) (h : u < 2 ^ 64) : beRead (be64 u) = u := by
  simp only [beRead, be64, List.foldl]
  omega

theorem int64Flip_lt (v : Int) : int64Flip v < 2 ^ 64 := by
  unfold int64Flip
  have h1 : 0 ≤ (v + 2 ^ 63).emod (2 ^ 64) := Int.emod_nonneg _ (by norm_num)
  have h2 : (v + 2 ^ 63).emod (2 ^ 64) < 2 ^ 64 := Int.emod_lt_of_pos _ (by norm_num)
  omega

theorem int64Unflip_int64Flip (v : Int) (h1 : -2 ^ 63 ≤ v) (h2 : v < 2 ^ 63) :
    int64Unflip (int64Flip v) = v := by
  have he : (v + 2 ^ 63).emod (2 ^ 64) = v + 2 ^ 63 :=
    Int.emod_eq_of_lt (by omega) (by omega)
  unfold int64Unflip int64Flip
  rw [he]
  split <;> omega

theorem encodeValues_go (vs : List Value) :
    ∀ out, encodeValues out vs = (encodeValues [] vs).map (fun bs => out ++ bs) := by
  induction vs with
  | nil => intro out; simp [encodeValues]
  | cons v vs ih =>
    intro out
    simp only [encodeValues, List.nil_append]
    by_cases h2 : v.type = TYPE_INT64
    · simp only [if_pos h2]
      rw [ih, ih (be64 (int64Flip v.i64))]
      cases encodeValues [] vs <;> simp
    · simp only [if_neg h2]
      by_cases h1 : v.type = TYPE_BYTES
      · simp only [if_pos h1]
        rw [ih, ih (escapeString v.str ++ [0])]
        cases encodeValues [] vs <;> simp
      · simp only [if_neg h1]
        simp

theorem value_eq_mkBytes (v : Value) (h1 : v.type = TYPE_BYTES) (h2 : v.i64 = 0) :
    Value.mkBytes v.str = v := by
  cases v
  simp_all [Value.mkBytes]

theorem value_eq_mkInt (v : Value) (h1 : v.type = TYPE_INT64) (h2 : v.str = []) :
    Value.mkInt v.i64 = v := by
  cases v
  simp_all [Value.mkInt]

/-- C1: for every sequence of typed values (each BYTES or INT64), decoding
the encoding with the same type shape returns exactly the original values,
including BYTES values containing 0x00 and 0x01 bytes anywhere. -/
theorem c1_decode_encode (vals : List Value) (h : ∀ v ∈ vals, ValidVal v) :
    (encodeValues [] vals).bind (fun bs => decodeValues bs (vals.map Value.type)) = some vals := by
  induction vals with
  | nil => simp [encodeValues, decodeValues]
  | cons v vs ih =>
    have hv := h v (by simp)
    have hrest : ∀ w ∈ vs, ValidVal w := fun w hw => h w (by simp [hw])
    have ihx := ih hrest
    obtain ⟨bs, hbs, hdec⟩ : ∃ bs, encodeValues [] vs = some bs ∧
        decodeValues bs (vs.map Value.type) = some vs := by
      cases hh : encodeValues [] vs with
      | none => rw [hh] at ihx; simp at ihx
      | some bs => rw [hh] at ihx; exact ⟨bs, rfl, by simpa using ihx⟩
    rcases hv with ⟨hb, hi⟩ | ⟨ht, hs, hlo, hhi⟩
    · -- BYTES case
      have hne : v.type ≠ TYPE_INT64 := by rw [hb]; decide
      simp only [encodeValues, if_neg hne, if_pos hb, List.nil_append]
      rw [encodeValues_go, hbs]
      simp only [Option.map_some, Option.bind_some, List.map_cons, hb]
      show decodeValues (escapeString v.str ++ [0] ++ bs) (TYPE_BYTES :: vs.map Value.type) = _
      have hnz : ∀ b ∈ escapeString v.str, b ≠ 0 := by
        rw [escapeString_eq]; exact escAux_ne_zero v.str
      rw [List.append_assoc, List.singleton_append] at *
      simp only [decodeValues]
      rw [if_neg (by decide), if_true, findIdx_zero_append _ _ hnz]
      have htake : (escapeString v.str ++ 0 :: bs).take (escapeString v.str).length =
          escapeString v.str := List.take_left _ _
      have hdrop : (escapeString v.str ++ 0 :: bs).drop ((escapeString v.str).length + 1) = bs := by
        rw [show escapeString v.str ++ 0 :: bs = (escapeString v.str ++ [0]) ++ bs by simp]
        rw [List.drop_left' (by simp)]
      simp only [htake, hdrop, unescape_escape, hdec, Option.bind_some, Option.map_some']
      simp [value_eq_mkBytes v hb hi]
    · -- INT64 case
      simp only [encodeValues, if_pos ht, List.nil_append]
      rw [encodeValues_go, hbs]
      simp only [Option.map_some, Option.bind_some, List.map_cons, ht]
      show decodeValues (be64 (int64Flip v.i64) ++ bs) (TYPE_INT64 :: vs.map Value.type) = _
      have hlen : (be64 (int64Flip v.i64)).length = 8 := by simp [be64]
      simp only [decodeValues]
      have h8 : 8 ≤ (be64 (int64Flip v.i64) ++ bs).length := by
        rw [List.length_append, hlen]; omega
      rw [if_true, if_pos h8]
      have htake : (be64 (int64Flip v.i64) ++ bs).take 8 = be64 (int64Flip v.i64) := by
        rw [← hlen]; exact List.take_left _ _
      have hdrop : (be64 (int64Flip v.i64) ++ bs).drop 8 = bs := by
        rw [← hlen]; exact List.drop_left _ _
      rw [htake, hdrop, hdec, beRead_be64 _ (int64Flip_lt _), int64Unflip_int64Flip _ hlo hhi]
      simp [value_eq_mkInt v ht hs]

theorem lexLt_append_left : ∀ p u v : List Nat, lexLt (p ++ u) (p ++ v) = lexLt u v := by
  intro p
  induction p with
  | nil => intro u v; rfl
  | cons a p ih =>
    intro u v
    simp [lexLt, ih]

theorem lexLt_append_of_lt : ∀ xs ys as bs : List Nat, xs.length = ys.length →
    lexLt xs ys = true → lexLt (xs ++ as) (ys ++ bs) = true := by
  intro xs
  induction xs with
  | nil =>
    intro ys as bs hlen h
    cases ys with
    | nil => simp [lexLt] at h
    | cons y ys => simp at hlen
  | cons x xs ih =>
    intro ys as bs hlen h
    cases ys with
    | nil => simp at hlen
    | cons y ys =>
      simp only [lexLt, Bool.or_eq_true, Bool.and_eq_true, decide_eq_true_eq] at h
      rcases h with h | ⟨rfl, h⟩
      · simp [lexLt, h]
      · simp only [List.cons_append, lexLt, Bool.or_eq_true, Bool.and_eq_true,
          decide_eq_true_eq]
        exact Or.inr ⟨by simp, ih ys as bs (by simpa using hlen) h⟩

theorem beN_length : ∀ k u, (beN k u).length = k := by
  intro k
  induction k with
  | zero => intro u; rfl
  | succ k ih => intro u; simp [beN, ih]

theorem beN_mono : ∀ k u v : Nat, u < v → v < 256 ^ k → lexLt (beN k u) (beN k v) = true := by
  intro k
  induction k with
  | zero =>
    intro u v h1 h2
    exact absurd h1 (by simp at h2; omega)
  | succ k ih =>
    intro u v h1 h2
    simp only [beN]
    rcases Nat.lt_or_ge (u / 256) (v / 256) with h | h
    · have hv : v / 256 < 256 ^ k := by
        rw [Nat.div_lt_iff_lt_mul (by norm_num)]
        calc v < 256 ^ (k + 1) := h2
        _ = 256 ^ k * 256 := by ring
      exact lexLt_append_of_lt _ _ _ _ (by simp [beN_length]) (ih _ _ h hv)
    · have heq : u / 256 = v / 256 := by
        have := Nat.div_le_div_right (c := 256) (le_of_lt h1)
        omega
      rw [heq, lexLt_append_left]
      have hm : u % 256 < v % 256 := by omega
      simp [lexLt, hm]

theorem be64_eq_beN (u : Nat) : be64 u = beN 8 u := by
  simp [be64, beN, Nat.div_div_eq_div_mul]

theorem int64Flip_mono (a b : Int) (ha1 : -2 ^ 63 ≤ a) (hb2 : b < 2 ^ 63) (h : a < b) :
    int64Flip a < int64Flip b := by
  unfold int64Flip
  have hea : (a + 2 ^ 63).emod (2 ^ 64) = a + 2 ^ 63 :=
    Int.emod_eq_of_lt (by omega) (by omega)
  have heb : (b + 2 ^ 63).emod (2 ^ 64) = b + 2 ^ 63 :=
    Int.emod_eq_of_lt (by omega) (by omega)
  rw [hea, heb]
  omega

theorem escAux_lexLt : ∀ x y : List Nat, lexLt x y = true →
    lexLt (escAux x ++ [0]) (escAux y ++ [0]) = true := by
  intro x
  induction x with
  | nil =>
    intro y h
    cases y with
    | nil => simp [lexLt] at h
    | cons b ys =>
      by_cases hb : b ≤ 1
      · simp [escAux, hb, lexLt]
      · simp only [escAux, if_neg hb, List.nil_append, List.cons_append, lexLt,
          Bool.or_eq_true, Bool.and_eq_true, decide_eq_true_eq]
        left
        omega
  | cons a xs ih =>
    intro y h
    cases y with
    | nil => simp [lexLt] at h
    | cons b ys =>
      simp only [lexLt, Bool.or_eq_true, Bool.and_eq_true, decide_eq_true_eq] at h
      rcases h with hab | ⟨rfl, hxy⟩
      · by_cases ha : a ≤ 1
        · by_cases hbb : b ≤ 1
          · have ha0 : a = 0 := by omega
            have hb1 : b = 1 := by omega
            subst ha0
            subst hb1
            simp [escAux, lexLt]
          · simp only [escAux, if_pos ha, if_neg hbb, List.cons_append, lexLt,
              Bool.or_eq_true, Bool.and_eq_true, decide_eq_true_eq]
            left
            omega
        · have hbb : ¬(b ≤ 1) := by omega
          simp only [escAux, if_neg ha, if_neg hbb, List.cons_append, lexLt,
            Bool.or_eq_true, Bool.and_eq_true, decide_eq_true_eq]
          left
          exact hab
      · by_cases ha : a ≤ 1
        · simp only [escAux, if_pos ha, List.cons_append, lexLt, Bool.or_eq_true,
            Bool.and_eq_true, decide_eq_true_eq]
          exact Or.inr ⟨by simp, Or.inr ⟨by simp, ih ys hxy⟩⟩
        · simp only [escAux, if_neg ha, List.cons_append, lexLt, Bool.or_eq_true,
            Bool.and_eq_true, decide_eq_true_eq]
          exact Or.inr ⟨by simp, ih ys hxy⟩

/-- C2: the encoding is order preserving — for INT64 values a < b the
encoding of [a] is strictly below the encoding of [b] under unsigned
byte-wise comparison, and likewise for BYTES values ordered
lexicographically. -/
theorem c2_order_preserving :
    (∀ (a b : Int) (ka kb : List Nat), -2 ^ 63 ≤ a → a < 2 ^ 63 → -2 ^ 63 ≤ b → b < 2 ^ 63 →
      a < b → encodeValues [] [Value.mkInt a] = some ka →
      encodeValues [] [Value.mkInt b] = some kb → lexLt ka kb = true) ∧
    (∀ x y kx ky : List Nat, lexLt x y = true →
      encodeValues [] [Value.mkBytes x] = some kx →
      encodeValues [] [Value.mkBytes y] = some ky → lexLt kx ky = true) := by
  constructor
  · intro a b ka kb ha1 ha2 hb1 hb2 hab hka hkb
    simp [encodeValues, Value.mkInt] at hka hkb
    rw [← hka, ← hkb, be64_eq_beN, be64_eq_beN]
    exact beN_mono 8 _ _ (int64Flip_mono a b ha1 hb2 hab) (by
      calc int64Flip b < 2 ^ 64 := int64Flip_lt b
      _ = 256 ^ 8 := by norm_num)
  · intro x y kx ky hxy hkx hky
    simp [encodeValues, Value.mkBytes, TYPE_BYTES, TYPE_INT64] at hkx hky
    rw [← hkx, ← hky, escapeString_eq, escapeString_eq]
    exact escAux_lexLt x y hxy

/-- Concrete instance of the order-preservation theorem at INT64 values
-3 < 4 and BYTES values [1] < [1, 0]. -/
theorem c2_order_preserving_witness :
    lexLt ((encodeValues [] [Value.mkInt (-3)]).getD []) ((encodeValues [] [Value.mkInt 4]).getD []) = true ∧
    lexLt ((encodeValues [] [Value.mkBytes [1]]).getD []) ((encodeValues [] [Value.mkBytes [1, 0]]).getD []) = true :=
  ⟨c2_order_preserving.1 (-3) 4 _ _ (by decide) (by decide) (by decide) (by decide) (by decide)
      (by decide) (by decide),
   c2_order_preserving.2 [1] [1, 0] _ _ (by decide) (by decide) (by decide)⟩

/-- Concrete instance of the round-trip theorem, the hypotheses discharged
at an input whose byte string contains 0x00 and 0x01. -/
theorem c1_decode_encode_witness :
    (∀ v ∈ [Value.mkInt (-7), Value.mkBytes [0, 1, 2, 255]], ValidVal v) ∧
    (encodeValues [] [Value.mkInt (-7), Value.mkBytes [0, 1, 2, 255]]).bind
      (fun bs => decodeValues bs ([Value.mkInt (-7), Value.mkBytes [0, 1, 2, 255]].map Value.type)) =
      some [Value.mkInt (-7), Value.mkBytes [0, 1, 2, 255]] :=
  ⟨by decide, c1_decode_encode [Value.mkInt (-7), Value.mkBytes [0, 1, 2, 255]] (by decide)⟩

/-! ### Properties of the record operations -/

theorem findIdx?_bounds {α : Type} (p : α → Bool) :
    ∀ (l : List α) (i j : Nat), List.findIdx? p l i = some j → i ≤ j ∧ j < i + l.length := by
  intro l
  induction l with
  | nil => intro i j h; simp [List.findIdx?] at h
  | cons a l ih =>
    intro i j h
    rw [List.findIdx?_cons] at h
    split at h
    · cases h
      simp
    · have := ih (i + 1) j h
      constructor
      · omega
      · simp only [List.length_cons]
        omega

theorem exceptMap_error {α β : Type} (f : α → β) (x : Except DBErr α) (e : DBErr) :
    x.map f = .error e ↔ x = .error e := by
  cases x <;> simp [Except.map]

/-- C9 counterexample: on the schema with columns ["a", "b"], requesting
column "b" from an empty record fails, but the error names column "a" — not
the absent requested column "b". -/
theorem c9_counterexample :
    getValues tdefAB ⟨[], []⟩ ["b"] = Except.error (DBErr.missingColGV "a") ∧
    Record.get ⟨[], []⟩ "b" = none ∧
    errMsg (DBErr.missingColGV "a") ≠ errMsg (DBErr.missingColGV "b") := by
  refine ⟨by rfl, by rfl, by decide⟩

theorem getValuesGo_missing (tdef : TableDef) (rec : Record) :
    ∀ (cols : List String) (i : Nat) (nm : String),
      (∀ k, k < cols.length → cols.get? k = tdef.cols.get? (i + k)) →
      getValuesGo tdef rec cols i = .error (.missingColGV nm) →
      nm ∈ cols ∧ rec.get nm = none := by
  intro cols
  induction cols with
  | nil => intro i nm _ h; simp [getValuesGo] at h
  | cons c cs ih =>
    intro i nm hpre h
    have h0 : tdef.cols.get? i = some c := by
      have := hpre 0 (by simp)
      simpa using this.symm
    simp only [getValuesGo] at h
    cases hg : rec.get c with
    | none =>
      simp only [hg, h0] at h
      have hc : c = nm := by simpa using h
      subst hc
      exact ⟨by simp, hg⟩
    | some v =>
      simp only [hg] at h
      cases hf : tdef.cols.findIdx? (fun c2 => decide (c2 = c)) with
      | none => simp only [hf] at h; simp at h
      | some j =>
        simp only [hf] at h
        cases ht : tdef.types.get? j with
        | none => simp only [ht] at h; simp at h
        | some ty =>
          simp only [ht] at h
          split at h
          · simp at h
          · rw [exceptMap_error] at h
            have hr := ih (i + 1) nm (fun k hk => by
              have := hpre (k + 1) (by simp; omega)
              simpa [Nat.add_assoc, Nat.add_comm 1 k] using this) h
            exact ⟨by simp [hr.1], hr.2⟩

theorem reorderGo_badColType (tdef : TableDef) (rec : Record) :
    ∀ (cols : List String) (i : Nat) (c : String),
      (∀ k, k < cols.length → cols.get? k = tdef.cols.get? (i + k)) →
      reorderGo tdef rec cols i = .error (.badColType c) →
      ∃ j ty v, tdef.cols.get? j = some c ∧ tdef.types.get? j = some ty ∧
        rec.get c = some v ∧ v.type ≠ ty := by
  intro cols
  induction cols with
  | nil => intro i c _ h; simp [reorderGo] at h
  | cons c0 cs ih =>
    intro i c hpre h
    have h0 : tdef.cols.get? i = some c0 := by
      have := hpre 0 (by simp)
      simpa using this.symm
    simp only [reorderGo] at h
    cases hg : rec.get c0 with
    | none =>
      simp only [hg] at h
      rw [exceptMap_error] at h
      exact ih (i + 1) c (fun k hk => by
        have := hpre (k + 1) (by simp; omega)
        simpa [Nat.add_assoc, Nat.add_comm 1 k] using this) h
    | some v =>
      simp only [hg] at h
      cases ht : tdef.types.get? i with
      | none => simp only [ht] at h; simp at h
      | some ty =>
        simp only [ht] at h
        split at h
        · next hty =>
          have hc : c0 = c := by simpa using h
          subst hc
          exact ⟨i, ty, v, h0, ht, hg, hty⟩
        · rw [exceptMap_error] at h
          exact ih (i + 1) c (fun k hk => by
            have := hpre (k + 1) (by simp; omega)
            simpa [Nat.add_assoc, Nat.add_comm 1 k] using this) h

theorem valuesCompleteGo_missing (tdef : TableDef) (n : Nat) :
    ∀ (vals : List Value) (i : Nat) (c : String),
      valuesCompleteGo tdef n vals i = .error (.missingCol c) →
      ∃ k v, vals.get? k = some v ∧ v.type = TYPE_ERROR ∧ i + k < n ∧
        tdef.cols.getD (i + k) "" = c := by
  intro vals
  induction vals with
  | nil => intro i c h; simp [valuesCompleteGo] at h
  | cons v vs ih =>
    intro i c h
    simp only [valuesCompleteGo] at h
    split at h
    · next hc =>
      have hname : tdef.cols.getD i "" = c := by simpa using h
      exact ⟨0, v, by simp, hc.2, by omega, by simpa using hname⟩
    · split at h
      · simp at h
      · obtain ⟨k, w, h1, h2, h3, h4⟩ := ih (i + 1) c h
        exact ⟨k + 1, w, by simpa using h1, h2, by omega, by
          rw [show i + (k + 1) = i + 1 + k by omega]
          exact h4⟩

theorem valuesCompleteGo_extra (tdef : TableDef) (n : Nat) :
    ∀ (vals : List Value) (i : Nat) (c : String),
      valuesCompleteGo tdef n vals i = .error (.extraCol c) →
      ∃ k v, vals.get? k = some v ∧ v.type ≠ TYPE_ERROR ∧ n ≤ i + k ∧
        tdef.cols.getD (i + k) "" = c := by
  intro vals
  induction vals with
  | nil => intro i c h; simp [valuesCompleteGo] at h
  | cons v vs ih =>
    intro i c h
    simp only [valuesCompleteGo] at h
    split at h
    · simp at h
    · split at h
      · next hc =>
        have hname : tdef.cols.getD i "" = c := by simpa using h
        exact ⟨0, v, by simp, hc.2, by omega, by simpa using hname⟩
      · obtain ⟨k, w, h1, h2, h3, h4⟩ := ih (i + 1) c h
        exact ⟨k + 1, w, by simpa using h1, h2, by omega, by
          rw [show i + (k + 1) = i + 1 + k by omega]
          exact h4⟩

/-- C9 amended: the missing-column error of getValues names the schema
column at the same position index as the absent requested column, which is
the absent requested column itself whenever the requested columns are a
prefix of the schema columns (as with every request made in the
repository); the bad-column-type, missing-column and extra-column errors of
reorderRecord/valuesComplete always name the schema column at the offending
position. -/
theorem c9_amended :
    (∀ (tdef : TableDef) (rec : Record) (cols : List String) (nm : String),
      List.IsPrefix cols tdef.cols →
      getValues tdef rec cols = .error (.missingColGV nm) →
      nm ∈ cols ∧ rec.get nm = none) ∧
    (∀ (tdef : TableDef) (rec : Record) (c : String),
      reorderRecord tdef rec = .error (.badColType c) →
      ∃ j ty v, tdef.cols.get? j = some c ∧ tdef.types.get? j = some ty ∧
        rec.get c = some v ∧ v.type ≠ ty) ∧
    (∀ (tdef : TableDef) (vals : List Value) (n : Nat) (c : String),
      valuesComplete tdef vals n = .error (.missingCol c) →
      ∃ i v, vals.get? i = some v ∧ v.type = TYPE_ERROR ∧ i < n ∧
        tdef.cols.getD i "" = c) ∧
    (∀ (tdef : TableDef) (vals : List Value) (n : Nat) (c : String),
      valuesComplete tdef vals n = .error (.extraCol c) →
      ∃ i v, vals.get? i = some v ∧ v.type ≠ TYPE_ERROR ∧ n ≤ i ∧
        tdef.cols.getD i "" = c) := by
  refine ⟨?_, ?_, ?_, ?_⟩
  · intro tdef rec cols nm hpre h
    obtain ⟨t, ht⟩ := hpre
    refine getValuesGo_missing tdef rec cols 0 nm (fun k hk => ?_) h
    rw [← ht, Nat.zero_add, List.get?_append hk]
  · intro tdef rec c h
    unfold reorderRecord at h
    split at h
    · exact reorderGo_badColType tdef rec tdef.cols 0 c
        (fun k hk => by rw [Nat.zero_add]) h
    · cases h
  · intro tdef vals n c h
    obtain ⟨k, v, h1, h2, h3, h4⟩ := valuesCompleteGo_missing tdef n vals 0 c h
    exact ⟨k, v, h1, h2, by omega, by simpa using h4⟩
  · intro tdef vals n c h
    obtain ⟨k, v, h1, h2, h3, h4⟩ := valuesCompleteGo_extra tdef n vals 0 c h
    exact ⟨k, v, h1, h2, by omega, by simpa using h4⟩

/-- Concrete instance of the amended naming theorem: a prefix request
["a"] on an empty record is reported with the absent requested column
"a". -/
theorem c9_amended_witness :
    ("a" ∈ ["a"] ∧ Record.get ⟨[], []⟩ "a" = none) ∧
    (∃ j ty v, tdefAB.cols.get? j = some "b" ∧ tdefAB.types.get? j = some ty ∧
      Record.get ⟨["b"], [Value.mkBytes []]⟩ "b" = some v ∧ v.type ≠ ty) :=
  ⟨c9_amended.1 tdefAB ⟨[], []⟩ ["a"] "a" ⟨["b"], rfl⟩ (by rfl),
   c9_amended.2.1 tdefAB ⟨["b"], [Value.mkBytes []]⟩ "b" (by rfl)⟩

theorem findIdx_append_extra (c extra : String) (hne : c ≠ extra) :
    ∀ (cols : List String) (i : Nat),
      List.findIdx? (fun x => decide (x = c)) (cols ++ [extra]) i =
      List.findIdx? (fun x => decide (x = c)) cols i := by
  intro cols
  induction cols with
  | nil =>
    intro i
    simp only [List.nil_append, List.findIdx?_cons, List.findIdx?]
    rw [if_neg (by simp [Ne.symm hne])]
  | cons x cols ih =>
    intro i
    simp only [List.cons_append, List.findIdx?_cons]
    split
    · rfl
    · exact ih (i + 1)

theorem get_append_extra (rec : Record) (extra : String) (v : Value) (c : String)
    (hne : c ≠ extra) (hlen : rec.cols.length = rec.vals.length) :
    Record.get ⟨rec.cols ++ [extra], rec.vals ++ [v]⟩ c = rec.get c := by
  unfold Record.get
  simp only
  rw [findIdx_append_extra c extra hne rec.cols 0]
  cases hf : rec.cols.findIdx? (fun x => decide (x = c)) with
  | none => rfl
  | some i =>
    have hb := findIdx?_bounds _ rec.cols 0 i hf
    have hi : i < rec.vals.length := by omega
    simp only
    exact List.get?_append hi

theorem reorderGo_append_extra (tdef : TableDef) (rec : Record) (extra : String) (v : Value)
    (hlen : rec.cols.length = rec.vals.length) :
    ∀ (cols : List String) (i : Nat), (∀ c ∈ cols, c ≠ extra) →
      reorderGo tdef ⟨rec.cols ++ [extra], rec.vals ++ [v]⟩ cols i = reorderGo tdef rec cols i := by
  intro cols
  induction cols with
  | nil => intro i _; rfl
  | cons c cs ih =>
    intro i hext
    simp only [reorderGo]
    rw [show Record.get ⟨rec.cols ++ [extra], rec.vals ++ [v]⟩ c = rec.get c from
      get_append_extra rec extra v c (hext c (by simp)) hlen]
    rw [ih (i + 1) (fun c2 h2 => hext c2 (by simp [h2]))]

/-- C10: a record entry whose column name is not in the schema is silently
ignored — reorderRecord, checkRecord, and the update path (hence Insert)
behave exactly as if the entry were absent, and no extra-column error is
raised for it. -/
theorem c10_unknown_col_ignored (tdef : TableDef) (rec : Record) (extra : String) (v : Value)
    (hext : extra ∉ tdef.cols) (hlen : rec.cols.length = rec.vals.length) :
    (reorderRecord tdef ⟨rec.cols ++ [extra], rec.vals ++ [v]⟩ = reorderRecord tdef rec) ∧
    (∀ n, checkRecord tdef ⟨rec.cols ++ [extra], rec.vals ++ [v]⟩ n = checkRecord tdef rec n) ∧
    (∀ db mode, dbUpdate db tdef ⟨rec.cols ++ [extra], rec.vals ++ [v]⟩ mode =
      dbUpdate db tdef rec mode) := by
  have hre : reorderRecord tdef ⟨rec.cols ++ [extra], rec.vals ++ [v]⟩ = reorderRecord tdef rec := by
    unfold reorderRecord
    simp only [List.length_append, List.length_singleton]
    rw [if_pos (by omega), if_pos hlen]
    exact reorderGo_append_extra tdef rec extra v hlen tdef.cols 0
      (fun c hc => fun heq => hext (heq ▸ hc))
  have hck : ∀ n, checkRecord tdef ⟨rec.cols ++ [extra], rec.vals ++ [v]⟩ n = checkRecord tdef rec n := by
    intro n
    unfold checkRecord
    rw [hre]
  refine ⟨hre, hck, ?_⟩
  intro db mode
  unfold dbUpdate
  rw [hck]

/-- Concrete instance: a record carrying the unknown column "zz" inserts
exactly like the record without it. -/
theorem c10_unknown_col_ignored_witness :
    reorderRecord tdefAB ⟨["a", "b"] ++ ["zz"], [Value.mkInt 1, Value.mkInt 2] ++ [Value.mkBytes [9]]⟩ =
      reorderRecord tdefAB ⟨["a", "b"], [Value.mkInt 1, Value.mkInt 2]⟩ ∧
    ∀ db mode, dbUpdate db tdefAB ⟨["a", "b"] ++ ["zz"], [Value.mkInt 1, Value.mkInt 2] ++ [Value.mkBytes [9]]⟩ mode =
      dbUpdate db tdefAB ⟨["a", "b"], [Value.mkInt 1, Value.mkInt 2]⟩ mode :=
  ⟨(c10_unknown_col_ignored tdefAB ⟨["a", "b"], [Value.mkInt 1, Value.mkInt 2]⟩ "zz"
      (Value.mkBytes [9]) (by decide) (by decide)).1,
   (c10_unknown_col_ignored tdefAB ⟨["a", "b"], [Value.mkInt 1, Value.mkInt 2]⟩ "zz"
      (Value.mkBytes [9]) (by decide) (by decide)).2.2⟩

/-! ### Properties of the range scanner -/

theorem reorderGo_ne_badRange (tdef : TableDef) (rec : Record) :
    ∀ (cols : List String) (i : Nat), reorderGo tdef rec cols i ≠ .error .badRange := by
  intro cols
  induction cols with
  | nil => intro i h; cases h
  | cons c cs ih =>
    intro i h
    simp only [reorderGo] at h
    cases hg : rec.get c with
    | none =>
      simp only [hg] at h
      rw [exceptMap_error] at h
      exact ih (i + 1) h
    | some v =>
      simp only [hg] at h
      cases ht : tdef.types.get? i with
      | none => simp only [ht] at h; simp at h
      | some ty =>
        simp only [ht] at h
        split at h
        · simp at h
        · rw [exceptMap_error] at h
          exact ih (i + 1) h

theorem valuesCompleteGo_ne_badRange (tdef : TableDef) (n : Nat) :
    ∀ (vals : List Value) (i : Nat), valuesCompleteGo tdef n vals i ≠ .error .badRange := by
  intro vals
  induction vals with
  | nil => intro i h; cases h
  | cons v vs ih =>
    intro i h
    simp only [valuesCompleteGo] at h
    split at h
    · simp at h
    · split at h
      · simp at h
      · exact ih (i + 1) h

theorem except_bind_ok {ε α β : Type} (a : α) (f : α → Except ε β) :
    (Except.ok a >>= f) = f a := rfl

theorem except_bind_err {ε α β : Type} (e : ε) (f : α → Except ε β) :
    ((Except.error e : Except ε α) >>= f) = Except.error e := rfl

theorem checkRecord_ne_badRange (tdef : TableDef) (rec : Record) (n : Nat) :
    checkRecord tdef rec n ≠ .error .badRange := by
  intro h
  unfold checkRecord at h
  cases hr : reorderRecord tdef rec with
  | error e =>
    rw [hr, except_bind_err] at h
    simp at h
    subst h
    unfold reorderRecord at hr
    split at hr
    · exact reorderGo_ne_badRange tdef rec tdef.cols 0 hr
    · cases hr
  | ok vals =>
    rw [hr, except_bind_ok] at h
    cases hv : valuesComplete tdef vals n with
    | error e =>
      rw [hv, except_bind_err] at h
      simp at h
      subst h
      exact valuesCompleteGo_ne_badRange tdef n vals 0 hv
    | ok u =>
      rw [hv, except_bind_ok] at h
      cases h

theorem liftOpt_ne_badRange {α : Type} (x : Option α) : liftOpt x ≠ .error .badRange := by
  cases x <;> intro h <;> cases h

/-- C8: dbScan rejects with "bad range" exactly the comparator pairs that
are neither (ascending, descending) nor (descending, ascending); the
rejection is independent of the boundary records and of the store (no
record validation, key encoding, or seek is reflected in the result), and
when the directions are legal the result is never the bad-range error - all
remaining errors are produced by the record checks at scan time, while
Valid/Next/Deref are error-free total operations. -/
theorem c8_scan_validation (db : DBS) (tdef : TableDef) (cmp1 cmp2 : Int) (key1 key2 : Record) :
    dbScan db tdef cmp1 cmp2 key1 key2 = .error .badRange ↔
      ¬((0 < cmp1 ∧ cmp2 < 0) ∨ (cmp1 < 0 ∧ 0 < cmp2)) := by
  unfold dbScan
  split
  · next hlegal =>
    constructor
    · intro h
      exfalso
      cases hc1 : checkRecord tdef key1 tdef.pkeys with
      | error e =>
        rw [hc1, except_bind_err] at h
        simp at h
        subst h
        exact checkRecord_ne_badRange tdef key1 tdef.pkeys hc1
      | ok v1 =>
        rw [hc1, except_bind_ok] at h
        cases hc2 : checkRecord tdef key2 tdef.pkeys with
        | error e =>
          rw [hc2, except_bind_err] at h
          simp at h
          subst h
          exact checkRecord_ne_badRange tdef key2 tdef.pkeys hc2
        | ok v2 =>
          rw [hc2, except_bind_ok] at h
          cases hk1 : liftOpt (encodeKey [] tdef.pfx (List.take tdef.pkeys v1)) with
          | error e =>
            rw [hk1, except_bind_err] at h
            simp at h
            subst h
            exact liftOpt_ne_badRange _ hk1
          | ok ks =>
            rw [hk1, except_bind_ok] at h
            cases hk2 : liftOpt (encodeKey [] tdef.pfx (List.take tdef.pkeys v2)) with
            | error e =>
              rw [hk2, except_bind_err] at h
              simp at h
              subst h
              exact liftOpt_ne_badRange _ hk2
            | ok ke =>
              rw [hk2, except_bind_ok] at h
              cases h
    · intro h
      exact absurd hlegal h
  · next hlegal =>
    simp [hlegal]

/-- Concrete instance: two ascending comparators on the same table are
rejected as a bad range. -/
theorem c8_scan_validation_witness :
    dbScan freshDB tdefAB 3 3 ⟨[], []⟩ ⟨[], []⟩ = .error .badRange :=
  (c8_scan_validation freshDB tdefAB 3 3 ⟨[], []⟩ ⟨[], []⟩).mpr (by decide)

/-- C7 counterexample: on the table holding keys {1, 2, 3, 5}, the scan of
the bounds [2, 5] with the comparator signs reversed (Cmp1 = LE on 2,
Cmp2 = GE on 5) is NOT rejected as a bad range — the sign pair
(descending, ascending) is one of the two legal combinations, so dbScan
accepts it. -/
theorem c7_counterexample :
    ¬(dbScan dbPts tdefPts CMP_LE CMP_GE (recId 2) (recId 5) = .error .badRange) := by
  decide

/-- C7 amended: scanning [2, 5] ascending (Cmp1 = GE on 2, Cmp2 = LE on 5)
over the table holding exactly keys {1, 2, 3, 5} yields the rows 2, 3, 5 in
order; the sign-reversed scan (LE on 2, GE on 5) is accepted but
immediately exhausted, yielding no rows; a bad-range rejection occurs
instead when the two comparator signs are equal. -/
theorem c7_amended :
    (dbScan dbPts tdefPts CMP_GE CMP_LE (recId 2) (recId 5)).map (scanRows 10) =
      .ok [some (recId 2), some (recId 3), some (recId 5)] ∧
    (dbScan dbPts tdefPts CMP_LE CMP_GE (recId 2) (recId 5)).map (scanRows 10) = .ok [] ∧
    dbScan dbPts tdefPts CMP_GE CMP_GE (recId 2) (recId 5) = .error .badRange ∧
    dbScan dbPts tdefPts CMP_LE CMP_LE (recId 2) (recId 5) = .error .badRange := by
  decide

/-! ### Properties of the free list -/

theorem flPop_tailSeq (cap : Nat) (s : FL) : (flPop cap s).2.2.tailSeq = s.tailSeq := by
  unfold flPop
  split
  · rfl
  · split <;> rfl

theorem flPop_maxSeq (cap : Nat) (s : FL) : (flPop cap s).2.2.maxSeq = s.maxSeq := by
  unfold flPop
  split
  · rfl
  · split <;> rfl

theorem flPop_headSeq (cap : Nat) (s : FL) (h : s.headSeq ≤ s.maxSeq) :
    (flPop cap s).2.2.headSeq ≤ s.maxSeq := by
  unfold flPop
  split
  · next he => exact h
  · next he =>
    have : s.headSeq < s.maxSeq := by omega
    split <;> simp <;> omega

theorem pushTail_inv (cap : Nat) (s : FL) (v : Nat) (h : flCounterInv s) :
    flCounterInv (pushTail cap s v) := by
  obtain ⟨h1, h2⟩ := h
  unfold pushTail
  simp only
  split
  · have ht := flPop_tailSeq cap { s with
      pages := updSlot s.pages s.tailPage (s.tailSeq % cap) v, tailSeq := s.tailSeq + 1 }
    have hm := flPop_maxSeq cap { s with
      pages := updSlot s.pages s.tailPage (s.tailSeq % cap) v, tailSeq := s.tailSeq + 1 }
    have hh := flPop_headSeq cap { s with
      pages := updSlot s.pages s.tailPage (s.tailSeq % cap) v, tailSeq := s.tailSeq + 1 }
      (by simp; omega)
    constructor <;> split <;> split <;> simp_all <;> omega
  · exact ⟨by simpa using h1, by simp; omega⟩

theorem flPop_inv (cap : Nat) (s : FL) (h : flCounterInv s) :
    flCounterInv (flPop cap s).2.2 := by
  obtain ⟨h1, h2⟩ := h
  refine ⟨?_, ?_⟩
  · rw [flPop_maxSeq]
    exact flPop_headSeq cap s h1
  · rw [flPop_maxSeq, flPop_tailSeq]
    exact h2

theorem popHead_inv (cap : Nat) (s : FL) (h : flCounterInv s) :
    flCounterInv (popHead cap s).2 := by
  unfold popHead
  simp only
  split
  · exact pushTail_inv cap _ _ (flPop_inv cap s h)
  · exact flPop_inv cap s h

theorem flStep_inv (cap : Nat) (s : FL) (op : FLOp) (h : flCounterInv s) :
    flCounterInv (flStep cap s op) := by
  cases op with
  | push v => exact pushTail_inv cap s v h
  | pop => exact popHead_inv cap s h
  | setMax => exact ⟨h.1.trans h.2, Nat.le_refl _⟩

/-- C5: headSeq ≤ maxSeq ≤ tailSeq is an invariant of every sequence of
PushTail, PopHead and SetMaxSeq operations, from any state satisfying it
(for any node capacity). -/
theorem c5_counter_invariant (cap : Nat) (s : FL) (h : flCounterInv s) :
    ∀ ops : List FLOp, flCounterInv (flRun cap s ops) := by
  intro ops
  induction ops generalizing s with
  | nil => exact h
  | cons op ops ih => exact ih (flStep cap s op) (flStep_inv cap s op h)

/-- Concrete instance of the counter invariant after a mixed operation
sequence on a fresh list. -/
theorem c5_counter_invariant_witness :
    flCounterInv (flRun 2 initFL [.push 10, .push 11, .push 12, .setMax, .pop, .push 13, .pop]) :=
  c5_counter_invariant 2 initFL ⟨by decide, by decide⟩ _

/-- C3 counterexample: with node capacity 2 (a legal instantiation of the
page size, which is outside the provided sources), pushing the 3 > 2
distinct page ids 1000, 1001, 1002, advancing the watermark, and popping 3
times returns [1000, 1001, 0] — the tail-node rollover triggered by
re-pushing the exhausted head node pops id 1002 below the watermark and
consumes it as the new tail node, so the caller never receives it. -/
theorem c3_counterexample :
    fifoRun 2 [1000, 1001, 1002] ≠ [1000, 1001, 1002] := by
  decide

theorem updSlot_page_other (pages : Nat → LN) (p idx v q : Nat) (h : q ≠ p) :
    updSlot pages p idx v q = pages q := by
  simp [updSlot, h]

theorem updSlot_ptrs_self (pages : Nat → LN) (p idx v : Nat) :
    (updSlot pages p idx v p).ptrs idx = v := by
  simp [updSlot]

theorem updSlot_ptrs_ne (pages : Nat → LN) (p idx v q j : Nat) (h : j ≠ idx) :
    (updSlot pages p idx v q).ptrs j = (pages q).ptrs j := by
  unfold updSlot
  split
  · next hq => subst hq; simp [h]
  · rfl

theorem updSlot_next (pages : Nat → LN) (p idx v q : Nat) :
    (updSlot pages p idx v q).next = (pages q).next := by
  unfold updSlot
  split
  · next hq => subst hq; rfl
  · rfl

theorem updNext_page_other (pages : Nat → LN) (p v q : Nat) (h : q ≠ p) :
    updNext pages p v q = pages q := by
  simp [updNext, h]

theorem updNext_next_self (pages : Nat → LN) (p v : Nat) :
    (updNext pages p v p).next = v := by
  simp [updNext]

theorem updNext_ptrs (pages : Nat → LN) (p v q : Nat) :
    (updNext pages p v q).ptrs = (pages q).ptrs := by
  unfold updNext
  split
  · next hq => subst hq; rfl
  · rfl

theorem zeroPage_page_other (pages : Nat → LN) (p q : Nat) (h : q ≠ p) :
    zeroPage pages p q = pages q := by
  simp [zeroPage, h]

theorem writeSlots_page_other (p q : Nat) (h : q ≠ p) :
    ∀ (ws : List Nat) (pages : Nat → LN) (j : Nat), writeSlots pages p j ws q = pages q := by
  intro ws
  induction ws with
  | nil => intro pages j; rfl
  | cons v vs ih =>
    intro pages j
    simp only [writeSlots]
    rw [ih, updSlot_page_other _ _ _ _ _ h]

theorem writeSlots_next (p q : Nat) :
    ∀ (ws : List Nat) (pages : Nat → LN) (j : Nat),
      (writeSlots pages p j ws q).next = (pages q).next := by
  intro ws
  induction ws with
  | nil => intro pages j; rfl
  | cons v vs ih =>
    intro pages j
    simp only [writeSlots]
    rw [ih, updSlot_next]

theorem writeSlots_ptrs_lt (p q : Nat) :
    ∀ (ws : List Nat) (pages : Nat → LN) (j i : Nat), i < j →
      (writeSlots pages p j ws q).ptrs i = (pages q).ptrs i := by
  intro ws
  induction ws with
  | nil => intro pages j i _; rfl
  | cons v vs ih =>
    intro pages j i hi
    simp only [writeSlots]
    rw [ih _ (j + 1) i (by omega), updSlot_ptrs_ne _ _ _ _ _ _ (by omega)]

theorem writeSlots_read (p : Nat) :
    ∀ (ws : List Nat) (pages : Nat → LN) (j i : Nat), i < ws.length →
      (writeSlots pages p j ws p).ptrs (j + i) = ws.getD i 0 := by
  intro ws
  induction ws with
  | nil => intro pages j i hi; simp at hi
  | cons v vs ih =>
    intro pages j i hi
    simp only [writeSlots]
    cases i with
    | zero =>
      have h1 : (writeSlots (updSlot pages p j v) p (j + 1) vs p).ptrs j = v := by
        rw [writeSlots_ptrs_lt p p vs _ (j + 1) j (by omega), updSlot_ptrs_self]
      simpa using h1
    | succ i =>
      rw [show j + (i + 1) = (j + 1) + i by omega]
      rw [ih (updSlot pages p j v) (j + 1) i (by simpa using hi)]
      rfl

theorem mod_add_of_lt (cap t j i : Nat) (hj : t % cap = j) (h : j + i < cap) :
    (t + i) % cap = j + i := by
  have hd := Nat.div_add_mod t cap
  have he : t + i = cap * (t / cap) + (j + i) := by omega
  rw [he, Nat.mul_add_mod]
  exact Nat.mod_eq_of_lt h

theorem mod_succ_zero (cap t : Nat) (hj : t % cap = cap - 1) (hc : 0 < cap) :
    (t + 1) % cap = 0 := by
  have hd := Nat.div_add_mod t cap
  have hm : cap * (t / cap + 1) = cap * (t / cap) + cap := by ring
  have he : t + 1 = cap * (t / cap + 1) := by omega
  rw [he]
  exact Nat.mul_mod_right _ _

theorem mod_eq_sub (cap m : Nat) (h1 : cap ≤ m) (h2 : m < 2 * cap) : m % cap = m - cap := by
  rw [Nat.mod_eq_sub_mod h1]
  exact Nat.mod_eq_of_lt (by omega)

theorem pushTail_simple (cap : Nat) (s : FL) (v : Nat) (h : (s.tailSeq + 1) % cap ≠ 0) :
    pushTail cap s v = { s with pages := updSlot s.pages s.tailPage (s.tailSeq % cap) v,
                                tailSeq := s.tailSeq + 1 } := by
  simp [pushTail, h]

theorem pushTail_roll_empty (cap : Nat) (s : FL) (v : Nat)
    (h : (s.tailSeq + 1) % cap = 0) (he : s.headSeq = s.maxSeq) :
    pushTail cap s v = { s with
      pages := updNext (zeroPage (updSlot s.pages s.tailPage (s.tailSeq % cap) v) s.fresh)
        s.tailPage s.fresh,
      tailSeq := s.tailSeq + 1, tailPage := s.fresh, fresh := s.fresh + 1 } := by
  simp [pushTail, flPop, h, he]

theorem popHead_simple (cap : Nat) (s : FL) (hne : ¬s.headSeq = s.maxSeq)
    (h : (s.headSeq + 1) % cap ≠ 0) :
    popHead cap s = ((s.pages s.headPage).ptrs (s.headSeq % cap),
      { s with headSeq := s.headSeq + 1 }) := by
  simp [popHead, flPop, hne, h]

theorem popHead_wrap (cap : Nat) (s : FL) (hne : ¬s.headSeq = s.maxSeq)
    (h : (s.headSeq + 1) % cap = 0) (hp : s.headPage ≠ 0) :
    popHead cap s = ((s.pages s.headPage).ptrs (s.headSeq % cap),
      pushTail cap { s with headSeq := s.headSeq + 1, headPage := (s.pages s.headPage).next }
        s.headPage) := by
  simp [popHead, flPop, hne, h, hp]

theorem pushMany_append (cap : Nat) : ∀ (l1 l2 : List Nat) (s : FL),
    pushMany cap s (l1 ++ l2) = pushMany cap (pushMany cap s l1) l2 := by
  intro l1
  induction l1 with
  | nil => intro l2 s; rfl
  | cons v vs ih =>
    intro l2 s
    simp only [List.cons_append, pushMany]
    exact ih l2 _

theorem popMany_add (cap : Nat) : ∀ (a b : Nat) (s : FL),
    popMany cap (a + b) s = ((popMany cap a s).1 ++ (popMany cap b (popMany cap a s).2).1,
      (popMany cap b (popMany cap a s).2).2) := by
  intro a
  induction a with
  | zero =>
    intro b s
    simp [popMany]
  | succ a ih =>
    intro b s
    rw [show a + 1 + b = (a + b) + 1 by omega]
    simp only [popMany]
    rw [ih b (popHead cap s).2]
    simp

theorem pushMany_simple (cap : Nat) : ∀ (ws : List Nat) (s : FL),
    s.tailSeq % cap + ws.length < cap →
    pushMany cap s ws = { s with pages := writeSlots s.pages s.tailPage (s.tailSeq % cap) ws,
                                 tailSeq := s.tailSeq + ws.length } := by
  intro ws
  induction ws with
  | nil => intro s h; rfl
  | cons v vs ih =>
    intro s h
    simp only [pushMany, writeSlots]
    have hlen : s.tailSeq % cap + (vs.length + 1) < cap := by simpa using h
    have hs : (s.tailSeq + 1) % cap = s.tailSeq % cap + 1 :=
      mod_add_of_lt cap s.tailSeq _ 1 rfl (by omega)
    rw [pushTail_simple cap s v (by rw [hs]; omega)]
    rw [ih _ (by simpa [hs] using by omega)]
    simp only
    rw [hs, show s.tailSeq + 1 + vs.length = s.tailSeq + (vs.length + 1) by omega]
    simp

theorem popMany_simple (cap : Nat) : ∀ (k : Nat) (s : FL),
    s.headSeq % cap + k < cap → s.headSeq + k ≤ s.maxSeq →
    popMany cap k s =
      ((List.range k).map (fun i => (s.pages s.headPage).ptrs (s.headSeq % cap + i)),
        { s with headSeq := s.headSeq + k }) := by
  intro k
  induction k with
  | zero => intro s h1 h2; simp [popMany]
  | succ k ih =>
    intro s h1 h2
    simp only [popMany]
    have hs : (s.headSeq + 1) % cap = s.headSeq % cap + 1 :=
      mod_add_of_lt cap s.headSeq _ 1 rfl (by omega)
    rw [popHead_simple cap s (by omega) (by rw [hs]; omega)]
    rw [ih _ (by simp only [hs]; omega) (by simp only; omega)]
    simp only
    rw [Prod.mk.injEq]
    constructor
    · rw [List.range_succ_eq_map]
      simp only [List.map_cons, List.map_map, Nat.add_zero]
      rw [List.cons.injEq]
      refine ⟨rfl, ?_⟩
      rw [hs]
      congr 1
      funext i
      simp only [Function.comp]
      congr 1
      omega
    · rw [show s.headSeq + 1 + k = s.headSeq + (k + 1) by omega]

theorem map_getD_range : ∀ l : List Nat, (List.range l.length).map (fun i => l.getD i 0) = l := by
  intro l
  induction l with
  | nil => rfl
  | cons a t ih =>
    rw [List.length_cons, List.range_succ_eq_map, List.map_cons, List.map_map]
    rw [List.cons.injEq]
    refine ⟨rfl, ?_⟩
    rw [show ((fun i => (a :: t).getD i 0) ∘ Nat.succ) = (fun i => t.getD i 0) from ?_, ih]
    funext i
    exact List.getD_cons_succ

theorem fifoRun_decomposed (cap : Nat) (xs : List Nat) (m : Nat) (ys : List Nat)
    (hxs : xs.length = cap - 1) (hys1 : 1 ≤ ys.length) (hys2 : ys.length < cap - 1)
    (hcap : 3 ≤ cap) :
    (popMany cap (xs.length + 1 + ys.length)
      (setMaxSeqFL (pushMany cap initFL (xs ++ m :: ys)))).1 = xs ++ m :: ys := by
  have hc1 : cap - 1 + 1 = cap := by omega
  have hmodc1 : (cap - 1) % cap = cap - 1 := Nat.mod_eq_of_lt (by omega)
  have hmodn : (cap + ys.length) % cap = ys.length := by
    rw [mod_eq_sub cap _ (by omega) (by omega)]
    omega
  rw [show initFL = FL.mk (fun _ => LN.mk 0 (fun _ => 0)) 2 1 0 1 0 0 from rfl]
  -- stage A: the first cap - 1 pushes stay inside the initial node
  have hA := pushMany_simple cap xs (FL.mk (fun _ => LN.mk 0 (fun _ => 0)) 2 1 0 1 0 0)
    (by dsimp only; rw [Nat.zero_mod, hxs]; omega)
  dsimp only at hA
  rw [Nat.zero_mod, Nat.zero_add, hxs] at hA
  -- stage B: the cap-th push rolls the tail node over onto fresh page 2
  have hB := pushTail_roll_empty cap
    (FL.mk (writeSlots (fun _ => LN.mk 0 (fun _ => 0)) 1 0 xs) 2 1 0 1 (cap - 1) 0) m
    (by dsimp only; rw [hc1]; exact Nat.mod_self cap) (by rfl)
  dsimp only at hB
  rw [hmodc1, hc1] at hB
  -- stage C: the remaining pushes stay inside node 2
  have hC := pushMany_simple cap ys
    (FL.mk (updNext (zeroPage
        (updSlot (writeSlots (fun _ => LN.mk 0 (fun _ => 0)) 1 0 xs) 1 (cap - 1) m) 2) 1 2)
      3 1 0 2 cap 0)
    (by dsimp only; rw [Nat.mod_self]; omega)
  dsimp only at hC
  rw [Nat.mod_self] at hC
  -- the assembled push phase
  have hpush : pushMany cap (FL.mk (fun _ => LN.mk 0 (fun _ => 0)) 2 1 0 1 0 0) (xs ++ m :: ys) =
      FL.mk (writeSlots (updNext (zeroPage
          (updSlot (writeSlots (fun _ => LN.mk 0 (fun _ => 0)) 1 0 xs) 1 (cap - 1) m) 2) 1 2)
        2 0 ys)
        3 1 0 2 (cap + ys.length) 0 := by
    rw [pushMany_append cap xs (m :: ys) _, hA]
    show pushMany cap (pushTail cap _ m) ys = _
    rw [hB, hC]
  rw [hpush]
  -- names for the two relevant page arrays
  set PC := writeSlots (updNext (zeroPage
      (updSlot (writeSlots (fun _ => LN.mk 0 (fun _ => 0)) 1 0 xs) 1 (cap - 1) m) 2) 1 2)
    2 0 ys with hPC
  -- reads on node 1 (through the node-2 writes)
  have hn1 : PC 1 = updNext (zeroPage
      (updSlot (writeSlots (fun _ => LN.mk 0 (fun _ => 0)) 1 0 xs) 1 (cap - 1) m) 2) 1 2 1 :=
    writeSlots_page_other 2 1 (by omega) ys _ 0
  have hread1 : ∀ i, i < cap - 1 → (PC 1).ptrs i = xs.getD i 0 := by
    intro i hi
    rw [hn1, updNext_ptrs, zeroPage_page_other _ _ _ (by omega),
      updSlot_ptrs_ne _ _ _ _ _ _ (by omega)]
    have := writeSlots_read 1 xs (fun _ => LN.mk 0 (fun _ => 0)) 0 i (by omega)
    rw [Nat.zero_add] at this
    exact this
  have hreadm : (PC 1).ptrs (cap - 1) = m := by
    rw [hn1, updNext_ptrs, zeroPage_page_other _ _ _ (by omega), updSlot_ptrs_self]
  have hnext1 : (PC 1).next = 2 := by
    rw [hn1, updNext_next_self]
  have hread2 : ∀ i, i < ys.length → (PC 2).ptrs i = ys.getD i 0 := by
    intro i hi
    have := writeSlots_read 2 ys (updNext (zeroPage
      (updSlot (writeSlots (fun _ => LN.mk 0 (fun _ => 0)) 1 0 xs) 1 (cap - 1) m) 2) 1 2) 0 i hi
    rw [Nat.zero_add] at this
    exact this
  -- pop phase: cap - 1 plain pops, one wrapping pop, ys.length plain pops
  rw [show xs.length + 1 + ys.length = (cap - 1) + (ys.length + 1) by omega]
  rw [show setMaxSeqFL (FL.mk PC 3 1 0 2 (cap + ys.length) 0) =
      FL.mk PC 3 1 0 2 (cap + ys.length) (cap + ys.length) from rfl]
  rw [popMany_add]
  -- first segment
  have hP1 := popMany_simple cap (cap - 1) (FL.mk PC 3 1 0 2 (cap + ys.length) (cap + ys.length))
    (by dsimp only; rw [Nat.zero_mod]; omega) (by dsimp only; omega)
  dsimp only at hP1
  rw [Nat.zero_mod, Nat.zero_add] at hP1
  rw [hP1]
  have hout1 : (List.range (cap - 1)).map (fun i => (PC 1).ptrs (0 + i)) = xs := by
    have hcg : ∀ i ∈ List.range (cap - 1), (PC 1).ptrs (0 + i) = xs.getD i 0 := by
      intro i hi
      rw [List.mem_range] at hi
      rw [Nat.zero_add]
      exact hread1 i hi
    rw [List.map_congr_left hcg, ← hxs, map_getD_range]
  dsimp only
  rw [hout1]
  -- the wrapping pop
  simp only [popMany]
  have hW := popHead_wrap cap (FL.mk PC 3 1 (cap - 1) 2 (cap + ys.length) (cap + ys.length))
    (by dsimp only; omega) (by dsimp only; rw [hc1]; exact Nat.mod_self cap)
    (by dsimp only; omega)
  dsimp only at hW
  rw [hmodc1, hreadm, hnext1, hc1] at hW
  rw [hW]
  -- the re-push of the exhausted head node stays inside node 2
  have hT := pushTail_simple cap (FL.mk PC 3 2 cap 2 (cap + ys.length) (cap + ys.length)) 1
    (by dsimp only
        rw [mod_eq_sub cap _ (by omega) (by omega)]
        omega)
  dsimp only at hT
  rw [hmodn] at hT
  rw [hT]
  -- final segment
  have hP3 := popMany_simple cap ys.length
    (FL.mk (updSlot PC 2 ys.length 1) 3 2 cap 2 (cap + ys.length + 1) (cap + ys.length))
    (by dsimp only; rw [Nat.mod_self]; omega) (by dsimp only; omega)
  dsimp only at hP3
  rw [Nat.mod_self] at hP3
  rw [hP3]
  dsimp only
  have hout3 : (List.range ys.length).map (fun i => ((updSlot PC 2 ys.length 1) 2).ptrs (0 + i)) = ys := by
    have hcg : ∀ i ∈ List.range ys.length, ((updSlot PC 2 ys.length 1) 2).ptrs (0 + i) = ys.getD i 0 := by
      intro i hi
      rw [List.mem_range] at hi
      rw [Nat.zero_add, updSlot_ptrs_ne _ _ _ _ _ _ (by omega)]
      exact hread2 i hi
    rw [List.map_congr_left hcg, map_getD_range]
  rw [hout3]

/-- C3 amended: pushing M distinct page ids (cap < M < 2·cap − 1, where cap
is the node capacity FREE_LIST_CAP) onto a fresh list, advancing the
watermark, then popping M times returns exactly the pushed ids in push
order, across the node-rollover boundary.  The original claim's full range
M > cap fails: at M = 2·cap − 1 the tail rollover triggered during the pop
phase consumes an id below the watermark as a list node (see the
counterexample), so the bound M < 2·cap − 1 is the exact extent to which a
single-rollover scenario survives. -/
theorem c3_amended (cap : Nat) (vs : List Nat) (h1 : cap < vs.length)
    (h2 : vs.length < 2 * cap - 1) : fifoRun cap vs = vs := by
  have hcap : 3 ≤ cap := by omega
  have hdrop : vs.drop (cap - 1) = vs.getD (cap - 1) 0 :: vs.drop cap := by
    rw [List.drop_eq_getElem_cons (l := vs) (by omega), show cap - 1 + 1 = cap by omega]
    rw [List.getD_eq_getElem vs 0 (by omega)]
  have hsplit : vs = vs.take (cap - 1) ++ vs.getD (cap - 1) 0 :: vs.drop cap := by
    conv_lhs => rw [← List.take_append_drop (cap - 1) vs]
    rw [hdrop]
  obtain ⟨xs, m, ys, hv, hxs, hys1, hys2⟩ :
      ∃ xs m ys, vs = xs ++ m :: ys ∧ xs.length = cap - 1 ∧ 1 ≤ ys.length ∧
        ys.length < cap - 1 :=
    ⟨vs.take (cap - 1), vs.getD (cap - 1) 0, vs.drop cap, hsplit,
      by rw [List.length_take]; omega,
      by rw [List.length_drop]; omega,
      by rw [List.length_drop]; omega⟩
  subst hv
  unfold fifoRun
  rw [show (xs ++ m :: ys).length = xs.length + 1 + ys.length by simp; omega]
  exact fifoRun_decomposed cap xs m ys hxs hys1 hys2 hcap

/-- Concrete instance of the amended FIFO theorem: capacity 3, four pushed
ids, popped back in order across the rollover. -/
theorem c3_amended_witness :
    fifoRun 3 [10, 20, 30, 40] = [10, 20, 30, 40] :=
  c3_amended 3 [10, 20, 30, 40] (by decide) (by decide)

/-! ### The ordered-store model: order and lookup lemmas -/

theorem lexLt_irrefl : ∀ x : List Nat, lexLt x x = false := by
  intro x
  induction x with
  | nil => rfl
  | cons a x ih => simp [lexLt, ih]

theorem lexLt_trans : ∀ x y z : List Nat,
    lexLt x y = true → lexLt y z = true → lexLt x z = true := by
  intro x
  induction x with
  | nil =>
    intro y z hxy hyz
    cases y with
    | nil => simp [lexLt] at hxy
    | cons b y =>
      cases z with
      | nil => simp [lexLt] at hyz
      | cons c z => simp [lexLt]
  | cons a x ih =>
    intro y z hxy hyz
    cases y with
    | nil => simp [lexLt] at hxy
    | cons b y =>
      cases z with
      | nil => simp [lexLt] at hyz
      | cons c z =>
        simp only [lexLt, Bool.or_eq_true, Bool.and_eq_true, decide_eq_true_eq] at hxy hyz ⊢
        rcases hxy with h1 | ⟨rfl, h1⟩
        · rcases hyz with h2 | ⟨rfl, h2⟩
          · left; omega
          · left; exact h1
        · rcases hyz with h2 | ⟨rfl, h2⟩
          · left; exact h2
          · right; exact ⟨rfl, ih y z h1 h2⟩

theorem lexLt_total : ∀ x y : List Nat, x ≠ y → lexLt x y = true ∨ lexLt y x = true := by
  intro x
  induction x with
  | nil =>
    intro y hne
    cases y with
    | nil => exact absurd rfl hne
    | cons b y => left; rfl
  | cons a x ih =>
    intro y hne
    cases y with
    | nil => right; rfl
    | cons b y =>
      simp only [lexLt, Bool.or_eq_true, Bool.and_eq_true, decide_eq_true_eq]
      by_cases hab : a = b
      · subst hab
        have hxy : x ≠ y := by intro h; exact hne (by rw [h])
        rcases ih y hxy with h | h
        · left; right; exact ⟨rfl, h⟩
        · right; right; exact ⟨rfl, h⟩
      · rcases Nat.lt_or_ge a b with h | h
        · left; left; exact h
        · right; left; omega

theorem lexLt_asymm (x y : List Nat) (h : lexLt x y = true) : lexLt y x = false := by
  by_contra hc
  rw [Bool.not_eq_false] at hc
  have := lexLt_trans x y x h hc
  rw [lexLt_irrefl] at this
  cases this

theorem kvLookup_insert_self (k v : List Nat) :
    ∀ l : List (List Nat × List Nat), kvLookup k (kvInsert k v l) = some v := by
  intro l
  induction l with
  | nil => simp [kvInsert, kvLookup, List.find?]
  | cons e rest ih =>
    simp only [kvInsert]
    split
    · simp [kvLookup, List.find?]
    · split
      · simp [kvLookup, List.find?]
      · next h1 h2 =>
        simp only [kvLookup, List.find?]
        rw [show (decide (e.1 = k)) = false by
          simp only [decide_eq_false_iff_not]; exact fun h => h2 h.symm]
        exact ih

theorem kvLookup_insert_other (k k' v : List Nat) (hne : k' ≠ k) :
    ∀ l : List (List Nat × List Nat), kvLookup k' (kvInsert k v l) = kvLookup k' l := by
  intro l
  induction l with
  | nil => simp [kvInsert, kvLookup, List.find?, Ne.symm hne]
  | cons e rest ih =>
    simp only [kvInsert]
    split
    · have d1 : (decide (k = k')) = false := by
        simp only [decide_eq_false_iff_not]; exact Ne.symm hne
      simp only [kvLookup, List.find?, d1]
    · split
      · next h1 h2 =>
        have d1 : (decide (k = k')) = false := by
          simp only [decide_eq_false_iff_not]; exact Ne.symm hne
        have d2 : (decide (e.1 = k')) = false := by
          simp only [decide_eq_false_iff_not]; rw [← h2]; exact Ne.symm hne
        simp only [kvLookup, List.find?, d1, d2]
      · simp only [kvLookup, List.find?] at ih ⊢
        cases hd : decide (e.1 = k') <;> simp [hd, ih]

theorem kvInsert_mem (k v : List Nat) :
    ∀ (l : List (List Nat × List Nat)) (e : List Nat × List Nat),
      e ∈ kvInsert k v l → e = (k, v) ∨ e ∈ l := by
  intro l
  induction l with
  | nil => intro e he; simp [kvInsert] at he; left; exact he
  | cons e0 rest ih =>
    intro e he
    simp only [kvInsert] at he
    split at he
    · rcases (by simpa using he : e = (k, v) ∨ e = e0 ∨ e ∈ rest) with h | h | h
      · left; exact h
      · right; simp [h]
      · right; simp [h]
    · split at he
      · rcases (by simpa using he : e = (k, v) ∨ e ∈ rest) with h | h
        · left; exact h
        · right; simp [h]
      · rcases (by simpa using he : e = e0 ∨ e ∈ kvInsert k v rest) with h | h
        · right; simp [h]
        · rcases ih e h with h2 | h2
          · left; exact h2
          · right; simp [h2]

theorem cmpBytes_eq_lexLt : ∀ x y : List Nat,
    cmpBytes x y = (if lexLt x y then -1 else if x = y then 0 else 1) := by
  intro x
  induction x with
  | nil =>
    intro y
    cases y with
    | nil => simp [cmpBytes, lexLt]
    | cons b y => simp [cmpBytes, lexLt]
  | cons a x ih =>
    intro y
    cases y with
    | nil => simp [cmpBytes, lexLt]
    | cons b y =>
      have hlex : lexLt (a :: x) (b :: y) = (decide (a < b) || (decide (a = b) && lexLt x y)) := rfl
      have hcmp : cmpBytes (a :: x) (b :: y) =
          (if a < b then -1 else if b < a then 1 else cmpBytes x y) := rfl
      rw [hcmp, hlex]
      rcases Nat.lt_trichotomy a b with h | h | h
      · rw [if_pos h, show (decide (a < b)) = true by simp [h]]
        simp
      · subst h
        rw [if_neg (by omega), if_neg (by omega), ih y]
        simp only [decide_eq_true_eq, lt_self_iff_false, decide_False, Bool.false_or,
          decide_True, Bool.true_and]
        by_cases hxy : lexLt x y = true
        · simp [hxy]
        · simp only [Bool.not_eq_true] at hxy
          rw [hxy]
          by_cases he : x = y
          · simp [he]
          · simp [he, if_neg (show ¬(a :: x = a :: y) by simp [he])]
      · rw [if_neg (by omega), if_pos h,
          show (decide (a < b)) = false by simp; omega,
          show (decide (a = b)) = false by simp; omega]
        simp only [Bool.false_or, Bool.false_and]
        rw [if_neg (by simp), if_neg (by simp; omega)]

theorem cmpOk_GE_iff (a k : List Nat) : cmpOk a CMP_GE k = true ↔ lexLt a k = false := by
  rw [cmpOk]
  simp only [CMP_GE, if_pos rfl, decide_eq_true_eq, cmpBytes_eq_lexLt]
  by_cases h : lexLt a k = true
  · simp [h]
  · simp only [Bool.not_eq_true] at h
    rw [h]
    by_cases he : a = k <;> simp [he, h]

theorem cmpOk_LE_iff (a k : List Nat) :
    cmpOk a CMP_LE k = true ↔ (lexLt a k = true ∨ a = k) := by
  have hd : cmpOk a CMP_LE k = decide (cmpBytes a k ≤ 0) := by
    simp [cmpOk, CMP_LE, CMP_GE, CMP_GT, CMP_LT]
  rw [hd]
  simp only [decide_eq_true_eq, cmpBytes_eq_lexLt]
  by_cases h : lexLt a k = true
  · simp [h]
  · simp only [Bool.not_eq_true] at h
    rw [h]
    by_cases he : a = k <;> simp [he, h]

theorem findIdx?_shift {α : Type} (p : α → Bool) :
    ∀ (l : List α) (i : Nat), List.findIdx? p l i = (List.findIdx? p l 0).map (fun j => j + i) := by
  intro l
  induction l with
  | nil => intro i; rfl
  | cons a l ih =>
    intro i
    rw [List.findIdx?_cons, List.findIdx?_cons]
    split
    · simp
    · rw [ih (i + 1), ih 1]
      cases List.findIdx? p l 0 with
      | none => rfl
      | some j =>
        simp only [Option.map_some']
        congr 1
        omega

theorem kvLookup_none_of_lt (k : List Nat) :
    ∀ l : List (List Nat × List Nat), (∀ e ∈ l, lexLt k e.1 = true) → kvLookup k l = none := by
  intro l
  induction l with
  | nil => intro _; rfl
  | cons e rest ih =>
    intro hall
    have hne : e.1 ≠ k := by
      intro h
      have := hall e (by simp)
      rw [h, lexLt_irrefl] at this
      cases this
    simp only [kvLookup, List.find?]
    rw [show (decide (e.1 = k)) = false by simp only [decide_eq_false_iff_not]; exact hne]
    exact ih (fun e2 h2 => hall e2 (by simp [h2]))

theorem seek_found (k v : List Nat) :
    ∀ l : List (List Nat × List Nat), kvSorted l → kvLookup k l = some v →
      ∃ j : Nat, List.findIdx? (fun e => cmpOk e.1 CMP_GE k) l = some j ∧ j < l.length ∧
        l.getD j ([], []) = (k, v) := by
  intro l
  induction l with
  | nil => intro _ h; simp [kvLookup, List.find?] at h
  | cons e rest ih =>
    intro hs hl
    by_cases hek : e.1 = k
    · refine ⟨0, ?_, by simp, ?_⟩
      · rw [List.findIdx?_cons, if_pos (by
          rw [cmpOk_GE_iff, hek]
          exact lexLt_irrefl k)]
      · have hv : e.2 = v := by
          simp only [kvLookup, List.find?] at hl
          rw [show (decide (e.1 = k)) = true by simp [hek]] at hl
          simpa using hl
        show e = (k, v)
        cases e
        simp_all
    · by_cases hlt : lexLt e.1 k = true
      · have hrl : kvLookup k rest = some v := by
          simp only [kvLookup, List.find?] at hl ⊢
          rw [show (decide (e.1 = k)) = false by
            simp only [decide_eq_false_iff_not]; exact hek] at hl
          exact hl
        rw [kvSorted, List.pairwise_cons] at hs
        obtain ⟨j, hj1, hj2, hj3⟩ := ih hs.2 hrl
        refine ⟨j + 1, ?_, by simp; omega, by simpa using hj3⟩
        rw [List.findIdx?_cons, if_neg (by rw [cmpOk_GE_iff, hlt]; simp), findIdx?_shift, hj1]
        rfl
      · exfalso
        have hkel : lexLt k e.1 = true := by
          rcases lexLt_total k e.1 (fun h => hek h.symm) with h | h
          · exact h
          · exact (hlt h).elim
        rw [kvSorted, List.pairwise_cons] at hs
        have : kvLookup k (e :: rest) = none := by
          apply kvLookup_none_of_lt
          intro e2 he2
          rcases (by simpa using he2 : e2 = e ∨ e2 ∈ rest) with h | h
          · subst h; exact hkel
          · exact lexLt_trans _ _ _ hkel (hs.1 e2 h)
        rw [this] at hl
        cases hl

theorem seek_absent (k : List Nat) :
    ∀ l : List (List Nat × List Nat), kvSorted l → kvLookup k l = none →
      (List.findIdx? (fun e => cmpOk e.1 CMP_GE k) l = none) ∨
      (∃ j : Nat, List.findIdx? (fun e => cmpOk e.1 CMP_GE k) l = some j ∧ j < l.length ∧
        cmpOk (l.getD j ([], [])).1 CMP_LE k = false) := by
  intro l
  induction l with
  | nil => intro _ _; left; rfl
  | cons e rest ih =>
    intro hs hl
    have hek : e.1 ≠ k := by
      intro h
      simp only [kvLookup, List.find?] at hl
      rw [show (decide (e.1 = k)) = true by simp [h]] at hl
      simp at hl
    have hrl : kvLookup k rest = none := by
      simp only [kvLookup, List.find?] at hl ⊢
      rw [show (decide (e.1 = k)) = false by
        simp only [decide_eq_false_iff_not]; exact hek] at hl
      exact hl
    by_cases hlt : lexLt e.1 k = true
    · rw [kvSorted, List.pairwise_cons] at hs
      rcases ih hs.2 hrl with h | ⟨j, hj1, hj2, hj3⟩
      · left
        rw [List.findIdx?_cons, if_neg (by rw [cmpOk_GE_iff, hlt]; simp), findIdx?_shift, h]
        rfl
      · right
        refine ⟨j + 1, ?_, by simp; omega, by simpa using hj3⟩
        rw [List.findIdx?_cons, if_neg (by rw [cmpOk_GE_iff, hlt]; simp), findIdx?_shift, hj1]
        rfl
    · right
      refine ⟨0, ?_, by simp, ?_⟩
      · rw [List.findIdx?_cons, if_pos (by rw [cmpOk_GE_iff]; simpa using hlt)]
      · simp only [List.getD_cons_zero]
        rw [Bool.eq_false_iff]
        intro hc
        rcases (cmpOk_LE_iff e.1 k).mp hc with h | h
        · exact hlt h
        · exact hek h

theorem decode_single_bytes (v : List Nat) :
    decodeValues (escapeString v ++ [0]) [TYPE_BYTES] = some [Value.mkBytes v] := by
  have hnz : ∀ b ∈ escapeString v, b ≠ 0 := by
    rw [escapeString_eq]
    exact escAux_ne_zero v
  simp only [decodeValues]
  rw [if_neg (by decide), if_true]
  rw [show escapeString v ++ [0] = escapeString v ++ 0 :: [] from rfl,
    findIdx_zero_append _ _ hnz]
  have htake : (escapeString v ++ 0 :: []).take (escapeString v).length = escapeString v :=
    List.take_left _ _
  have hdrop : (escapeString v ++ 0 :: []).drop ((escapeString v).length + 1) = [] := by
    rw [show escapeString v ++ 0 :: [] = (escapeString v ++ [0]) ++ [] by simp]
    rw [List.drop_left' (by simp)]
  simp only [htake, hdrop, unescape_escape, Option.bind_some]
  simp [decodeValues]

theorem encodeValues_single_bytes (v : List Nat) :
    encodeValues [] [Value.mkBytes v] = some (escapeString v ++ [0]) := by
  simp [encodeValues, Value.mkBytes, TYPE_BYTES, TYPE_INT64]

theorem encodeKey_single_bytes (pfx : Nat) (v : List Nat) :
    encodeKey [] pfx [Value.mkBytes v] = some (be32 pfx ++ (escapeString v ++ [0])) := by
  simp [encodeKey, encodeValues, Value.mkBytes, TYPE_BYTES, TYPE_INT64]

theorem esc_zero_inj (x y : List Nat)
    (h : escapeString x ++ [0] = escapeString y ++ [0]) : x = y := by
  have hesc : escapeString x = escapeString y := List.append_cancel_right h
  have h1 := unescape_escape x
  have h2 := unescape_escape y
  rw [hesc] at h1
  rw [h1] at h2
  exact (Option.some.injEq _ _ ▸ h2)

theorem esc_inj (x y : List Nat) (h : escapeString x = escapeString y) : x = y := by
  have h1 := unescape_escape x
  have h2 := unescape_escape y
  rw [h] at h1
  rw [h1] at h2
  exact (Option.some.injEq _ _ ▸ h2)

theorem strBytes_inj (n n' : String) (h : strBytes n = strBytes n') : n = n' := by
  have hc : (Char.ofNat ∘ Char.toNat) = id := by
    funext c
    exact Char.ofNat_toNat c
  have hl : n.toList = n'.toList := by
    have := congrArg (List.map Char.ofNat) h
    simpa [strBytes, List.map_map, hc] using this
  cases n
  cases n'
  simp only [String.toList] at hl
  rw [hl]

theorem metaKey_ne_tableKey (nm : String) : metaKey ≠ tableKey nm := by
  simp only [metaKey, tableKey, be32]
  norm_num

theorem tableKey_inj (n n' : String) (h : tableKey n = tableKey n') : n = n' := by
  simp only [tableKey] at h
  have h1 := List.append_cancel_right h
  exact strBytes_inj n n' (esc_inj _ _ (List.append_cancel_left h1))

theorem leRead32_le32 (c : Nat) (h : c < 2 ^ 32) : leRead32 (le32 c) = some c := by
  simp only [le32, leRead32]
  congr 1
  omega

theorem kvInsert_sorted (k v : List Nat) :
    ∀ l : List (List Nat × List Nat), kvSorted l → kvSorted (kvInsert k v l) := by
  intro l
  induction l with
  | nil => intro _; simp [kvInsert, kvSorted]
  | cons e rest ih =>
    intro hs
    rw [kvSorted, List.pairwise_cons] at hs
    obtain ⟨he, hrest⟩ := hs
    simp only [kvInsert]
    split
    · next hlt =>
      rw [kvSorted, List.pairwise_cons]
      refine ⟨?_, by rw [kvSorted] at *; exact List.pairwise_cons.mpr ⟨he, hrest⟩⟩
      intro e2 he2
      rcases (by simpa using he2 : e2 = e ∨ e2 ∈ rest) with h | h
      · subst h; exact hlt
      · exact lexLt_trans _ _ _ hlt (he e2 h)
    · split
      · next h1 h2 =>
        rw [kvSorted, List.pairwise_cons]
        exact ⟨fun e2 he2 => h2 ▸ he e2 he2, hrest⟩
      · next h1 h2 =>
        rw [kvSorted, List.pairwise_cons]
        refine ⟨?_, ih hrest⟩
        intro e2 he2
        rcases kvInsert_mem k v rest e2 he2 with h | h
        · subst h
          rcases lexLt_total e.1 k (fun hh => h2 hh.symm) with hh | hh
          · exact hh
          · exact absurd hh (by simp [h1])
        · exact he e2 h

theorem cmpBytes_self (x : List Nat) : cmpBytes x x = 0 := by
  rw [cmpBytes_eq_lexLt, lexLt_irrefl, if_neg (by simp), if_pos rfl]

theorem metaKey_eq : metaKey = intKey 1 (strBytes "next_prefix") := by
  simp [metaKey, intKey, List.append_assoc]

theorem tableKey_eq (nm : String) : tableKey nm = intKey 2 (strBytes nm) := by
  simp [tableKey, intKey, List.append_assoc]

theorem addStr_nil (c : String) (v : List Nat) :
    Record.addStr ⟨[], []⟩ c v = ⟨[c], [Value.mkBytes v]⟩ := rfl

theorem get_single_self (c0 : String) (v0 : Value) :
    Record.get ⟨[c0], [v0]⟩ c0 = some v0 := by
  simp [Record.get, List.findIdx?_cons]

theorem get_single_other (c0 c1 : String) (v0 : Value) (hne : c1 ≠ c0) :
    Record.get ⟨[c0], [v0]⟩ c1 = none := by
  simp [Record.get, List.findIdx?_cons, Ne.symm hne, hne]

theorem get_pair_fst (c0 c1 : String) (v0 v1 : Value) :
    Record.get ⟨[c0, c1], [v0, v1]⟩ c0 = some v0 := by
  simp [Record.get, List.findIdx?_cons]

theorem get_pair_snd (c0 c1 : String) (v0 v1 : Value) (hne : c1 ≠ c0) :
    Record.get ⟨[c0, c1], [v0, v1]⟩ c1 = some v1 := by
  simp [Record.get, List.findIdx?_cons, List.findIdx?_nil, Ne.symm hne, hne]

theorem getValues_int (nmT c0 c1 : String) (p : Nat) (kb : List Nat) :
    getValues (intTD nmT c0 c1 p) ⟨[c0], [Value.mkBytes kb]⟩ [c0] =
      .ok [Value.mkBytes kb] := by
  simp only [getValues, getValuesGo, get_single_self, intTD]
  rw [show List.findIdx? (fun c2 => decide (c2 = c0)) [c0, c1] = some 0 by
    rw [List.findIdx?_cons, if_pos (by simp)]]
  rfl

theorem checkRecord_int (nmT c0 c1 : String) (p : Nat) (kb : List Nat) (hne : c1 ≠ c0) :
    checkRecord (intTD nmT c0 c1 p) ⟨[c0], [Value.mkBytes kb]⟩ 1 =
      .ok [Value.mkBytes kb, Value.zero] := by
  have hro : reorderRecord (intTD nmT c0 c1 p) ⟨[c0], [Value.mkBytes kb]⟩ =
      .ok [Value.mkBytes kb, Value.zero] := by
    rw [reorderRecord, if_pos (by rfl)]
    simp only [intTD, reorderGo, get_single_self, get_single_other c0 c1 _ hne]
    rfl
  rw [checkRecord, hro, except_bind_ok]
  rfl

theorem checkRecord_int2 (nmT c0 c1 : String) (p : Nat) (kb vb : List Nat) (hne : c1 ≠ c0) :
    checkRecord (intTD nmT c0 c1 p) ⟨[c0, c1], [Value.mkBytes kb, Value.mkBytes vb]⟩ 2 =
      .ok [Value.mkBytes kb, Value.mkBytes vb] := by
  have hro : reorderRecord (intTD nmT c0 c1 p) ⟨[c0, c1], [Value.mkBytes kb, Value.mkBytes vb]⟩ =
      .ok [Value.mkBytes kb, Value.mkBytes vb] := by
    rw [reorderRecord, if_pos (by rfl)]
    simp only [intTD, reorderGo, get_pair_fst, get_pair_snd c0 c1 _ _ hne]
    rfl
  rw [checkRecord, hro, except_bind_ok]
  rfl

theorem except_pure_bind {ε α β : Type} (a : α) (f : α → Except ε β) :
    ((pure a : Except ε α) >>= f) = f a := rfl

theorem intTD_pkeys (nmT c0 c1 : String) (p : Nat) : (intTD nmT c0 c1 p).pkeys = 1 := rfl

theorem intTD_pfx (nmT c0 c1 : String) (p : Nat) : (intTD nmT c0 c1 p).pfx = p := rfl

theorem intTD_cols (nmT c0 c1 : String) (p : Nat) : (intTD nmT c0 c1 p).cols = [c0, c1] := rfl

theorem intTD_types (nmT c0 c1 : String) (p : Nat) :
    (intTD nmT c0 c1 p).types = [TYPE_BYTES, TYPE_BYTES] := rfl

theorem intTD_indexes (nmT c0 c1 : String) (p : Nat) :
    (intTD nmT c0 c1 p).indexes = [[c0]] := rfl

theorem dbScan_int (db : DBS) (nmT c0 c1 : String) (p : Nat) (kb : List Nat) (hne : c1 ≠ c0) :
    dbScan db (intTD nmT c0 c1 p) CMP_GE CMP_LE
        ⟨[c0], [Value.mkBytes kb]⟩ ⟨[c0], [Value.mkBytes kb]⟩ =
      .ok ⟨CMP_GE, CMP_LE, ⟨[c0], [Value.mkBytes kb]⟩, ⟨[c0], [Value.mkBytes kb]⟩,
        intTD nmT c0 c1 p, treeSeek db.kv.entries (intKey p kb) CMP_GE, intKey p kb⟩ := by
  rw [dbScan, if_pos (by decide)]
  simp only [intTD_pkeys, intTD_pfx]
  rw [checkRecord_int nmT c0 c1 p kb hne]
  simp only [except_bind_ok]
  simp only [List.take_succ_cons, List.take_zero]
  rw [encodeKey_single_bytes]
  simp only [liftOpt, except_bind_ok]
  rfl

theorem treeSeek_absent (entries : List (List Nat × List Nat)) (k : List Nat)
    (hs : kvSorted entries) (habs : kvLookup k entries = none) :
    treeSeek entries k CMP_GE = ⟨entries, (entries.length : Int)⟩ ∨
    ∃ j : Nat, treeSeek entries k CMP_GE = ⟨entries, (j : Int)⟩ ∧ j < entries.length ∧
      cmpOk (entries.getD j ([], [])).1 CMP_LE k = false := by
  rw [treeSeek, if_pos (by decide)]
  rcases seek_absent k entries hs habs with h | ⟨j, hj1, hj2, hj3⟩
  · left
    rw [h]
  · right
    exact ⟨j, by rw [hj1], hj2, hj3⟩

theorem treeSeek_found (entries : List (List Nat × List Nat)) (k v : List Nat)
    (hs : kvSorted entries) (hfnd : kvLookup k entries = some v) :
    ∃ j : Nat, treeSeek entries k CMP_GE = ⟨entries, (j : Int)⟩ ∧ j < entries.length ∧
      entries.getD j ([], []) = (k, v) := by
  rw [treeSeek, if_pos (by decide)]
  obtain ⟨j, hj1, hj2, hj3⟩ := seek_found k v entries hs hfnd
  exact ⟨j, by rw [hj1], hj2, hj3⟩

theorem decodeKey_intKey (p : Nat) (kb : List Nat) :
    decodeKey (intKey p kb) [TYPE_BYTES] = some [Value.mkBytes kb] := by
  rw [decodeKey, intKey, List.drop_left' (show (be32 p).length = 4 from rfl),
    decode_single_bytes]

theorem dbGet_int_absent (db : DBS) (nmT c0 c1 : String) (p : Nat) (kb : List Nat)
    (hne : c1 ≠ c0) (hs : kvSorted db.kv.entries)
    (habs : kvLookup (intKey p kb) db.kv.entries = none) :
    dbGet db (intTD nmT c0 c1 p) ⟨[c0], [Value.mkBytes kb]⟩ =
      .ok (false, ⟨[c0], [Value.mkBytes kb]⟩) := by
  rw [dbGet]
  simp only [intTD_indexes]
  rw [getValues_int]
  simp only [except_bind_ok]
  rw [dbScan_int db nmT c0 c1 p kb hne]
  simp only [except_bind_ok]
  rcases treeSeek_absent db.kv.entries (intKey p kb) hs habs with h | ⟨j, hj1, hj2, hj3⟩
  · rw [h]
    have hval : Scanner.valid ⟨CMP_GE, CMP_LE, ⟨[c0], [Value.mkBytes kb]⟩,
        ⟨[c0], [Value.mkBytes kb]⟩, intTD nmT c0 c1 p,
        ⟨db.kv.entries, (db.kv.entries.length : Int)⟩, intKey p kb⟩ = false := by
      simp [Scanner.valid, BIter.bvalid]
    rw [hval]
    rfl
  · rw [hj1]
    have hval : Scanner.valid ⟨CMP_GE, CMP_LE, ⟨[c0], [Value.mkBytes kb]⟩,
        ⟨[c0], [Value.mkBytes kb]⟩, intTD nmT c0 c1 p,
        ⟨db.kv.entries, (j : Int)⟩, intKey p kb⟩ = false := by
      simp only [Scanner.valid, BIter.bvalid, BIter.bderef]
      rw [if_pos (by simp; exact_mod_cast hj2)]
      simpa [Int.toNat_ofNat] using hj3
    rw [hval]
    rfl

theorem dbGet_int_found (db : DBS) (nmT c0 c1 : String) (p : Nat) (kb vb : List Nat)
    (hne : c1 ≠ c0) (hs : kvSorted db.kv.entries)
    (hfnd : kvLookup (intKey p kb) db.kv.entries = some (escapeString vb ++ [0])) :
    dbGet db (intTD nmT c0 c1 p) ⟨[c0], [Value.mkBytes kb]⟩ =
      .ok (true, ⟨[c0, c1], [Value.mkBytes kb, Value.mkBytes vb]⟩) := by
  rw [dbGet]
  simp only [intTD_indexes]
  rw [getValues_int]
  simp only [except_bind_ok]
  rw [dbScan_int db nmT c0 c1 p kb hne]
  simp only [except_bind_ok]
  obtain ⟨j, hj1, hj2, hj3⟩ :=
    treeSeek_found db.kv.entries (intKey p kb) (escapeString vb ++ [0]) hs hfnd
  rw [hj1]
  have hval : Scanner.valid ⟨CMP_GE, CMP_LE, ⟨[c0], [Value.mkBytes kb]⟩,
      ⟨[c0], [Value.mkBytes kb]⟩, intTD nmT c0 c1 p,
      ⟨db.kv.entries, (j : Int)⟩, intKey p kb⟩ = true := by
    simp only [Scanner.valid, BIter.bvalid, BIter.bderef]
    rw [if_pos (by simp; exact_mod_cast hj2)]
    simp only [Int.toNat_ofNat, hj3]
    rw [cmpOk_LE_iff]
    right
    rfl
  rw [hval]
  have hder : Scanner.sderef ⟨CMP_GE, CMP_LE, ⟨[c0], [Value.mkBytes kb]⟩,
      ⟨[c0], [Value.mkBytes kb]⟩, intTD nmT c0 c1 p,
      ⟨db.kv.entries, (j : Int)⟩, intKey p kb⟩ =
      some ⟨[c0, c1], [Value.mkBytes kb, Value.mkBytes vb]⟩ := by
    simp only [Scanner.sderef, BIter.bderef, intTD_types, intTD_pkeys, intTD_cols]
    simp only [Int.toNat_ofNat, hj3]
    simp only [List.take_succ_cons, List.take_zero, List.drop_succ_cons, List.drop_zero]
    rw [decodeKey_intKey, decode_single_bytes]
    rfl
  rw [hder]
  rfl

theorem dbUpdate_int (db : DBS) (nmT c0 c1 : String) (p : Nat) (kb vb : List Nat)
    (hne : c1 ≠ c0) :
    ∃ a b : Bool, dbUpdate db (intTD nmT c0 c1 p)
        ⟨[c0, c1], [Value.mkBytes kb, Value.mkBytes vb]⟩ MODE_UPSERT =
      .ok (a, b, ⟨⟨kvInsert (intKey p kb) (escapeString vb ++ [0]) db.kv.entries⟩,
        db.tables⟩) := by
  rw [dbUpdate]
  rw [show (intTD nmT c0 c1 p).cols.length = 2 from rfl]
  rw [checkRecord_int2 nmT c0 c1 p kb vb hne]
  simp only [except_bind_ok]
  simp only [intTD_pkeys, intTD_pfx, List.take_succ_cons, List.take_zero,
    List.drop_succ_cons, List.drop_zero]
  rw [encodeKey_single_bytes, encodeValues_single_bytes]
  simp only [liftOpt, except_bind_ok]
  rw [show be32 p ++ (escapeString kb ++ [0]) = intKey p kb from rfl]
  by_cases hp : (db.kv.entries.find? (fun e => e.1 = intKey p kb)).isSome
  · refine ⟨false, true, ?_⟩
    rw [show kvUpdate db.kv (intKey p kb) (escapeString vb ++ [0]) MODE_UPSERT =
        (false, true, ⟨kvInsert (intKey p kb) (escapeString vb ++ [0]) db.kv.entries⟩) by
      simp [kvUpdate, hp, MODE_UPSERT, MODE_INSERT_ONLY]]
  · refine ⟨true, true, ?_⟩
    rw [show kvUpdate db.kv (intKey p kb) (escapeString vb ++ [0]) MODE_UPSERT =
        (true, true, ⟨kvInsert (intKey p kb) (escapeString vb ++ [0]) db.kv.entries⟩) by
      simp [kvUpdate, hp, MODE_UPSERT, MODE_UPDATE_ONLY]]

theorem tableNew_int (db : DBS) (t : TableDef) (c : Nat)
    (ht : t.pfx = 0) (hcheck : tableDefCheck t = .ok ())
    (hs : kvSorted db.kv.entries)
    (habs : kvLookup (intKey 2 (strBytes t.name)) db.kv.entries = none)
    (hmeta : (kvLookup (intKey 1 (strBytes "next_prefix")) db.kv.entries = none ∧
              c = TABLE_PFX_MIN) ∨
             (kvLookup (intKey 1 (strBytes "next_prefix")) db.kv.entries =
                some (escapeString (le32 c) ++ [0]) ∧ TABLE_PFX_MIN < c ∧ c < 2 ^ 32)) :
    tableNew db t = .ok ({ t with pfx := c },
      ⟨⟨kvInsert (intKey 2 (strBytes t.name))
          (escapeString (tdefSerialize { t with pfx := c }) ++ [0])
          (kvInsert (intKey 1 (strBytes "next_prefix"))
            (escapeString (le32 (c + 1)) ++ [0]) db.kv.entries)⟩, db.tables⟩) := by
  simp only [tableNew]
  rw [hcheck]
  simp only [except_bind_ok]
  rw [show TDEF_TABLE = intTD "@table" "name" "def" 2 from rfl,
    addStr_nil "name" (strBytes t.name),
    dbGet_int_absent db "@table" "name" "def" 2 (strBytes t.name) (by decide) hs habs]
  simp only [except_pure_bind]
  rw [if_neg (by simp)]
  rw [ht, if_neg (by simp)]
  rw [show TDEF_META = intTD "@meta" "key" "val" 1 from rfl,
    addStr_nil "key" (strBytes "next_prefix")]
  rcases hmeta with ⟨hnone, hc⟩ | ⟨hsome, hgt, hlt⟩
  · subst hc
    rw [dbGet_int_absent db "@meta" "key" "val" 1 (strBytes "next_prefix") (by decide) hs hnone]
    simp only [except_pure_bind]
    rw [if_neg (by simp)]
    rw [show Record.addStr ⟨["key"], [Value.mkBytes (strBytes "next_prefix")]⟩ "val" [0, 0, 0, 0] =
      ⟨["key", "val"], [Value.mkBytes (strBytes "next_prefix"), Value.mkBytes [0, 0, 0, 0]]⟩
      from rfl]
    rw [show ∀ w, Record.setVal
        ⟨["key", "val"], [Value.mkBytes (strBytes "next_prefix"), Value.mkBytes [0, 0, 0, 0]]⟩
        "val" w =
        ⟨["key", "val"], [Value.mkBytes (strBytes "next_prefix"), w]⟩ from fun w => rfl]
    obtain ⟨a1, b1, hupd1⟩ := dbUpdate_int db "@meta" "key" "val" 1 (strBytes "next_prefix")
      (le32 (TABLE_PFX_MIN + 1)) (by decide)
    rw [hupd1]
    simp only [except_bind_ok]
    rw [show ∀ d, Record.addStr ⟨["name"], [Value.mkBytes (strBytes t.name)]⟩ "def" d =
      ⟨["name", "def"], [Value.mkBytes (strBytes t.name), Value.mkBytes d]⟩ from fun d => rfl]
    obtain ⟨a2, b2, hupd2⟩ := dbUpdate_int
      ⟨⟨kvInsert (intKey 1 (strBytes "next_prefix"))
          (escapeString (le32 (TABLE_PFX_MIN + 1)) ++ [0]) db.kv.entries⟩, db.tables⟩
      "@table" "name" "def" 2 (strBytes t.name)
      (tdefSerialize { t with pfx := TABLE_PFX_MIN }) (by decide)
    rw [hupd2]
    simp only [except_bind_ok]
  · rw [dbGet_int_found db "@meta" "key" "val" 1 (strBytes "next_prefix") (le32 c)
      (by decide) hs hsome]
    simp only [except_pure_bind]
    rw [if_pos True.intro]
    rw [get_pair_snd "key" "val" _ _ (by decide)]
    simp only [Option.some_bind]
    rw [show (Value.mkBytes (le32 c)).str = le32 c from rfl, leRead32_le32 c hlt]
    dsimp only
    rw [if_pos hgt]
    rw [show ∀ w, Record.setVal
        ⟨["key", "val"], [Value.mkBytes (strBytes "next_prefix"), Value.mkBytes (le32 c)]⟩
        "val" w =
        ⟨["key", "val"], [Value.mkBytes (strBytes "next_prefix"), w]⟩ from fun w => rfl]
    obtain ⟨a1, b1, hupd1⟩ := dbUpdate_int db "@meta" "key" "val" 1 (strBytes "next_prefix")
      (le32 (c + 1)) (by decide)
    rw [hupd1]
    simp only [except_bind_ok]
    rw [show ∀ d, Record.addStr ⟨["name"], [Value.mkBytes (strBytes t.name)]⟩ "def" d =
      ⟨["name", "def"], [Value.mkBytes (strBytes t.name), Value.mkBytes d]⟩ from fun d => rfl]
    obtain ⟨a2, b2, hupd2⟩ := dbUpdate_int
      ⟨⟨kvInsert (intKey 1 (strBytes "next_prefix"))
          (escapeString (le32 (c + 1)) ++ [0]) db.kv.entries⟩, db.tables⟩
      "@table" "name" "def" 2 (strBytes t.name)
      (tdefSerialize { t with pfx := c }) (by decide)
    rw [hupd2]
    simp only [except_bind_ok]

theorem intKey_meta_ne_table (nm : String) :
    intKey 1 (strBytes "next_prefix") ≠ intKey 2 (strBytes nm) := by
  rw [← metaKey_eq, ← tableKey_eq]
  exact metaKey_ne_tableKey nm

theorem c6inv_step (names : List String) (db : DBS) (nm : String) (c : Nat) (sval : List Nat)
    (hInv : C6Inv names db) (hc : c = TABLE_PFX_MIN + names.length) :
    C6Inv (names ++ [nm])
      ⟨⟨kvInsert (intKey 2 (strBytes nm)) (escapeString sval ++ [0])
          (kvInsert (intKey 1 (strBytes "next_prefix"))
            (escapeString (le32 (c + 1)) ++ [0]) db.kv.entries)⟩, db.tables⟩ := by
  obtain ⟨h1, h2, h3⟩ := hInv
  refine ⟨?_, ?_, ?_⟩
  · exact kvInsert_sorted _ _ _ (kvInsert_sorted _ _ _ h1)
  · show kvLookup metaKey (kvInsert (intKey 2 (strBytes nm)) _ _) = _
    rw [metaKey_eq, kvLookup_insert_other _ _ _ (intKey_meta_ne_table nm),
      kvLookup_insert_self]
    rw [if_neg (by simp)]
    have : c + 1 = TABLE_PFX_MIN + (names ++ [nm]).length := by
      simp only [List.length_append, List.length_cons, List.length_nil]
      omega
    rw [this]
  · intro nm' hlk
    show nm' ∈ names ++ [nm]
    by_cases he : nm' = nm
    · simp [he]
    · rw [show kvLookup (tableKey nm') _ = kvLookup (tableKey nm') db.kv.entries by
        rw [tableKey_eq, kvLookup_insert_other _ _ _
          (fun h => he (tableKey_inj nm' nm (by rw [tableKey_eq, tableKey_eq, h]))),
          kvLookup_insert_other _ _ _
          (fun h => metaKey_ne_tableKey nm' (by rw [metaKey_eq, tableKey_eq, h]))]] at hlk
      exact List.mem_append.mpr (Or.inl (h3 nm' hlk))

theorem tableNewRun_inv (defs : List TableDef) : ∀ (names : List String) (db : DBS),
    C6Inv names db →
    (∀ t ∈ defs, t.pfx = 0 ∧ tableDefCheck t = .ok ()) →
    (∀ t ∈ defs, t.name ∉ names) →
    (defs.map (fun t2 => t2.name)).Nodup →
    TABLE_PFX_MIN + names.length + defs.length < 2 ^ 32 →
    ∃ out db2, tableNewRun db defs = .ok (out, db2) ∧
      out.map (fun t2 => t2.pfx) = List.range' (TABLE_PFX_MIN + names.length) defs.length ∧
      C6Inv (names ++ defs.map (fun t2 => t2.name)) db2 := by
  induction defs with
  | nil =>
    intro names db hInv _ _ _ _
    exact ⟨[], db, rfl, rfl, by simpa using hInv⟩
  | cons t ts ih =>
    intro names db hInv hok hfresh hnodup hbound
    obtain ⟨hInv1, hInv2, hInv3⟩ := hInv
    simp only [List.length_cons] at hbound
    have habs : kvLookup (intKey 2 (strBytes t.name)) db.kv.entries = none := by
      rw [← tableKey_eq]
      by_contra h
      exact hfresh t (by simp) (hInv3 t.name h)
    have hmeta : (kvLookup (intKey 1 (strBytes "next_prefix")) db.kv.entries = none ∧
        TABLE_PFX_MIN + names.length = TABLE_PFX_MIN) ∨
        (kvLookup (intKey 1 (strBytes "next_prefix")) db.kv.entries =
          some (escapeString (le32 (TABLE_PFX_MIN + names.length)) ++ [0]) ∧
        TABLE_PFX_MIN < TABLE_PFX_MIN + names.length ∧
        TABLE_PFX_MIN + names.length < 2 ^ 32) := by
      rcases Nat.eq_zero_or_pos names.length with h0 | hpos
      · left
        exact ⟨by rw [← metaKey_eq, hInv2, if_pos h0], by omega⟩
      · right
        refine ⟨?_, by omega, by omega⟩
        rw [← metaKey_eq, hInv2, if_neg (by omega)]
    have hstep := tableNew_int db t (TABLE_PFX_MIN + names.length) (hok t (by simp)).1
      (hok t (by simp)).2 hInv1 habs hmeta
    have hInv' := c6inv_step names db t.name (TABLE_PFX_MIN + names.length)
      (tdefSerialize { t with pfx := TABLE_PFX_MIN + names.length }) ⟨hInv1, hInv2, hInv3⟩ rfl
    simp only [List.map_cons, List.nodup_cons] at hnodup
    obtain ⟨out, db2, hrun, hmap, hinv2⟩ := ih (names ++ [t.name]) _ hInv'
      (fun t' ht' => hok t' (by simp [ht']))
      (by
        intro t' ht' hmem
        rcases List.mem_append.mp hmem with h | h
        · exact hfresh t' (by simp [ht']) h
        · have hh : t'.name = t.name := by simpa using h
          exact hnodup.1 (List.mem_map.mpr ⟨t', ht', hh⟩))
      hnodup.2
      (by simp only [List.length_append, List.length_cons, List.length_nil]; omega)
    refine ⟨{ t with pfx := TABLE_PFX_MIN + names.length } :: out, db2, ?_, ?_, ?_⟩
    · simp only [tableNewRun]
      rw [hstep]
      simp only [except_bind_ok]
      rw [hrun]
      simp only [except_bind_ok]
    · have hl : TABLE_PFX_MIN + (names ++ [t.name]).length =
          TABLE_PFX_MIN + names.length + 1 := by
        simp only [List.length_append, List.length_cons, List.length_nil]
        omega
      rw [hl] at hmap
      simp only [List.map_cons, List.length_cons, hmap, List.range'_succ]
    · simpa [List.append_assoc] using hinv2

/-- C6: prefix monotonicity.  Creating any list of valid table definitions
with distinct names and zero input prefix on a fresh database succeeds and
assigns the prefixes TABLE_PREFIX_MIN, TABLE_PREFIX_MIN + 1, ... in call
order — N distinct, strictly increasing values starting at 100 — and after
the first k calls the 4-byte little-endian counter stored under
"next_prefix" in @meta reads TABLE_PREFIX_MIN + k: each successful call
increments it by exactly one (it is absent before the first call). -/
theorem c6_prefix_monotonic (defs : List TableDef)
    (hok : ∀ t ∈ defs, t.pfx = 0 ∧ tableDefCheck t = .ok ())
    (hnodup : (defs.map (fun t2 => t2.name)).Nodup)
    (hbound : TABLE_PFX_MIN + defs.length < 2 ^ 32) :
    (∃ out : List TableDef, ∃ db2 : DBS, tableNewRun freshDB defs = .ok (out, db2) ∧
      out.map (fun t2 => t2.pfx) = List.range' TABLE_PFX_MIN defs.length) ∧
    (∀ k, k ≤ defs.length → ∃ outk : List TableDef, ∃ dbk : DBS,
      tableNewRun freshDB (defs.take k) = .ok (outk, dbk) ∧
      kvLookup metaKey dbk.kv.entries =
        (if k = 0 then none
         else some (escapeString (le32 (TABLE_PFX_MIN + k)) ++ [0]))) := by
  have hfr : C6Inv [] freshDB := ⟨List.Pairwise.nil, rfl, fun nm h => absurd rfl h⟩
  constructor
  · obtain ⟨out, db2, hrun, hmap, _⟩ := tableNewRun_inv defs [] freshDB hfr hok
      (fun t _ => List.not_mem_nil t.name) hnodup (by simpa using hbound)
    exact ⟨out, db2, hrun, hmap⟩
  · intro k hk
    have hsub : ∀ t ∈ defs.take k, t ∈ defs := fun t ht => List.take_subset k defs ht
    have hnd : ((defs.take k).map (fun t2 => t2.name)).Nodup := by
      rw [List.map_take]
      exact (List.take_sublist k _).nodup hnodup
    obtain ⟨outk, dbk, hrunk, _, hinvk⟩ := tableNewRun_inv (defs.take k) [] freshDB hfr
      (fun t ht => hok t (hsub t ht))
      (fun t _ => List.not_mem_nil t.name) hnd
      (by simp only [List.length_nil, List.length_take]; omega)
    obtain ⟨_, hcnt, _⟩ := hinvk
    have hlen : (([] : List String) ++ ((defs.take k).map (fun t2 => t2.name))).length = k := by
      simp only [List.nil_append, List.length_map, List.length_take]
      omega
    rw [hlen] at hcnt
    exact ⟨outk, dbk, hrunk, hcnt⟩

/-- Witness for C6 at two concrete definitions. -/
theorem c6_prefix_monotonic_witness :
    (∃ out : List TableDef, ∃ db2 : DBS,
      tableNewRun freshDB
          [⟨"t1", [TYPE_INT64], ["a"], 1, 0, [["a"]]⟩,
           ⟨"t2", [TYPE_INT64], ["b"], 1, 0, [["b"]]⟩] = .ok (out, db2) ∧
      out.map (fun t2 => t2.pfx) = List.range' TABLE_PFX_MIN 2) ∧
    (∀ k, k ≤ 2 → ∃ outk : List TableDef, ∃ dbk : DBS,
      tableNewRun freshDB
          ([⟨"t1", [TYPE_INT64], ["a"], 1, 0, [["a"]]⟩,
            ⟨"t2", [TYPE_INT64], ["b"], 1, 0, [["b"]]⟩].take k) = .ok (outk, dbk) ∧
      kvLookup metaKey dbk.kv.entries =
        (if k = 0 then none
         else some (escapeString (le32 (TABLE_PFX_MIN + k)) ++ [0]))) :=
  c6_prefix_monotonic
    [⟨"t1", [TYPE_INT64], ["a"], 1, 0, [["a"]]⟩,
     ⟨"t2", [TYPE_INT64], ["b"], 1, 0, [["b"]]⟩]
    (by decide) (by decide) (by decide)

theorem div_succ_of_mod_ne (c t : Nat) (h : (t + 1) % c ≠ 0) : (t + 1) / c = t / c := by
  rw [Nat.succ_div, if_neg (fun hd => h (Nat.dvd_iff_mod_eq_zero.mp hd))]
  omega

theorem div_succ_of_mod_eq (c t : Nat) (h : (t + 1) % c = 0) :
    (t + 1) / c = t / c + 1 := by
  rw [Nat.succ_div, if_pos (Nat.dvd_iff_mod_eq_zero.mpr h)]

theorem mod_ne_of_div_eq (c t u : Nat) (hne : t ≠ u) (h : t / c = u / c) : t % c ≠ u % c := by
  intro hm
  have h1 := Nat.div_add_mod t c
  have h2 := Nat.div_add_mod u c
  rw [h, hm] at h1
  omega

theorem getD_tail (l : List Nat) (i : Nat) : l.tail.getD i 0 = l.getD (i + 1) 0 := by
  cases l with
  | nil => rfl
  | cons x xs => rfl

theorem getD_mem_of_lt (l : List Nat) (i : Nat) (h : i < l.length) : l.getD i 0 ∈ l := by
  rw [List.getD_eq_getElem l 0 h]
  exact List.getElem_mem h

theorem nodup_getD_inj (l : List Nat) (hnd : l.Nodup) (i j : Nat) (hi : i < l.length)
    (hj : j < l.length) (h : l.getD i 0 = l.getD j 0) : i = j := by
  rw [List.getD_eq_getElem l 0 hi, List.getD_eq_getElem l 0 hj] at h
  have := List.nodup_iff_injective_get.mp hnd
    (show l.get ⟨i, hi⟩ = l.get ⟨j, hj⟩ by simpa using h)
  simpa using congrArg Fin.val this

theorem updSlot_ptrs_untouched (pages : Nat → LN) (p idx v q j : Nat)
    (h : q ≠ p ∨ j ≠ idx) :
    ((updSlot pages p idx v) q).ptrs j = (pages q).ptrs j := by
  rcases h with h | h
  · rw [updSlot_page_other pages p idx v q h]
  · exact updSlot_ptrs_ne pages p idx v q j h

theorem pushTail_roll_pop (cap : Nat) (s : FL) (v : Nat)
    (h : (s.tailSeq + 1) % cap = 0) (hne : ¬s.headSeq = s.maxSeq)
    (hw : (s.headSeq + 1) % cap ≠ 0)
    (hp : ((updSlot s.pages s.tailPage (s.tailSeq % cap) v) s.headPage).ptrs
      (s.headSeq % cap) ≠ 0) :
    pushTail cap s v = { s with
      pages := updNext (updSlot s.pages s.tailPage (s.tailSeq % cap) v) s.tailPage
        (((updSlot s.pages s.tailPage (s.tailSeq % cap) v) s.headPage).ptrs (s.headSeq % cap)),
      headSeq := s.headSeq + 1,
      tailPage := ((updSlot s.pages s.tailPage (s.tailSeq % cap) v) s.headPage).ptrs
        (s.headSeq % cap),
      tailSeq := s.tailSeq + 1 } := by
  simp [pushTail, flPop, h, hne, hw, hp]

theorem pushTail_roll_wrap (cap : Nat) (s : FL) (v : Nat)
    (h : (s.tailSeq + 1) % cap = 0) (hne : ¬s.headSeq = s.maxSeq)
    (hw : (s.headSeq + 1) % cap = 0)
    (hp : ((updSlot s.pages s.tailPage (s.tailSeq % cap) v) s.headPage).ptrs
      (s.headSeq % cap) ≠ 0)
    (hhd : s.headPage ≠ 0) :
    pushTail cap s v = { s with
      pages := updSlot
        (updNext (updSlot s.pages s.tailPage (s.tailSeq % cap) v) s.tailPage
          (((updSlot s.pages s.tailPage (s.tailSeq % cap) v) s.headPage).ptrs (s.headSeq % cap)))
        (((updSlot s.pages s.tailPage (s.tailSeq % cap) v) s.headPage).ptrs (s.headSeq % cap))
        0 s.headPage,
      headSeq := s.headSeq + 1,
      headPage := ((updSlot s.pages s.tailPage (s.tailSeq % cap) v) s.headPage).next,
      tailPage := ((updSlot s.pages s.tailPage (s.tailSeq % cap) v) s.headPage).ptrs
        (s.headSeq % cap),
      tailSeq := s.tailSeq + 1 + 1 } := by
  simp [pushTail, flPop, h, hne, hw, hp, hhd]

theorem push_stepA (cap : Nat) (s : FL) (chain stock : List Nat) (v : Nat)
    (hg : Good cap s chain stock) (hv0 : v ≠ 0) (hvf : v < s.fresh)
    (hvc : v ∉ chain) (hvs : v ∉ stock)
    (hA : (s.tailSeq + 1) % cap ≠ 0) :
    StepOk cap s (pushTail cap s v) stock := by
  obtain ⟨hg1, hg2, hg3, hg4, hg5, hg6, hg7, hg8, hg9, hg10, hg11, hg12, hg13⟩ := hg
  rw [pushTail_simple cap s v hA]
  refine ⟨chain, stock ++ [v], ?_, rfl, le_rfl, ?_⟩
  · unfold Good
    dsimp only
    refine ⟨hg1, by omega, hg3, ?_, ?_, hg6, hg7, hg8, hg9, ?_, ?_, ?_, ?_⟩
    · rw [div_succ_of_mod_ne cap s.tailSeq hA]
      exact hg4
    · simp only [List.length_append, List.length_cons, List.length_nil, hg5]
      omega
    · intro i hi
      rw [updSlot_next]
      exact hg10 i hi
    · intro i hi
      rw [List.mem_range] at hi
      by_cases hiT : i < s.tailSeq - s.headSeq
      · have hupper : (s.headSeq + i) / cap ≤ s.tailSeq / cap :=
          Nat.div_le_div_right (by omega)
        have hlower : s.headSeq / cap ≤ (s.headSeq + i) / cap :=
          Nat.div_le_div_right (by omega)
        have hidx : (s.headSeq + i) / cap - s.headSeq / cap < chain.length := by
          rw [hg4]
          omega
        have hne2 : chain.getD ((s.headSeq + i) / cap - s.headSeq / cap) 0 ≠ s.tailPage ∨
            (s.headSeq + i) % cap ≠ s.tailSeq % cap := by
          by_cases hpe : chain.getD ((s.headSeq + i) / cap - s.headSeq / cap) 0 = s.tailPage
          · right
            have hLpos : 0 < chain.length := by omega
            have hLlt : chain.length - 1 < chain.length := by omega
            have hij := nodup_getD_inj chain hg6 _ _ hidx hLlt (by rw [hpe, hg9])
            have hteq : (s.headSeq + i) / cap = s.tailSeq / cap := by
              rw [hg4] at hij
              omega
            exact mod_ne_of_div_eq cap _ _ (by omega) hteq
          · left
            exact hpe
        rw [updSlot_ptrs_untouched _ _ _ _ _ _ hne2]
        rw [List.getD_append _ _ _ _ (by rw [hg5]; omega)]
        exact hg11 i (List.mem_range.mpr hiT)
      · have hieq : i = s.tailSeq - s.headSeq := by omega
        subst hieq
        have hts : s.headSeq + (s.tailSeq - s.headSeq) = s.tailSeq := by omega
        rw [hts]
        have hlen1 : chain.length - 1 = s.tailSeq / cap - s.headSeq / cap := by
          rw [hg4]
          omega
        rw [show chain.getD (s.tailSeq / cap - s.headSeq / cap) 0 = s.tailPage by
          rw [← hlen1, ← hg9]]
        rw [updSlot_ptrs_self]
        rw [List.getD_append_right _ _ _ _ (by rw [hg5])]
        rw [hg5]
        simp
    · rw [List.nodup_append]
      refine ⟨hg12, List.nodup_singleton v, ?_⟩
      intro a ha hb
      rw [List.mem_singleton] at hb
      subst hb
      exact hvs ha
    · intro w hw
      rcases List.mem_append.mp hw with h | h
      · exact hg13 w h
      · rw [List.mem_singleton] at h
        subst h
        exact ⟨hv0, hvf, hvc⟩
  · intro t ht1 ht2
    dsimp only at ht1 ⊢
    rw [List.getD_append _ _ _ _ (by rw [hg5]; omega)]

theorem push_stepB1 (cap : Nat) (s : FL) (chain stock : List Nat) (v : Nat)
    (hg : Good cap s chain stock) (hv0 : v ≠ 0) (hvf : v < s.fresh)
    (hvc : v ∉ chain) (hvs : v ∉ stock)
    (hB : (s.tailSeq + 1) % cap = 0) (he : s.headSeq = s.maxSeq) :
    StepOk cap s (pushTail cap s v) stock := by
  obtain ⟨hg1, hg2, hg3, hg4, hg5, hg6, hg7, hg8, hg9, hg10, hg11, hg12, hg13⟩ := hg
  rw [pushTail_roll_empty cap s v hB he]
  have hLpos : 0 < chain.length := by omega
  refine ⟨chain ++ [s.fresh], stock ++ [v], ?_, rfl, le_rfl, ?_⟩
  · unfold Good
    dsimp only
    refine ⟨hg1, by omega, by omega, ?_, ?_, ?_, ?_, ?_, ?_, ?_, ?_, ?_, ?_⟩
    · simp only [List.length_append, List.length_cons, List.length_nil]
      rw [div_succ_of_mod_eq cap s.tailSeq hB]
      have hdle : s.headSeq / cap ≤ s.tailSeq / cap := Nat.div_le_div_right (by omega)
      omega
    · simp only [List.length_append, List.length_cons, List.length_nil, hg5]
      omega
    · rw [List.nodup_append]
      refine ⟨hg6, List.nodup_singleton _, ?_⟩
      intro a ha hb
      rw [List.mem_singleton] at hb
      exact (hg7 a ha).2.ne hb
    · intro p hp
      rcases List.mem_append.mp hp with h | h
      · exact ⟨(hg7 p h).1, by have := (hg7 p h).2; omega⟩
      · rw [List.mem_singleton] at h
        subst h
        exact ⟨by omega, by omega⟩
    · rw [List.getD_append _ _ _ _ hLpos]
      exact hg8
    · simp only [List.length_append, List.length_cons, List.length_nil]
      rw [List.getD_append_right _ _ _ _ (by omega)]
      simp
    · intro i hi
      rw [List.mem_range] at hi
      simp only [List.length_append, List.length_cons, List.length_nil] at hi
      by_cases hiL : i < chain.length - 1
      · have hq : (chain ++ [s.fresh]).getD i 0 = chain.getD i 0 :=
          List.getD_append _ _ _ _ (by omega)
        rw [hq]
        have hqc : chain.getD i 0 ∈ chain := getD_mem_of_lt chain i (by omega)
        have hqt : chain.getD i 0 ≠ s.tailPage := by
          intro hpe
          have := nodup_getD_inj chain hg6 i (chain.length - 1) (by omega) (by omega)
            (by rw [hpe, hg9])
          omega
        have hqf : chain.getD i 0 ≠ s.fresh := (hg7 _ hqc).2.ne
        rw [updNext_page_other _ _ _ _ hqt, zeroPage_page_other _ _ _ hqf, updSlot_next]
        rw [hg10 i (List.mem_range.mpr hiL)]
        exact (List.getD_append _ _ _ _ (by omega)).symm
      · have hieq : i = chain.length - 1 := by omega
        subst hieq
        rw [List.getD_append _ _ _ _ (by omega), ← hg9, updNext_next_self]
        rw [List.getD_append_right _ _ _ _ (by omega)]
        rw [show chain.length - 1 + 1 - chain.length = 0 by omega]
        rfl
    · intro i hi
      rw [List.mem_range] at hi
      have hupper : (s.headSeq + i) / cap ≤ s.tailSeq / cap :=
        Nat.div_le_div_right (by omega)
      have hlower : s.headSeq / cap ≤ (s.headSeq + i) / cap :=
        Nat.div_le_div_right (by omega)
      have hidx : (s.headSeq + i) / cap - s.headSeq / cap < chain.length := by
        rw [hg4]
        omega
      have hq : (chain ++ [s.fresh]).getD ((s.headSeq + i) / cap - s.headSeq / cap) 0 =
          chain.getD ((s.headSeq + i) / cap - s.headSeq / cap) 0 :=
        List.getD_append _ _ _ _ hidx
      rw [hq]
      have hqc : chain.getD ((s.headSeq + i) / cap - s.headSeq / cap) 0 ∈ chain :=
        getD_mem_of_lt chain _ hidx
      have hqf : chain.getD ((s.headSeq + i) / cap - s.headSeq / cap) 0 ≠ s.fresh :=
        (hg7 _ hqc).2.ne
      rw [updNext_ptrs, zeroPage_page_other _ _ _ hqf]
      by_cases hiT : i < s.tailSeq - s.headSeq
      · have hne2 : chain.getD ((s.headSeq + i) / cap - s.headSeq / cap) 0 ≠ s.tailPage ∨
            (s.headSeq + i) % cap ≠ s.tailSeq % cap := by
          by_cases hpe : chain.getD ((s.headSeq + i) / cap - s.headSeq / cap) 0 = s.tailPage
          · right
            have hij := nodup_getD_inj chain hg6 _ (chain.length - 1) hidx (by omega)
              (by rw [hpe, hg9])
            have hteq : (s.headSeq + i) / cap = s.tailSeq / cap := by
              rw [hg4] at hij
              omega
            exact mod_ne_of_div_eq cap _ _ (by omega) hteq
          · left
            exact hpe
        rw [updSlot_ptrs_untouched _ _ _ _ _ _ hne2]
        rw [List.getD_append _ _ _ _ (by rw [hg5]; omega)]
        exact hg11 i (List.mem_range.mpr hiT)
      · have hieq : i = s.tailSeq - s.headSeq := by omega
        subst hieq
        have hts : s.headSeq + (s.tailSeq - s.headSeq) = s.tailSeq := by omega
        rw [hts]
        have hlen1 : chain.length - 1 = s.tailSeq / cap - s.headSeq / cap := by
          rw [hg4]
          omega
        rw [show chain.getD (s.tailSeq / cap - s.headSeq / cap) 0 = s.tailPage by
          rw [← hlen1, ← hg9]]
        rw [updSlot_ptrs_self]
        rw [List.getD_append_right _ _ _ _ (by rw [hg5])]
        rw [hg5]
        simp
    · rw [List.nodup_append]
      refine ⟨hg12, List.nodup_singleton v, ?_⟩
      intro a ha hb
      rw [List.mem_singleton] at hb
      subst hb
      exact hvs ha
    · intro w hw
      rcases List.mem_append.mp hw with h | h
      · obtain ⟨hw1, hw2, hw3⟩ := hg13 w h
        refine ⟨hw1, by omega, ?_⟩
        intro hmem
        rcases List.mem_append.mp hmem with h2 | h2
        · exact hw3 h2
        · rw [List.mem_singleton] at h2
          omega
      · rw [List.mem_singleton] at h
        subst h
        refine ⟨hv0, by omega, ?_⟩
        intro hmem
        rcases List.mem_append.mp hmem with h2 | h2
        · exact hvc h2
        · rw [List.mem_singleton] at h2
          omega
  · intro t ht1 ht2
    dsimp only at ht1 ht2
    omega

theorem head_slot_val (cap : Nat) (s : FL) (chain stock : List Nat)
    (hg : Good cap s chain stock) (hne : ¬s.headSeq = s.maxSeq) (v : Nat) :
    ((updSlot s.pages s.tailPage (s.tailSeq % cap) v) s.headPage).ptrs (s.headSeq % cap) =
      stock.getD 0 0 := by
  obtain ⟨hg1, hg2, hg3, hg4, hg5, hg6, hg7, hg8, hg9, hg10, hg11, hg12, hg13⟩ := hg
  have hhT : s.headSeq < s.tailSeq := by omega
  have hdle : s.headSeq / cap ≤ s.tailSeq / cap := Nat.div_le_div_right (by omega)
  have hslot := hg11 0 (List.mem_range.mpr (by omega))
  rw [Nat.add_zero, Nat.sub_self] at hslot
  rw [← hg8] at hslot
  have hne2 : s.headPage ≠ s.tailPage ∨ s.headSeq % cap ≠ s.tailSeq % cap := by
    by_cases hpe : s.headPage = s.tailPage
    · right
      have h01 := nodup_getD_inj chain hg6 0 (chain.length - 1) (by omega) (by omega)
        (by rw [← hg8, ← hg9, hpe])
      have hdeq : s.headSeq / cap = s.tailSeq / cap := by
        rw [hg4] at h01
        omega
      exact mod_ne_of_div_eq cap _ _ (by omega) hdeq
    · left
      exact hpe
  rw [updSlot_ptrs_untouched _ _ _ _ _ _ hne2]
  exact hslot

theorem push_stepB2a (cap : Nat) (s : FL) (chain stock : List Nat) (v : Nat)
    (hg : Good cap s chain stock) (hv0 : v ≠ 0) (hvf : v < s.fresh)
    (hvc : v ∉ chain) (hvs : v ∉ stock)
    (hB : (s.tailSeq + 1) % cap = 0) (hne : ¬s.headSeq = s.maxSeq)
    (hw : (s.headSeq + 1) % cap ≠ 0) :
    StepOk cap s (pushTail cap s v) stock := by
  have hslot := head_slot_val cap s chain stock hg hne v
  obtain ⟨hg1, hg2, hg3, hg4, hg5, hg6, hg7, hg8, hg9, hg10, hg11, hg12, hg13⟩ := hg
  have hhT : s.headSeq < s.tailSeq := by omega
  obtain ⟨p0, rest, rfl⟩ : ∃ p0 rest, stock = p0 :: rest := by
    cases stock with
    | nil => simp at hg5; omega
    | cons p0 rest => exact ⟨p0, rest, rfl⟩
  have hp0 : p0 ∈ p0 :: rest := by simp
  obtain ⟨hp01, hp02, hp03⟩ := hg13 p0 hp0
  rw [pushTail_roll_pop cap s v hB hne hw (by rw [hslot]; exact hp01)]
  rw [hslot]
  have hLpos : 0 < chain.length := by rw [hg4]; omega
  have hdle : s.headSeq / cap ≤ s.tailSeq / cap := Nat.div_le_div_right (by omega)
  have hrl : rest.length = s.tailSeq - s.headSeq - 1 := by
    simp only [List.length_cons] at hg5
    omega
  refine ⟨chain ++ [p0], rest ++ [v], ?_, rfl, by dsimp only; omega, ?_⟩
  · unfold Good
    dsimp only
    refine ⟨by omega, by omega, hg3, ?_, ?_, ?_, ?_, ?_, ?_, ?_, ?_, ?_, ?_⟩
    · simp only [List.length_append, List.length_cons, List.length_nil]
      rw [div_succ_of_mod_eq cap s.tailSeq hB, div_succ_of_mod_ne cap s.headSeq hw]
      omega
    · simp only [List.length_append, List.length_cons, List.length_nil]
      omega
    · rw [List.nodup_append]
      refine ⟨hg6, List.nodup_singleton _, ?_⟩
      intro a ha hb
      rw [List.mem_singleton] at hb
      subst hb
      exact hp03 ha
    · intro p hp
      rcases List.mem_append.mp hp with h | h
      · exact hg7 p h
      · rw [List.mem_singleton] at h
        subst h
        exact ⟨hp01, hp02⟩
    · rw [List.getD_append _ _ _ _ hLpos]
      exact hg8
    · simp only [List.length_append, List.length_cons, List.length_nil]
      rw [List.getD_append_right _ _ _ _ (by omega)]
      rw [show chain.length + 1 - 1 - chain.length = 0 by omega]
      rfl
    · intro i hi
      rw [List.mem_range] at hi
      simp only [List.length_append, List.length_cons, List.length_nil] at hi
      by_cases hiL : i < chain.length - 1
      · rw [List.getD_append _ _ _ _ (by omega)]
        have hqt : chain.getD i 0 ≠ s.tailPage := by
          intro hpe
          have := nodup_getD_inj chain hg6 i (chain.length - 1) (by omega) (by omega)
            (by rw [hpe, hg9])
          omega
        rw [updNext_page_other _ _ _ _ hqt, updSlot_next]
        rw [hg10 i (List.mem_range.mpr hiL)]
        exact (List.getD_append _ _ _ _ (by omega)).symm
      · have hieq : i = chain.length - 1 := by omega
        subst hieq
        rw [List.getD_append _ _ _ _ (by omega), ← hg9, updNext_next_self]
        rw [List.getD_append_right _ _ _ _ (by omega)]
        rw [show chain.length - 1 + 1 - chain.length = 0 by omega]
        rfl
    · intro i hi
      rw [List.mem_range] at hi
      have harg : s.headSeq + 1 + i = s.headSeq + (i + 1) := by omega
      rw [harg, div_succ_of_mod_ne cap s.headSeq hw]
      have hupper : (s.headSeq + (i + 1)) / cap ≤ s.tailSeq / cap :=
        Nat.div_le_div_right (by omega)
      have hlower : s.headSeq / cap ≤ (s.headSeq + (i + 1)) / cap :=
        Nat.div_le_div_right (by omega)
      have hidx : (s.headSeq + (i + 1)) / cap - s.headSeq / cap < chain.length := by
        rw [hg4]
        omega
      rw [List.getD_append _ _ _ _ hidx, updNext_ptrs]
      by_cases hiT : i < s.tailSeq - s.headSeq - 1
      · have hne2 : chain.getD ((s.headSeq + (i + 1)) / cap - s.headSeq / cap) 0 ≠ s.tailPage ∨
            (s.headSeq + (i + 1)) % cap ≠ s.tailSeq % cap := by
          by_cases hpe : chain.getD ((s.headSeq + (i + 1)) / cap - s.headSeq / cap) 0 =
              s.tailPage
          · right
            have hij := nodup_getD_inj chain hg6 _ (chain.length - 1) hidx (by omega)
              (by rw [hpe, hg9])
            have hteq : (s.headSeq + (i + 1)) / cap = s.tailSeq / cap := by
              rw [hg4] at hij
              omega
            exact mod_ne_of_div_eq cap _ _ (by omega) hteq
          · left
            exact hpe
        rw [updSlot_ptrs_untouched _ _ _ _ _ _ hne2]
        rw [List.getD_append _ _ _ _ (by omega)]
        have := hg11 (i + 1) (List.mem_range.mpr (by omega))
        rw [this]
        rfl
      · have hieq : i = s.tailSeq - s.headSeq - 1 := by omega
        subst hieq
        have hts : s.headSeq + (s.tailSeq - s.headSeq - 1 + 1) = s.tailSeq := by omega
        rw [hts]
        have hlen1 : chain.length - 1 = s.tailSeq / cap - s.headSeq / cap := by
          rw [hg4]
          omega
        rw [show chain.getD (s.tailSeq / cap - s.headSeq / cap) 0 = s.tailPage by
          rw [← hlen1, ← hg9]]
        rw [updSlot_ptrs_self]
        rw [List.getD_append_right _ _ _ _ (by omega)]
        rw [show s.tailSeq - s.headSeq - 1 - rest.length = 0 by omega]
        rfl
    · rw [List.nodup_append]
      refine ⟨(List.nodup_cons.mp hg12).2, List.nodup_singleton v, ?_⟩
      intro a ha hb
      rw [List.mem_singleton] at hb
      subst hb
      exact hvs (by simp [ha])
    · intro w hw2
      rcases List.mem_append.mp hw2 with h | h
      · obtain ⟨hw1, hw2', hw3⟩ := hg13 w (by simp [h])
        refine ⟨hw1, hw2', ?_⟩
        intro hmem
        rcases List.mem_append.mp hmem with h2 | h2
        · exact hw3 h2
        · rw [List.mem_singleton] at h2
          subst h2
          exact (List.nodup_cons.mp hg12).1 h
      · rw [List.mem_singleton] at h
        subst h
        refine ⟨hv0, hvf, ?_⟩
        intro hmem
        rcases List.mem_append.mp hmem with h2 | h2
        · exact hvc h2
        · rw [List.mem_singleton] at h2
          subst h2
          exact hvs hp0
  · intro t ht1 ht2
    dsimp only at ht1 ht2 ⊢
    rw [List.getD_append _ _ _ _ (by omega)]
    rw [show t - s.headSeq = t - (s.headSeq + 1) + 1 by omega]
    rfl

theorem mod_pred_of_succ_zero (c t : Nat) (hc : 2 ≤ c) (h : (t + 1) % c = 0) :
    t % c = c - 1 := by
  have h1 := Nat.div_add_mod (t + 1) c
  have h2 := Nat.div_add_mod t c
  have h3 : t % c < c := Nat.mod_lt t (by omega)
  have h4 : (t + 1) / c = t / c + 1 := div_succ_of_mod_eq c t h
  rw [h4, h] at h1
  have h5 : c * (t / c + 1) = c * (t / c) + c := by ring
  omega

theorem mod_succ_of_zero (c t : Nat) (hc : 2 ≤ c) (h : (t + 1) % c = 0) :
    (t + 1 + 1) % c = 1 := by
  rw [Nat.add_mod, h]
  simp [Nat.mod_eq_of_lt (show 1 < c by omega)]

theorem chain_two_le (cap : Nat) (hcap : 2 ≤ cap) (s : FL) (chain stock : List Nat)
    (hg : Good cap s chain stock) (hne : ¬s.headSeq = s.maxSeq)
    (hw : (s.headSeq + 1) % cap = 0) : 2 ≤ chain.length := by
  obtain ⟨hg1, hg2, hg3, hg4, hg5, hg6, hg7, hg8, hg9, hg10, hg11, hg12, hg13⟩ := hg
  have hdle : s.headSeq / cap ≤ s.tailSeq / cap := Nat.div_le_div_right (by omega)
  by_contra hL
  have hdeq : s.headSeq / cap = s.tailSeq / cap := by
    rw [hg4] at hL
    omega
  have h1 := Nat.div_add_mod s.headSeq cap
  have h2 := Nat.div_add_mod s.tailSeq cap
  have h3 : s.tailSeq % cap < cap := Nat.mod_lt _ (by omega)
  have h4 : s.headSeq % cap = cap - 1 := mod_pred_of_succ_zero cap _ hcap hw
  rw [hdeq] at h1
  omega

theorem push_stepB2b (cap : Nat) (hcap : 2 ≤ cap) (s : FL) (chain stock : List Nat) (v : Nat)
    (hg : Good cap s chain stock) (hv0 : v ≠ 0) (hvf : v < s.fresh)
    (hvc : v ∉ chain) (hvs : v ∉ stock)
    (hB : (s.tailSeq + 1) % cap = 0) (hne : ¬s.headSeq = s.maxSeq)
    (hw : (s.headSeq + 1) % cap = 0) :
    StepOk cap s (pushTail cap s v) stock := by
  have hslot := head_slot_val cap s chain stock hg hne v
  have hL2 := chain_two_le cap hcap s chain stock hg hne hw
  obtain ⟨hg1, hg2, hg3, hg4, hg5, hg6, hg7, hg8, hg9, hg10, hg11, hg12, hg13⟩ := hg
  have hhT : s.headSeq < s.tailSeq := by omega
  obtain ⟨p0, rest, rfl⟩ : ∃ p0 rest, stock = p0 :: rest := by
    cases stock with
    | nil => simp at hg5; omega
    | cons p0 rest => exact ⟨p0, rest, rfl⟩
  obtain ⟨c0, ctail, rfl⟩ : ∃ c0 ctail, chain = c0 :: ctail := by
    cases chain with
    | nil => simp at hL2
    | cons c0 ctail => exact ⟨c0, ctail, rfl⟩
  simp only [List.length_cons] at hL2 hg4
  have hctl : 1 ≤ ctail.length := by omega
  simp only [List.getD_cons_zero] at hg8
  obtain ⟨hp01, hp02, hp03⟩ := hg13 p0 (by simp)
  obtain ⟨hc01, hc02⟩ := hg7 c0 (by simp)
  have hcnd := List.nodup_cons.mp hg6
  have hsnd := List.nodup_cons.mp hg12
  rw [pushTail_roll_wrap cap s v hB hne hw (by rw [hslot]; exact hp01) (hg8 ▸ hc01)]
  rw [hslot]
  simp only [List.getD_cons_zero]
  have hnext : ((updSlot s.pages s.tailPage (s.tailSeq % cap) v) s.headPage).next =
      ctail.getD 0 0 := by
    rw [updSlot_next, hg8]
    have := hg10 0 (List.mem_range.mpr (by simp only [List.length_cons]; omega))
    simpa using this
  rw [hnext]
  have hdle : s.headSeq / cap ≤ s.tailSeq / cap := Nat.div_le_div_right (by omega)
  have hdivT2 : (s.tailSeq + 1 + 1) / cap = s.tailSeq / cap + 1 := by
    rw [div_succ_of_mod_ne cap (s.tailSeq + 1) (by rw [mod_succ_of_zero cap _ hcap hB]; omega),
      div_succ_of_mod_eq cap _ hB]
  have hdivh : (s.headSeq + 1) / cap = s.headSeq / cap + 1 := div_succ_of_mod_eq cap _ hw
  have hrl : rest.length = s.tailSeq - s.headSeq - 1 := by
    simp only [List.length_cons] at hg5
    omega
  have htpc : s.tailPage = ctail.getD (ctail.length - 1) 0 := by
    rw [hg9]
    simp only [List.length_cons, Nat.add_sub_cancel]
    rw [show ctail.length = ctail.length - 1 + 1 by omega]
    rfl
  refine ⟨ctail ++ [p0], rest ++ [v, c0], ?_, rfl, by dsimp only; omega, ?_⟩
  · unfold Good
    dsimp only
    refine ⟨by omega, by omega, hg3, ?_, ?_, ?_, ?_, ?_, ?_, ?_, ?_, ?_, ?_⟩
    · simp only [List.length_append, List.length_cons, List.length_nil]
      rw [hdivT2, hdivh]
      omega
    · simp only [List.length_append, List.length_cons, List.length_nil]
      omega
    · rw [List.nodup_append]
      refine ⟨hcnd.2, List.nodup_singleton _, ?_⟩
      intro a ha hb
      rw [List.mem_singleton] at hb
      subst hb
      exact hp03 (by simp [ha])
    · intro p hp
      rcases List.mem_append.mp hp with h | h
      · exact hg7 p (by simp [h])
      · rw [List.mem_singleton] at h
        subst h
        exact ⟨hp01, hp02⟩
    · rw [List.getD_append _ _ _ _ (by omega)]
    · simp only [List.length_append, List.length_cons, List.length_nil]
      rw [List.getD_append_right _ _ _ _ (by omega)]
      rw [show ctail.length + 1 - 1 - ctail.length = 0 by omega]
      rfl
    · intro i hi
      rw [List.mem_range] at hi
      simp only [List.length_append, List.length_cons, List.length_nil] at hi
      rw [updSlot_next]
      by_cases hiL : i < ctail.length - 1
      · rw [List.getD_append _ _ _ _ (by omega)]
        have hqt : ctail.getD i 0 ≠ s.tailPage := by
          intro hpe
          rw [htpc] at hpe
          have := nodup_getD_inj ctail hcnd.2 i (ctail.length - 1) (by omega) (by omega) hpe
          omega
        rw [updNext_page_other _ _ _ _ hqt, updSlot_next]
        have := hg10 (i + 1) (List.mem_range.mpr (by simp only [List.length_cons]; omega))
        rw [show ((c0 :: ctail).getD (i + 1) 0) = ctail.getD i 0 from rfl] at this
        rw [this]
        rw [show ((c0 :: ctail).getD (i + 1 + 1) 0) = ctail.getD (i + 1) 0 from rfl]
        exact (List.getD_append _ _ _ _ (by omega)).symm
      · have hieq : i = ctail.length - 1 := by omega
        subst hieq
        rw [List.getD_append _ _ _ _ (by omega), ← htpc, updNext_next_self]
        rw [List.getD_append_right _ _ _ _ (by omega)]
        rw [show ctail.length - 1 + 1 - ctail.length = 0 by omega]
        rfl
    · intro i hi
      rw [List.mem_range] at hi
      rw [hdivh]
      by_cases hiT : i < s.tailSeq - s.headSeq - 1
      · have harg : s.headSeq + 1 + i = s.headSeq + (i + 1) := by omega
        rw [harg]
        have hupper : (s.headSeq + (i + 1)) / cap ≤ s.tailSeq / cap :=
          Nat.div_le_div_right (by omega)
        have hlower : s.headSeq / cap + 1 ≤ (s.headSeq + (i + 1)) / cap := by
          have h5 : (s.headSeq + 1) / cap ≤ (s.headSeq + (i + 1)) / cap :=
            Nat.div_le_div_right (by omega)
          rw [hdivh] at h5
          omega
        have hidx : (s.headSeq + (i + 1)) / cap - (s.headSeq / cap + 1) < ctail.length := by
          omega
        rw [List.getD_append _ _ _ _ hidx]
        have hctc : ctail.getD ((s.headSeq + (i + 1)) / cap - (s.headSeq / cap + 1)) 0 =
            (c0 :: ctail).getD ((s.headSeq + (i + 1)) / cap - s.headSeq / cap) 0 := by
          rw [show (s.headSeq + (i + 1)) / cap - s.headSeq / cap =
            ((s.headSeq + (i + 1)) / cap - (s.headSeq / cap + 1)) + 1 by omega]
          rfl
        have hmem : ctail.getD ((s.headSeq + (i + 1)) / cap - (s.headSeq / cap + 1)) 0 ∈
            c0 :: ctail := List.mem_cons_of_mem c0 (getD_mem_of_lt ctail _ hidx)
        rw [updSlot_ptrs_untouched _ _ _ _ _ _
          (Or.inl (fun hpe => hp03 (by rw [← hpe]; exact hmem)))]
        rw [updNext_ptrs]
        have hne2 : ctail.getD ((s.headSeq + (i + 1)) / cap - (s.headSeq / cap + 1)) 0 ≠
            s.tailPage ∨ (s.headSeq + (i + 1)) % cap ≠ s.tailSeq % cap := by
          by_cases hpe : ctail.getD ((s.headSeq + (i + 1)) / cap - (s.headSeq / cap + 1)) 0 =
              s.tailPage
          · right
            rw [htpc] at hpe
            have hij := nodup_getD_inj ctail hcnd.2 _ (ctail.length - 1) hidx (by omega) hpe
            have hteq : (s.headSeq + (i + 1)) / cap = s.tailSeq / cap := by omega
            exact mod_ne_of_div_eq cap _ _ (by omega) hteq
          · left
            exact hpe
        rw [updSlot_ptrs_untouched _ _ _ _ _ _ hne2]
        have := hg11 (i + 1) (List.mem_range.mpr (by omega))
        rw [hctc, this]
        rw [List.getD_append _ _ _ _ (by omega)]
        rfl
      · by_cases hiT2 : i = s.tailSeq - s.headSeq - 1
        · subst hiT2
          have hts : s.headSeq + 1 + (s.tailSeq - s.headSeq - 1) = s.tailSeq := by omega
          rw [hts]
          have hidx2 : s.tailSeq / cap - (s.headSeq / cap + 1) = ctail.length - 1 := by omega
          rw [hidx2]
          rw [List.getD_append _ _ _ _ (by omega), ← htpc]
          rw [updSlot_ptrs_untouched _ _ _ _ _ _
            (Or.inl (fun hpe => hp03 (by
              rw [← hpe, htpc]
              exact List.mem_cons_of_mem c0 (getD_mem_of_lt ctail _
                (show ctail.length - 1 < ctail.length by omega)))))]
          rw [updNext_ptrs, updSlot_ptrs_self]
          rw [List.getD_append_right _ _ _ _ (by omega)]
          rw [show s.tailSeq - s.headSeq - 1 - rest.length = 0 by omega]
          rfl
        · have hieq : i = s.tailSeq - s.headSeq := by omega
          subst hieq
          have hts : s.headSeq + 1 + (s.tailSeq - s.headSeq) = s.tailSeq + 1 := by omega
          rw [hts]
          have hidx3 : (s.tailSeq + 1) / cap - (s.headSeq / cap + 1) = ctail.length := by
            rw [div_succ_of_mod_eq cap _ hB]
            omega
          rw [hidx3]
          rw [List.getD_append_right _ _ _ _ (by omega), Nat.sub_self]
          simp only [List.getD_cons_zero]
          rw [hB, updSlot_ptrs_self]
          rw [List.getD_append_right _ _ _ _ (by omega)]
          rw [show s.tailSeq - s.headSeq - rest.length = 1 by omega]
          rw [hg8]
          rfl
    · rw [List.nodup_append]
      refine ⟨hsnd.2, ?_, ?_⟩
      · rw [List.nodup_cons]
        refine ⟨?_, List.nodup_singleton c0⟩
        rw [List.mem_singleton]
        intro hvc0
        exact hvc (by simp [hvc0])
      · intro a ha hb
        rcases List.mem_cons.mp hb with h | h
        · subst h
          exact hvs (by simp [ha])
        · rw [List.mem_singleton] at h
          subst h
          exact (hg13 a (by simp [ha])).2.2 (by simp)
    · intro w hw2
      rcases List.mem_append.mp hw2 with h | h
      · obtain ⟨hw1, hw2', hw3⟩ := hg13 w (by simp [h])
        refine ⟨hw1, hw2', ?_⟩
        intro hmem
        rcases List.mem_append.mp hmem with h2 | h2
        · exact hw3 (by simp [h2])
        · rw [List.mem_singleton] at h2
          subst h2
          exact hsnd.1 h
      · rcases List.mem_cons.mp h with h2 | h2
        · subst h2
          refine ⟨hv0, hvf, ?_⟩
          intro hmem
          rcases List.mem_append.mp hmem with h3 | h3
          · exact hvc (by simp [h3])
          · rw [List.mem_singleton] at h3
            subst h3
            exact hvs (by simp)
        · rw [List.mem_singleton] at h2
          subst h2
          refine ⟨hc01, hc02, ?_⟩
          intro hmem
          rcases List.mem_append.mp hmem with h3 | h3
          · exact hcnd.1 h3
          · rw [List.mem_singleton] at h3
            exact hp03 (by simp [h3])
  · intro t ht1 ht2
    dsimp only at ht1 ht2 ⊢
    rw [List.getD_append _ _ _ _ (by omega)]
    rw [show t - s.headSeq = t - (s.headSeq + 1) + 1 by omega]
    rfl

theorem pushTail_stepOk (cap : Nat) (hcap : 2 ≤ cap) (s : FL) (chain stock : List Nat)
    (v : Nat) (hg : Good cap s chain stock) (hv0 : v ≠ 0) (hvf : v < s.fresh)
    (hvc : v ∉ chain) (hvs : v ∉ stock) :
    StepOk cap s (pushTail cap s v) stock := by
  by_cases hB : (s.tailSeq + 1) % cap = 0
  · by_cases hne : s.headSeq = s.maxSeq
    · exact push_stepB1 cap s chain stock v hg hv0 hvf hvc hvs hB hne
    · by_cases hw : (s.headSeq + 1) % cap = 0
      · exact push_stepB2b cap hcap s chain stock v hg hv0 hvf hvc hvs hB hne hw
      · exact push_stepB2a cap s chain stock v hg hv0 hvf hvc hvs hB hne hw
  · exact push_stepA cap s chain stock v hg hv0 hvf hvc hvs hB

theorem popHead_out (cap : Nat) (s : FL) (chain stock : List Nat)
    (hg : Good cap s chain stock) :
    (popHead cap s).1 = if s.headSeq = s.maxSeq then 0 else stock.getD 0 0 := by
  obtain ⟨hg1, hg2, hg3, hg4, hg5, hg6, hg7, hg8, hg9, hg10, hg11, hg12, hg13⟩ := hg
  by_cases hne : s.headSeq = s.maxSeq
  · simp [popHead, flPop, hne]
  · have hhT : s.headSeq < s.tailSeq := by omega
    have hslot := hg11 0 (List.mem_range.mpr (by omega))
    rw [Nat.add_zero, Nat.sub_self] at hslot
    rw [← hg8] at hslot
    rw [if_neg hne, ← hslot]
    by_cases hw : (s.headSeq + 1) % cap = 0
    · simp [popHead, flPop, hne, hw]
    · simp [popHead, flPop, hne, hw]

theorem popHead_stepOk (cap : Nat) (hcap : 2 ≤ cap) (s : FL) (chain stock : List Nat)
    (hg : Good cap s chain stock) :
    StepOk cap s (popHead cap s).2 stock := by
  by_cases hne : s.headSeq = s.maxSeq
  · rw [show (popHead cap s).2 = s by simp [popHead, flPop, hne]]
    exact ⟨chain, stock, hg, rfl, le_rfl, fun t _ _ => rfl⟩
  · have hL2 : (s.headSeq + 1) % cap = 0 → 2 ≤ chain.length := fun hw =>
      chain_two_le cap hcap s chain stock hg hne hw
    obtain ⟨hg1, hg2, hg3, hg4, hg5, hg6, hg7, hg8, hg9, hg10, hg11, hg12, hg13⟩ := hg
    have hhT : s.headSeq < s.tailSeq := by omega
    have hdle : s.headSeq / cap ≤ s.tailSeq / cap := Nat.div_le_div_right (by omega)
    obtain ⟨p0, rest, rfl⟩ : ∃ p0 rest, stock = p0 :: rest := by
      cases stock with
      | nil => simp at hg5; omega
      | cons p0 rest => exact ⟨p0, rest, rfl⟩
    obtain ⟨c0, ctail, rfl⟩ : ∃ c0 ctail, chain = c0 :: ctail := by
      cases chain with
      | nil => simp at hg4
      | cons c0 ctail => exact ⟨c0, ctail, rfl⟩
    simp only [List.length_cons] at hg4 hg5
    simp only [List.getD_cons_zero] at hg8
    obtain ⟨hc01, hc02⟩ := hg7 c0 (by simp)
    have hcnd := List.nodup_cons.mp hg6
    have hsnd := List.nodup_cons.mp hg12
    by_cases hw : (s.headSeq + 1) % cap = 0
    · -- the head node is exhausted: it is unlinked and re-pushed
      have hL2' := hL2 hw
      simp only [List.length_cons] at hL2'
      have hctl : 1 ≤ ctail.length := by omega
      have hdivh : (s.headSeq + 1) / cap = s.headSeq / cap + 1 := div_succ_of_mod_eq cap _ hw
      have htpc : s.tailPage = ctail.getD (ctail.length - 1) 0 := by
        rw [hg9]
        simp only [List.length_cons, Nat.add_sub_cancel]
        rw [show ctail.length = ctail.length - 1 + 1 by omega]
        rfl
      have hpop2 : (popHead cap s).2 = pushTail cap
          { s with headSeq := s.headSeq + 1, headPage := (s.pages s.headPage).next }
          s.headPage := by
        rw [popHead_wrap cap s hne hw (hg8 ▸ hc01)]
      rw [hpop2]
      have hnext : (s.pages s.headPage).next = ctail.getD 0 0 := by
        rw [hg8]
        have := hg10 0 (List.mem_range.mpr (by simp only [List.length_cons]; omega))
        simpa using this
      rw [hnext]
      have hgood2 : Good cap
          { s with headSeq := s.headSeq + 1, headPage := ctail.getD 0 0 } ctail rest := by
        unfold Good
        dsimp only
        refine ⟨by omega, hg2, hg3, ?_, ?_, hcnd.2, ?_, rfl, ?_, ?_, ?_, hsnd.2, ?_⟩
        · rw [hdivh]
          omega
        · omega
        · intro p hp
          exact hg7 p (by simp [hp])
        · rw [htpc]
        · intro i hi
          rw [List.mem_range] at hi
          have := hg10 (i + 1) (List.mem_range.mpr (by simp only [List.length_cons]; omega))
          rw [show ((c0 :: ctail).getD (i + 1) 0) = ctail.getD i 0 from rfl] at this
          rw [this]
          rfl
        · intro i hi
          rw [List.mem_range] at hi
          rw [hdivh]
          have harg : s.headSeq + 1 + i = s.headSeq + (i + 1) := by omega
          rw [harg]
          have hlower : s.headSeq / cap + 1 ≤ (s.headSeq + (i + 1)) / cap := by
            have h5 : (s.headSeq + 1) / cap ≤ (s.headSeq + (i + 1)) / cap :=
              Nat.div_le_div_right (by omega)
            rw [hdivh] at h5
            omega
          have hctc : ctail.getD ((s.headSeq + (i + 1)) / cap - (s.headSeq / cap + 1)) 0 =
              (c0 :: ctail).getD ((s.headSeq + (i + 1)) / cap - s.headSeq / cap) 0 := by
            rw [show (s.headSeq + (i + 1)) / cap - s.headSeq / cap =
              ((s.headSeq + (i + 1)) / cap - (s.headSeq / cap + 1)) + 1 by omega]
            rfl
          rw [hctc]
          have := hg11 (i + 1) (List.mem_range.mpr (by omega))
          rw [this]
          rfl
        · intro w hw2
          obtain ⟨h1, h2, h3⟩ := hg13 w (by simp [hw2])
          exact ⟨h1, h2, fun hmem => h3 (by simp [hmem])⟩
      have hstep := pushTail_stepOk cap hcap _ ctail rest s.headPage hgood2
        (hg8 ▸ hc01) (by dsimp only; exact hg8 ▸ hc02)
        (by rw [hg8]; exact hcnd.1)
        (by
          rw [hg8]
          intro hmem
          exact (hg13 c0 (by simp [hmem])).2.2 (by simp))
      obtain ⟨chain', stock', hgood', hmax', hhead', hwin'⟩ := hstep
      refine ⟨chain', stock', hgood', by rw [hmax'], by dsimp only at hhead' ⊢; omega, ?_⟩
      intro t ht1 ht2
      have hw2 := hwin' t ht1 (by dsimp only; omega)
      rw [hw2]
      dsimp only
      rw [show t - s.headSeq = t - (s.headSeq + 1) + 1 by
        dsimp only at hhead'
        omega]
      rfl
    · -- plain pop within the head node
      have hdivh : (s.headSeq + 1) / cap = s.headSeq / cap := div_succ_of_mod_ne cap _ hw
      rw [show (popHead cap s).2 = { s with headSeq := s.headSeq + 1 } by
        rw [popHead_simple cap s hne hw]]
      refine ⟨c0 :: ctail, rest, ?_, rfl, by dsimp only; omega, ?_⟩
      · unfold Good
        dsimp only
        refine ⟨by omega, hg2, hg3, ?_, ?_, hg6, hg7, hg8, hg9, hg10, ?_, hsnd.2, ?_⟩
        · rw [hdivh]
          simp only [List.length_cons]
          omega
        · omega
        · intro i hi
          rw [List.mem_range] at hi
          rw [hdivh]
          have harg : s.headSeq + 1 + i = s.headSeq + (i + 1) := by omega
          rw [harg]
          have := hg11 (i + 1) (List.mem_range.mpr (by omega))
          rw [this]
          rfl
        · intro w hw2
          exact hg13 w (by simp [hw2])
      · intro t ht1 ht2
        dsimp only at ht1 ht2 ⊢
        rw [show t - s.headSeq = t - (s.headSeq + 1) + 1 by omega]
        rfl

theorem walk_eq (pages : Nat → LN) : ∀ (chain : List Nat) (p : Nat),
    p = chain.getD 0 0 →
    (∀ i ∈ List.range (chain.length - 1),
      (pages (chain.getD i 0)).next = chain.getD (i + 1) 0) →
    walk pages p chain.length = chain := by
  intro chain
  induction chain with
  | nil => intro p _ _; rfl
  | cons c0 ctail ih =>
    intro p hp hnext
    simp only [List.getD_cons_zero] at hp
    rw [hp]
    cases ctail with
    | nil => rfl
    | cons c1 crest =>
      have h0 := hnext 0 (List.mem_range.mpr (by simp only [List.length_cons]; omega))
      simp only [List.getD_cons_zero] at h0
      rw [show walk pages c0 (c0 :: c1 :: crest).length =
        c0 :: walk pages ((pages c0).next) (c1 :: crest).length from rfl]
      rw [show ((c0 :: c1 :: crest).getD 1 0) = c1 from rfl] at h0
      rw [h0]
      rw [ih c1 rfl ?_]
      intro i hi
      rw [List.mem_range] at hi
      have := hnext (i + 1) (List.mem_range.mpr (by simp only [List.length_cons] at hi ⊢; omega))
      exact this

theorem chainOf_eq (cap : Nat) (s : FL) (chain stock : List Nat)
    (hg : Good cap s chain stock) : chainOf cap s = chain := by
  obtain ⟨hg1, hg2, hg3, hg4, hg5, hg6, hg7, hg8, hg9, hg10, hg11, hg12, hg13⟩ := hg
  rw [chainOf, ← hg4]
  exact walk_eq s.pages chain s.headPage hg8 hg10

theorem stockOf_eq (cap : Nat) (s : FL) (chain stock : List Nat)
    (hg : Good cap s chain stock) : stockOf cap s = stock := by
  rw [stockOf, chainOf_eq cap s chain stock hg]
  obtain ⟨hg1, hg2, hg3, hg4, hg5, hg6, hg7, hg8, hg9, hg10, hg11, hg12, hg13⟩ := hg
  rw [show slotVal cap s chain = fun t =>
    (s.pages (chain.getD (t / cap - s.headSeq / cap) 0)).ptrs (t % cap) from rfl]
  rw [← hg5]
  have hcong : ∀ i ∈ List.range stock.length,
      (s.pages (chain.getD ((s.headSeq + i) / cap - s.headSeq / cap) 0)).ptrs
        ((s.headSeq + i) % cap) = stock.getD i 0 := by
    intro i hi
    exact hg11 i (by rw [hg5] at hi; exact hi)
  calc (List.range stock.length).map (fun i =>
        (s.pages (chain.getD ((s.headSeq + i) / cap - s.headSeq / cap) 0)).ptrs
          ((s.headSeq + i) % cap))
      = (List.range stock.length).map (fun i => stock.getD i 0) := by
        apply List.map_congr_left
        intro i hi
        exact hcong i hi
    _ = stock := map_getD_range stock

theorem flRun_append (cap : Nat) : ∀ (l1 l2 : List FLOp) (s : FL),
    flRun cap s (l1 ++ l2) = flRun cap (flRun cap s l1) l2 := by
  intro l1
  induction l1 with
  | nil => intro l2 s; rfl
  | cons op ops ih =>
    intro l2 s
    rw [show (op :: ops) ++ l2 = op :: (ops ++ l2) from rfl]
    rw [show flRun cap s (op :: (ops ++ l2)) = flRun cap (flStep cap s op) (ops ++ l2) from rfl]
    rw [show flRun cap s (op :: ops) = flRun cap (flStep cap s op) ops from rfl]
    exact ih l2 (flStep cap s op)

theorem runOuts_safe (cap : Nat) (hcap : 2 ≤ cap) (v : Nat) :
    ∀ (ops : List FLOp) (s : FL) (chain stock : List Nat),
      Good cap s chain stock →
      (∀ op ∈ ops, op ≠ FLOp.setMax) →
      legalOps cap s ops →
      v ≠ 0 →
      (∀ t, s.headSeq ≤ t → t < s.maxSeq → stock.getD (t - s.headSeq) 0 ≠ v) →
      v ∉ runOuts cap s ops := by
  intro ops
  induction ops with
  | nil =>
    intro s chain stock _ _ _ _ _
    rw [show runOuts cap s [] = [] from rfl]
    exact List.not_mem_nil v
  | cons op ops ih =>
    intro s chain stock hg hno hleg hv0 hwin
    cases op with
    | push w =>
      rw [show runOuts cap s (FLOp.push w :: ops) =
        runOuts cap (pushTail cap s w) ops from rfl]
      have hleg' : pushable cap s w ∧ legalOps cap (pushTail cap s w) ops := hleg
      obtain ⟨hpw, hleg2⟩ := hleg'
      unfold pushable at hpw
      rw [chainOf_eq cap s chain stock hg, stockOf_eq cap s chain stock hg] at hpw
      obtain ⟨hw0, hwf, hwc, hws⟩ := hpw
      obtain ⟨chain', stock', hg', hmax', hhead', hwin'⟩ :=
        pushTail_stepOk cap hcap s chain stock w hg hw0 hwf hwc hws
      apply ih _ chain' stock' hg' (fun op h => hno op (by simp [h])) hleg2 hv0
      intro t ht1 ht2
      rw [hmax'] at ht2
      rw [hwin' t ht1 ht2]
      exact hwin t (by omega) ht2
    | pop =>
      rw [show runOuts cap s (FLOp.pop :: ops) =
        (popHead cap s).1 :: runOuts cap (popHead cap s).2 ops from rfl]
      have hleg2 : legalOps cap (popHead cap s).2 ops := hleg
      intro hmem
      rcases List.mem_cons.mp hmem with h | h
      · rw [popHead_out cap s chain stock hg] at h
        by_cases hne : s.headSeq = s.maxSeq
        · rw [if_pos hne] at h
          exact hv0 h
        · rw [if_neg hne] at h
          have hg1 := hg.1
          apply hwin s.headSeq le_rfl (by omega)
          rw [Nat.sub_self]
          exact h.symm
      · obtain ⟨chain', stock', hg', hmax', hhead', hwin'⟩ :=
          popHead_stepOk cap hcap s chain stock hg
        exact ih _ chain' stock' hg' (fun op h2 => hno op (by simp [h2])) hleg2 hv0
          (by
            intro t ht1 ht2
            rw [hmax'] at ht2
            rw [hwin' t ht1 ht2]
            exact hwin t (by omega) ht2) h
    | setMax => exact absurd rfl (hno FLOp.setMax (by simp))

theorem flRun_good (cap : Nat) (hcap : 2 ≤ cap) :
    ∀ (ops1 rest : List FLOp) (s : FL) (chain stock : List Nat),
      Good cap s chain stock →
      (∀ op ∈ ops1, op ≠ FLOp.setMax) →
      legalOps cap s (ops1 ++ rest) →
      ∃ chain' stock', Good cap (flRun cap s ops1) chain' stock' ∧
        legalOps cap (flRun cap s ops1) rest := by
  intro ops1
  induction ops1 with
  | nil =>
    intro rest s chain stock hg _ hleg
    exact ⟨chain, stock, hg, hleg⟩
  | cons op ops ih =>
    intro rest s chain stock hg hno hleg
    cases op with
    | push w =>
      have hleg' : pushable cap s w ∧ legalOps cap (pushTail cap s w) (ops ++ rest) := hleg
      obtain ⟨hpw, hleg2⟩ := hleg'
      unfold pushable at hpw
      rw [chainOf_eq cap s chain stock hg, stockOf_eq cap s chain stock hg] at hpw
      obtain ⟨hw0, hwf, hwc, hws⟩ := hpw
      obtain ⟨chain', stock', hg', _, _, _⟩ :=
        pushTail_stepOk cap hcap s chain stock w hg hw0 hwf hwc hws
      exact ih rest _ chain' stock' hg' (fun op h => hno op (by simp [h])) hleg2
    | pop =>
      have hleg2 : legalOps cap (popHead cap s).2 (ops ++ rest) := hleg
      obtain ⟨chain', stock', hg', _, _, _⟩ := popHead_stepOk cap hcap s chain stock hg
      exact ih rest _ chain' stock' hg' (fun op h => hno op (by simp [h])) hleg2
    | setMax => exact absurd rfl (hno FLOp.setMax (by simp))

/-- C4: watermark barrier.  From any well-formed free-list state, run any
operations without SetMaxSeq, each pushed identifier being legal (nonzero,
allocated, not currently a list node or queued) at its call state.  Then a
value handed to PushTail somewhere in the run is never the value PopHead
returns to the caller afterwards, until SetMaxSeq is called again; in
particular PopHead returns no item (0) whenever headSeq equals maxSeq. -/
theorem c4_watermark_barrier (cap : Nat) (hcap : 2 ≤ cap)
    (s : FL) (chain stock : List Nat) (hg : Good cap s chain stock)
    (v : Nat) (ops1 ops2 : List FLOp)
    (hno : ∀ op ∈ ops1 ++ FLOp.push v :: ops2, op ≠ FLOp.setMax)
    (hleg : legalOps cap s (ops1 ++ FLOp.push v :: ops2)) :
    v ∉ runOuts cap (flRun cap s (ops1 ++ [FLOp.push v])) ops2 ∧
    (∀ s2 : FL, s2.headSeq = s2.maxSeq → (popHead cap s2).1 = 0) := by
  constructor
  · obtain ⟨chain1, stock1, hg1, hleg1⟩ := flRun_good cap hcap ops1 (FLOp.push v :: ops2)
      s chain stock hg (fun op h => hno op (List.mem_append.mpr (Or.inl h))) hleg
    have hleg1' : pushable cap (flRun cap s ops1) v ∧
        legalOps cap (pushTail cap (flRun cap s ops1) v) ops2 := hleg1
    obtain ⟨hpv, hleg2⟩ := hleg1'
    unfold pushable at hpv
    rw [chainOf_eq cap _ chain1 stock1 hg1, stockOf_eq cap _ chain1 stock1 hg1] at hpv
    obtain ⟨hv0, hvf, hvc, hvs⟩ := hpv
    obtain ⟨chain2, stock2, hg2, hmax2, hhead2, hwin2⟩ :=
      pushTail_stepOk cap hcap _ chain1 stock1 v hg1 hv0 hvf hvc hvs
    rw [flRun_append]
    rw [show flRun cap (flRun cap s ops1) [FLOp.push v] =
      pushTail cap (flRun cap s ops1) v from rfl]
    apply runOuts_safe cap hcap v ops2 _ chain2 stock2 hg2
      (fun op h => hno op (List.mem_append.mpr (Or.inr (List.mem_cons_of_mem _ h))))
      hleg2 hv0
    intro t ht1 ht2
    rw [hmax2] at ht2
    rw [hwin2 t ht1 ht2]
    obtain ⟨k1, k2, k3, k4, k5, _⟩ := hg1
    intro hEq
    apply hvs
    rw [← hEq]
    apply getD_mem_of_lt
    rw [k5]
    have : (flRun cap s ops1).headSeq ≤ t := by omega
    omega
  · intro s2 h2
    simp [popHead, flPop, h2]

/-- Witness for C4: on a concrete two-item state below the watermark, the
identifier 7 pushed above the watermark is never among the popped values. -/
theorem c4_watermark_barrier_witness :
    (7 ∉ runOuts 2 (flRun 2 c4wState ([] ++ [FLOp.push 7]))
      [FLOp.pop, FLOp.pop, FLOp.pop]) ∧
    (∀ s2 : FL, s2.headSeq = s2.maxSeq → (popHead 2 s2).1 = 0) :=
  c4_watermark_barrier 2 (by decide) c4wState [1, 2] [5, 6] (by decide) 7 []
    [FLOp.pop, FLOp.pop, FLOp.pop] (by decide) (by decide)

end SyncDB
